import Mathlib

/-!
Shallow embedding of the go-fsst library (Go package `fsst`): symbol table,
dictionary parsing, compression, decompression and the dictionary trainer,
together with proofs of the specified properties.

Modelling conventions: Go bytes are `Nat` values (with `< 256` hypotheses where
the Go type system enforces byte range), Go byte slices and strings are
`List Nat`, fixed-size Go arrays are functions `Nat → Nat` updated pointwise,
the Go `int16` counters are `Int` with explicit two's-complement wrapping, and
Go loops whose termination depends on data invariants take explicit fuel and
return `Option`/`Except` (`none` marks fuel exhaustion, which is proved
unreachable for the tables the library actually constructs).
-/

namespace fsst

/-- Constant `MaxSymbolLength = 8`. Its declaration lives in a repository file
that is not under `src/`; the value is fixed by the spec (`MAX_SYMBOL_LEN = 8`)
and forced by `Decompress`, which locates symbol `code` at offset `code << 3`
in an array of size `NumSymbols * MaxSymbolLength`. -/
def MaxSymbolLength : Nat := 8

/-- Constant `NumSymbols = 256`. Declared outside `src/`; the value is fixed by
the spec (`NUM_SYMBOLS = 256`) and by the decoder's `lens` array being indexed
by a byte. -/
def NumSymbols : Nat := 256

/-- `const escapeMarker byte = 0xff` from src/fsst.go. -/
def escapeMarker : Nat := 0xff

/-- `fsst_hash` from src/fsst.go: `w = w * 2971215073; return w ^ (w >> 15)`
on `uint64`, with the multiplication taken modulo 2^64. -/
def fsst_hash (w : Nat) : Nat :=
  let w2 := (w * 2971215073) % 2 ^ 64
  Nat.xor w2 (w2 >>> 15)

/-- The `symbolTable` struct from src/fsst.go. `Index` models the Go array
`[257]int` as a function (only arguments `0..256` are ever read); `Symbols`
is the slice `[][]byte`. -/
structure symbolTable where
  Nsymbols : Nat
  Index : Nat → Nat
  Symbols : List (List Nat)

/-- `newSymbolTable` from src/fsst.go: 256 singleton symbols, zero-valued
`Index` array (Go zero value), no learned symbols. -/
def newSymbolTable : symbolTable :=
  { Nsymbols := 0
    Index := fun _ => 0
    Symbols := (List.range 256).map (fun i => [i]) }

/-- `symbolTable.insert` from src/fsst.go: append the symbol and bump
`Nsymbols`. -/
def symbolTable.insert (st : symbolTable) (s : List Nat) : symbolTable :=
  { st with Symbols := st.Symbols ++ [s], Nsymbols := st.Nsymbols + 1 }

/-- The scanning loop of `symbolTable.findLongestSymbol` from src/fsst.go:
starting at `code`, scan while `code < Index[letter+1]`; return the first
symbol of the scan that is a prefix of `text` (`len(text) >= len(sym)` and
`bytes.Equal(text[:symLen], sym)`), else the escape result `(letter, 1)`.
The structural fuel argument is the size of the remaining scan range, so the
fuel runs out exactly when the loop guard fails; the caller passes the full
range size. -/
def symbolTable.findScan (st : symbolTable) (text : List Nat) (letter : Nat) :
    Nat → Nat → Nat × Nat
  | 0, _ => (letter, 1)
  | fuel + 1, code =>
      if code < st.Index (letter + 1) then
        let sym := st.Symbols.getD code []
        if sym.length ≤ text.length ∧ text.take sym.length = sym then
          (code, sym.length)
        else st.findScan text letter fuel (code + 1)
      else (letter, 1)

/-- `symbolTable.findLongestSymbol` from src/fsst.go. `letter` is `text[0]`
(all callers pass non-empty `text`; `headD 0` models the panicking access). -/
def symbolTable.findLongestSymbol (st : symbolTable) (text : List Nat) : Nat × Nat :=
  st.findScan text (text.headD 0)
    (st.Index (text.headD 0 + 1) - st.Index (text.headD 0))
    (st.Index (text.headD 0))

/-- Strict lexicographic order on byte strings: `bytes.Compare(s1, s2) < 0`. -/
def lexLt : List Nat → List Nat → Bool
  | [], [] => false
  | [], _ :: _ => true
  | _ :: _, [] => false
  | a :: as, b :: bs => if a < b then true else if b < a then false else lexLt as bs

/-- The comparison closure passed to `sort.Slice` in
`symbolTable.makeIndex` (src/fsst.go): if the first bytes agree, longer
strings come first, otherwise `bytes.Compare(s1, s2) < 0`. -/
def symLess (s1 s2 : List Nat) : Bool :=
  if s1.headD 0 = s2.headD 0 then s2.length < s1.length
  else lexLt s1 s2

/-- Non-strict version of `symLess` used to model `sort.Slice`'s
postcondition. `sort.Slice` is an unstable deterministic sort whose order on
ties (equal first byte and equal length) is implementation-defined; it is
modelled as a stable insertion sort with respect to this relation. -/
def sortLe (s1 s2 : List Nat) : Bool := ! symLess s2 s1

/-- `sortLe` as a decidable relation, for the sort. -/
def symLe (s1 s2 : List Nat) : Prop := sortLe s1 s2 = true

instance : DecidableRel symLe := fun s1 s2 => by unfold symLe; infer_instance

/-- `symbolTable.makeIndex` from src/fsst.go: sort the learned symbols
(`Symbols[256:]`) in place, fill the whole `Index` array with the sentinel
`256 + Nsymbols`, then walk `i` from `Nsymbols-1` down to `0` setting
`Index[Symbols[i+256][0]] = 256 + i` (so the surviving value for each first
byte is its smallest position). -/
def symbolTable.makeIndex (st : symbolTable) : symbolTable :=
  let sorted := List.insertionSort symLe (st.Symbols.drop 256)
  let sentinel := 256 + st.Nsymbols
  let idx := (List.range st.Nsymbols).reverse.foldl
    (fun idx i => fun b =>
      if b = (sorted.getD i []).headD 0 then 256 + i else idx b)
    (fun _ => sentinel)
  { st with Symbols := st.Symbols.take 256 ++ sorted, Index := idx }

/-- Error values of the library. The Go code returns `error` values built with
`fmt.Errorf`/`errors.New`; each constructor below stands for one of those
messages ("data is too short", "header claims more data than available",
"too many symbols", "stream ends with an escape code",
"symbol code %d do not exist in dictionary"). -/
inductive FsstError where
  | invalidDictTooShort : FsstError
  | invalidDictHeader : FsstError
  | invalidDictTooManySymbols : FsstError
  | truncatedStream : FsstError
  | unknownCode (code : Nat) : FsstError
deriving DecidableEq

/-- Inner loop of `newSymbolTableFromDict` (src/fsst.go) for one header entry:
insert `n` symbols of length `symLen` starting at offset `frm`, failing if
`to > len(dict)` at any step. Returns the table and the final offset. -/
def insertLoop (dict : List Nat) (symLen : Nat) :
    Nat → Nat → symbolTable → Except FsstError (symbolTable × Nat)
  | 0, frm, st => .ok (st, frm)
  | n + 1, frm, st =>
      if frm + symLen > dict.length then .error .invalidDictHeader
      else insertLoop dict symLen n (frm + symLen)
        (st.insert ((dict.drop frm).take symLen))

/-- Outer loop of `newSymbolTableFromDict` (src/fsst.go): for
`i = 0 .. MaxSymbolLength-1` read count `dict[i]` and consume that many
symbols of length `MaxSymbolLength - i`. The structural fuel argument counts
the remaining header entries (`MaxSymbolLength - i`); the caller passes
`MaxSymbolLength`, so the fuel runs out exactly when the loop ends. -/
def parseLoop (dict : List Nat) : Nat → Nat → Nat → symbolTable →
    Except FsstError (symbolTable × Nat)
  | 0, _, frm, st => .ok (st, frm)
  | fuel + 1, i, frm, st =>
      if i < MaxSymbolLength then
        match insertLoop dict (MaxSymbolLength - i) (dict.getD i 0) frm st with
        | .error e => .error e
        | .ok (st', frm') => parseLoop dict fuel (i + 1) frm' st'
      else .ok (st, frm)

/-- `newSymbolTableFromDict` from src/fsst.go. -/
def newSymbolTableFromDict (dict : List Nat) : Except FsstError symbolTable :=
  if dict.length < MaxSymbolLength then .error .invalidDictTooShort
  else
    match parseLoop dict MaxSymbolLength 0 MaxSymbolLength newSymbolTable with
    | .error e => .error e
    | .ok (st, _) =>
        if st.Nsymbols > NumSymbols - 1 then .error .invalidDictTooManySymbols
        else .ok st.makeIndex

/-- The `Compressor` struct from src/fsst.go. -/
structure Compressor where
  table : symbolTable

/-- `NewCompressor` from src/fsst.go. -/
def NewCompressor (dict : List Nat) : Except FsstError Compressor :=
  (newSymbolTableFromDict dict).map (fun st => ⟨st⟩)

/-- The loop of `Compressor.Compress` (src/fsst.go), with explicit fuel: while
input remains, look up the longest symbol; a code `< 256` emits the escape
pair and advances by one, a learned code emits `byte(code - 256)` and advances
by the symbol length. Fuel exhaustion (`none`) is unreachable when every
symbol of the table is non-empty (proved below). -/
def compressLoop (st : symbolTable) : Nat → List Nat → Option (List Nat)
  | _, [] => some []
  | 0, _ :: _ => none
  | fuel + 1, b :: rest =>
      let r := st.findLongestSymbol (b :: rest)
      if r.1 < 256 then
        (compressLoop st fuel rest).map (fun out => escapeMarker :: b :: out)
      else
        (compressLoop st fuel ((b :: rest).drop r.2)).map
          (fun out => (r.1 - 256) % 256 :: out)

/-- `Compressor.Compress` from src/fsst.go, run with fuel `input.length`. -/
def Compressor.Compress (c : Compressor) (input : List Nat) : Option (List Nat) :=
  compressLoop c.table input.length input

/-- The `Decompressor` struct from src/fsst.go: flat byte array `data`
(symbol `i` at offset `i * MaxSymbolLength`) and length array `lens`. -/
structure Decompressor where
  data : Nat → Nat
  lens : Nat → Nat

/-- Pointwise array update. -/
def upd (f : Nat → Nat) (i v : Nat) : Nat → Nat := fun j => if j = i then v else f j

/-- Go `copy(data[off:off+len(sym)], sym)`: write the bytes of `sym` at
consecutive offsets starting at `off`. -/
def writeBytes (f : Nat → Nat) (off : Nat) : List Nat → Nat → Nat
  | [] => f
  | b :: bs => writeBytes (upd f off b) (off + 1) bs

/-- The array-construction loop of `NewDecompressor` (src/fsst.go): starting
from zeroed arrays (Go zero values), copy each learned symbol `i` to offset
`i * MaxSymbolLength` of `data` and set `lens[i] = byte(len(sym))`. -/
def decompOf (st : symbolTable) : Decompressor :=
  (List.range st.Nsymbols).foldl
    (fun d i =>
      let sym := st.Symbols.getD (256 + i) []
      { data := writeBytes d.data (i * MaxSymbolLength) sym
        lens := upd d.lens i (sym.length % 256) })
    { data := fun _ => 0, lens := fun _ => 0 }

/-- `NewDecompressor` from src/fsst.go: parse the dictionary and build the
flat arrays. -/
def NewDecompressor (dict : List Nat) : Except FsstError Decompressor :=
  (newSymbolTableFromDict dict).map decompOf

/-- First pass of `Decompressor.Decompress` (src/fsst.go): compute the output
size, failing on an escape marker at end of input or on a code with
`lens[code] == 0`. -/
def calcSize (d : Decompressor) : List Nat → Except FsstError Nat
  | [] => .ok 0
  | c :: rest =>
      if c = escapeMarker then
        match rest with
        | [] => .error .truncatedStream
        | _ :: rest2 => (calcSize d rest2).map (· + 1)
      else
        if d.lens c = 0 then .error (.unknownCode c)
        else (calcSize d rest).map (· + d.lens c)

/-- Second pass of `Decompressor.Decompress` (src/fsst.go): emit the literal
after each escape marker, else copy `lens[code]` bytes from
`data[code << 3 ...]`. The `[]` result for a trailing escape is unreachable:
pass one has already rejected such inputs. -/
def decodeLoop (d : Decompressor) : List Nat → List Nat
  | [] => []
  | c :: rest =>
      if c = escapeMarker then
        match rest with
        | [] => []
        | lit :: rest2 => lit :: decodeLoop d rest2
      else
        (List.range (d.lens c)).map (fun j => d.data (c * MaxSymbolLength + j))
          ++ decodeLoop d rest

/-- `Decompressor.Decompress` from src/fsst.go: run the size-computing pass
(which performs all validation), then the copying pass. -/
def Decompressor.Decompress (d : Decompressor) (input : List Nat) :
    Except FsstError (List Nat) :=
  match calcSize d input with
  | .error e => .error e
  | .ok _ => .ok (decodeLoop d input)

/-! ### The trainer (Builder)

The trainer file of the repository refers to the symbol-table operations with
exported names (`NewSymbolTable`, `Insert`, `FindLongestSymbol`, `MakeIndex`);
they are the operations defined in src/fsst.go and are embedded by the
definitions above. -/

/-- `SampleTarget` constant from the trainer source. -/
def SampleTarget : Nat := 2 ^ 14

/-- `SampleMax` constant from the trainer source. -/
def SampleMax : Nat := 2 ^ 15

/-- `SampleLine` constant from the trainer source. -/
def SampleLine : Nat := 512

/-- The `Builder` struct from the trainer source: current table plus the
`[512]int16` and `[512][512]int16` counters, modelled as functions into `Int`
with explicit 16-bit wrapping. -/
structure Builder where
  table : symbolTable
  count1 : Nat → Int
  count2 : Nat → Nat → Int

/-- `isEscapeCode` from the trainer source (contributes to the compressed-size
accounting): 0 for learned codes, 1 for escapes. -/
def isEscapeCode (code : Nat) : Nat := if 256 ≤ code then 0 else 1

/-- Increment of a Go `int16` counter with two's-complement wrap-around:
the result stays in `[-32768, 32767]`. -/
def i16inc (x : Int) : Int := (x + 1 + 32768) % 65536 - 32768

/-- The per-record tokenisation loop of `Builder.compressCount` (trainer
source), with explicit fuel (`str.length` suffices when every table symbol is
non-empty). State: current position `cur`, previous code `code1` with its
token length `len1`, the two counters, and the accumulated compressed size.
Each iteration counts `code1`, advances, and if input remains finds the next
token `code2`, counts the pair `(code1, code2)` and continues with it. -/
def countLoop (st : symbolTable) (str : List Nat) :
    Nat → Nat → Nat → Nat → (Nat → Int) → (Nat → Nat → Int) →
    Option ((Nat → Int) × ((Nat → Nat → Int) × Nat))
  | 0, _, _, _, _, _ => none
  | fuel + 1, cur, code1, len1, c1, c2 =>
      let c1' := fun c => if c = code1 then i16inc (c1 c) else c1 c
      let cur' := cur + len1
      let sz := 1 + isEscapeCode code1
      if cur' = str.length then some (c1', c2, sz)
      else
        let r := st.findLongestSymbol (str.drop cur')
        let c2' := fun a b =>
          if a = code1 ∧ b = r.1 then i16inc (c2 a b) else c2 a b
        (countLoop st str fuel cur' r.1 r.2 c1' c2').map
          (fun p => (p.1, p.2.1, sz + p.2.2))

/-- The record loop of `Builder.compressCount` (trainer source): walk the
records with their indices, skip record `i` when
`sf < 128 && fsst_hash(i) & 127 > sf`, skip empty records, and run
`countLoop` on the rest starting from the first token. -/
def countRecords (st : symbolTable) (sf : Nat) :
    List (Nat × List Nat) → (Nat → Int) → (Nat → Nat → Int) → Nat →
    Option ((Nat → Int) × ((Nat → Nat → Int) × Nat))
  | [], c1, c2, size => some (c1, c2, size)
  | (i, str) :: recs, c1, c2, size =>
      if sf < 128 ∧ sf < fsst_hash i % 128 then countRecords st sf recs c1 c2 size
      else if str.length = 0 then countRecords st sf recs c1 c2 size
      else
        let r := st.findLongestSymbol str
        match countLoop st str str.length 0 r.1 r.2 c1 c2 with
        | none => none
        | some (c1', c2', sz) => countRecords st sf recs c1' c2' (size + sz)

/-- `Builder.compressCount` from the trainer source. Returns the updated
builder and the compressed size (the caller `Build` discards the size). -/
def Builder.compressCount (b : Builder) (sf : Nat) (text : List (List Nat)) :
    Option (Builder × Nat) :=
  (countRecords b.table sf text.enum b.count1 b.count2 0).map
    (fun p => ({ b with count1 := p.1, count2 := p.2.1 }, p.2.2))

/-- Modelled from the spec: the `container/heap`-based max-priority queue
(`priorityQueue`, `Item`) used by `Builder.makeTable` is declared in a
repository file that is not under `src/`. Per the spec it orders candidates
by gain descending with implementation-defined order among equal gains; it is
modelled as a list of pushed items where `popMax` removes the
earliest-pushed item of maximal priority. -/
def popMax : List (List Nat × Int) → Option ((List Nat × Int) × List (List Nat × Int))
  | [] => none
  | x :: xs =>
      match popMax xs with
      | none => some (x, [])
      | some (m, rest) => if x.2 < m.2 then some (m, x :: rest) else some (x, xs)

/-- The `addCandidate` closure of `Builder.makeTable` (trainer source):
gain is `len(symbol) * count`, multiplied by 8 for single-byte symbols;
`heap.Push` is modelled as appending to the pushed-items list. -/
def addCandidate (pq : List (List Nat × Int)) (symbol : List Nat) (count : Int) :
    List (List Nat × Int) :=
  let gain := (symbol.length : Int) * count
  let gain := if symbol.length = 1 then gain * 8 else gain
  pq ++ [(symbol, gain)]

/-- The pop loop of `Builder.makeTable` (trainer source): while the new table
has fewer than 255 symbols and the queue is non-empty, pop the maximal
candidate and insert its byte string (unconditionally). Fuel is the queue
size, which bounds the number of pops. -/
def popLoop : Nat → List (List Nat × Int) → symbolTable → symbolTable
  | 0, _, nst => nst
  | fuel + 1, pq, nst =>
      if nst.Nsymbols < 255 then
        match popMax pq with
        | none => nst
        | some (it, rest) => popLoop fuel rest (nst.insert it.1)
      else nst

/-- Candidate generation of `Builder.makeTable` (trainer source): for every
`code1 < 512` with `count1[code1] > 0` push `Symbols[code1]`; for every pair
with `count2[code1][code2] > 0` push the concatenation unless its length
exceeds 8. -/
def Builder.candidates (b : Builder) : List (List Nat × Int) :=
  (List.range 512).foldl (fun pq code1 =>
    let pq := if 0 < b.count1 code1 then
        addCandidate pq (b.table.Symbols.getD code1 []) (b.count1 code1)
      else pq
    (List.range 512).foldl (fun pq code2 =>
      if 0 < b.count2 code1 code2 then
        let s1 := b.table.Symbols.getD code1 []
        if 8 < s1.length + (b.table.Symbols.getD code2 []).length then pq
        else addCandidate pq (s1 ++ b.table.Symbols.getD code2 [])
          (b.count2 code1 code2)
      else pq) pq) []

/-- `Builder.makeTable` from the trainer source: push all candidates, pop
into a fresh table (at most 255 symbols), then `MakeIndex`. -/
def Builder.makeTable (b : Builder) : symbolTable :=
  let pq := b.candidates
  (popLoop pq.length pq newSymbolTable).makeIndex

/-- `Builder.Finnalize` from the trainer source (sic): 8 header bytes
(`output[8-i]` = number of learned symbols of length `i`, a `uint8`), then the
learned symbols grouped by length `i = 8, 7, ..., 1` in table order. -/
def Builder.Finnalize (st : symbolTable) : List Nat :=
  let learned := (List.range st.Nsymbols).map (fun j => st.Symbols.getD (256 + j) [])
  [8, 7, 6, 5, 4, 3, 2, 1].foldl (fun output i =>
    let group := learned.filter (fun s => s.length = i)
    (output ++ group.flatten).set (8 - i) (group.length % 256))
    [0, 0, 0, 0, 0, 0, 0, 0]

/-- One pass of `Builder.Build` (trainer source): reset the counters, run
`compressCount` with the pass's sample fraction, and build the next table. -/
def buildPass (text : List (List Nat)) (st : symbolTable) (sf : Nat) :
    Option symbolTable :=
  match Builder.compressCount ⟨st, fun _ => 0, fun _ _ => 0⟩ sf text with
  | none => none
  | some (b, _) => some b.makeTable

/-- `Builder.Build` from the trainer source: start from `NewSymbolTable()`
(zero-valued index, so every lookup escapes), run the five passes with
`sampleFrac = 8, 38, 68, 98, 128`, and serialise the final table. -/
def Build (text : List (List Nat)) : Option (List Nat) :=
  match [8, 38, 68, 98, 128].foldlM (buildPass text) newSymbolTable with
  | none => none
  | some st => some (Builder.Finnalize st)

/-! ### Predicates and helper definitions used by the statements -/

/-- `Pref s t` states that `s` is an initial segment of `t` (this forces
`s.length ≤ t.length`, since `t.take n` is shorter than `s` otherwise). -/
def Pref (s t : List Nat) : Prop := t.take s.length = s

instance (s t : List Nat) : Decidable (Pref s t) := by
  unfold Pref; infer_instance

/-- Well-formedness of a symbol table as constructed by the library, stating
exactly the facts the compressor relies on: the shape of the `Symbols` slice
(256 singletons followed by `Nsymbols` learned symbols of length 1..8, at most
255 of them) and the three semantic properties of the first-byte index used
by `findLongestSymbol`: every learned symbol lies inside the scan range of its
first byte (`scan_complete`), the scan range of byte `b` contains only learned
positions whose first byte is at least `b` (`scan_sound`), and within a scan
range the symbols for byte `b` have non-increasing lengths (`scan_sorted`). -/
structure ValidTable (st : symbolTable) : Prop where
  len_eq : st.Symbols.length = 256 + st.Nsymbols
  singleton : ∀ i < 256, st.Symbols.getD i [] = [i]
  nonempty : ∀ s ∈ st.Symbols, s ≠ []
  short : ∀ s ∈ st.Symbols, s.length ≤ 8
  nmax : st.Nsymbols ≤ 255
  scan_complete : ∀ p < st.Nsymbols,
    st.Index ((st.Symbols.getD (256 + p) []).headD 0) ≤ 256 + p ∧
    256 + p < st.Index ((st.Symbols.getD (256 + p) []).headD 0 + 1)
  scan_sound : ∀ b < 256, ∀ code, st.Index b ≤ code → code < st.Index (b + 1) →
    256 ≤ code ∧ code < 256 + st.Nsymbols ∧ b ≤ (st.Symbols.getD code []).headD 0
  scan_sorted : ∀ b < 256, ∀ p q, st.Index b ≤ p → p ≤ q → q < st.Index (b + 1) →
    (st.Symbols.getD p []).headD 0 = b → (st.Symbols.getD q []).headD 0 = b →
    (st.Symbols.getD q []).length ≤ (st.Symbols.getD p []).length

/-- All values of a byte string are bytes. -/
def ByteStr (s : List Nat) : Prop := ∀ b ∈ s, b < 256

instance (s : List Nat) : Decidable (ByteStr s) := by
  unfold ByteStr; infer_instance

/-- The positions at which the decoder's scanning passes read a token: 0 is a
token start, and after a token start `p` the next one is `p + 2` if
`input[p]` is the escape marker and `p + 1` otherwise. Stated over suffixes:
each recursive step shifts the later starts. Used to phrase the decoder's
error condition the way the spec states it. -/
def tokenStarts : List Nat → List Nat
  | [] => []
  | c :: rest =>
      if c = escapeMarker then
        match rest with
        | [] => [0]
        | _ :: rest2 => 0 :: (tokenStarts rest2).map (· + 2)
      else 0 :: (tokenStarts rest).map (· + 1)

/-- Spec-side decode error condition (a) for claim C5: some token starts with
the escape byte `0xFF` as the last byte of the input, with no literal byte
after it. -/
def TruncCond (input : List Nat) : Prop :=
  ∃ p ∈ tokenStarts input, input.getD p 0 = escapeMarker ∧ input.length ≤ p + 1

/-- Spec-side decode error condition (b) for claim C5: some token is a
non-escape code byte `c` with `lens[c] = 0`, i.e. a code not defined by the
dictionary. -/
def UnknownCond (d : Decompressor) (input : List Nat) : Prop :=
  ∃ p ∈ tokenStarts input, input.getD p 0 ≠ escapeMarker ∧
    d.lens (input.getD p 0) = 0

/-- Evaluation helper: the symbol table parsed from a dictionary blob. -/
def parsedTable (dict : List Nat) : Option symbolTable :=
  (newSymbolTableFromDict dict).toOption

/-- Evaluation helper: an entry of the parsed table's `Index` array. -/
def parsedIndex (dict : List Nat) (b : Nat) : Option Nat :=
  (parsedTable dict).map (fun st => st.Index b)

/-- Evaluation helper: the number of learned symbols of the parsed table. -/
def parsedN (dict : List Nat) : Option Nat :=
  (parsedTable dict).map (fun st => st.Nsymbols)

/-- Evaluation helper: an entry of the parsed table's `Symbols` slice. -/
def parsedSymbolAt (dict : List Nat) (p : Nat) : Option (List Nat) :=
  (parsedTable dict).map (fun st => st.Symbols.getD p [])

/-- Recursion core of `countFrom`, structural in the number of remaining
header entries. -/
def countFromGo (dict : List Nat) : Nat → Nat → Nat
  | 0, _ => 0
  | fuel + 1, i => if i < 8 then dict.getD i 0 + countFromGo dict fuel (i + 1) else 0

/-- Total number of learned symbols claimed by the header of a dictionary
blob, counted from header position `i` on. -/
def countFrom (dict : List Nat) (i : Nat) : Nat := countFromGo dict (8 - i) i

/-- Recursion core of `payloadFrom`, structural in the number of remaining
header entries. -/
def payloadFromGo (dict : List Nat) : Nat → Nat → Nat
  | 0, _ => 0
  | fuel + 1, i =>
      if i < 8 then dict.getD i 0 * (8 - i) + payloadFromGo dict fuel (i + 1) else 0

/-- Total number of symbol payload bytes claimed by the header of a
dictionary blob, counted from header position `i` on (`dict[i]` symbols of
length `8 - i` each). -/
def payloadFrom (dict : List Nat) (i : Nat) : Nat := payloadFromGo dict (8 - i) i

/-- The match test performed by `findLongestSymbol`'s scan at position `p`:
the symbol fits in `text` and equals the corresponding prefix of `text`. -/
def Matches (st : symbolTable) (text : List Nat) (p : Nat) : Prop :=
  (st.Symbols.getD p []).length ≤ text.length ∧
  text.take (st.Symbols.getD p []).length = st.Symbols.getD p []

instance (st : symbolTable) (text : List Nat) (p : Nat) :
    Decidable (Matches st text p) := by
  unfold Matches; infer_instance

/-- Example blob: learned symbols "ab" and "a" (header counts one 2-byte and
one 1-byte symbol). -/
def dex1 : List Nat := [0, 0, 0, 0, 0, 0, 1, 1, 97, 98, 97]

/-- Example blob: a single learned symbol "a". -/
def dex2 : List Nat := [0, 0, 0, 0, 0, 0, 0, 1, 97]

/-- Example blob: learned symbols "a" and "c". -/
def dex3 : List Nat := [0, 0, 0, 0, 0, 0, 0, 2, 97, 99]

/-- The empty dictionary blob: eight zero header bytes, no symbols. -/
def dexEmpty : List Nat := [0, 0, 0, 0, 0, 0, 0, 0]

/-- A code was used by the tokenization of one of the sample strings: some
suffix position of a sample has `findLongestSymbol` returning that code.
Every `count1` increment of `compressCount` happens at such a code. -/
def Used1 (st : symbolTable) (strs : List (List Nat)) (code : Nat) : Prop :=
  ∃ str ∈ strs, ∃ p, p < str.length ∧ (st.findLongestSymbol (str.drop p)).1 = code

/-- A pair of codes appeared as adjacent tokens in the tokenization of one of
the sample strings. Every `count2` increment of `compressCount` happens at
such a pair. -/
def Used2 (st : symbolTable) (strs : List (List Nat)) (a bc : Nat) : Prop :=
  ∃ str ∈ strs, ∃ p, p < str.length ∧
    (st.findLongestSymbol (str.drop p)).1 = a ∧
    p + (st.findLongestSymbol (str.drop p)).2 < str.length ∧
    (st.findLongestSymbol (str.drop (p + (st.findLongestSymbol (str.drop p)).2))).1 = bc

/-- The sequence of learned symbols a serialized dictionary carries, in
serialization order: the per-length groups written by `Builder.Finnalize`
(lengths 8 down to 1). -/
def serializedSymbols (st : symbolTable) : List (List Nat) :=
  [8, 7, 6, 5, 4, 3, 2, 1].flatMap (fun i =>
    ((List.range st.Nsymbols).map (fun j => st.Symbols.getD (256 + j) [])).filter
      (fun s => s.length = i))

/-! ## Theorems -/

section Ordering

/-- When the first bytes differ, Go's `bytes.Compare(s1,s2) < 0` is decided
by the first bytes. -/
theorem lexLt_iff_of_head_ne {a b : List Nat} (h : a.headD 0 ≠ b.headD 0) :
    lexLt a b = true ↔ a.headD 0 < b.headD 0 := by
  match a, b with
  | [], [] => exact absurd rfl h
  | [], y :: ys =>
      have hy : 0 < y := by
        rcases Nat.eq_zero_or_pos y with h0 | h0
        · exact absurd (by simp [h0]) h
        · exact h0
      simp [lexLt, hy]
  | x :: xs, [] =>
      simp [lexLt]
  | x :: xs, y :: ys =>
      simp only [List.headD_cons] at h ⊢
      simp only [lexLt]
      rcases Nat.lt_trichotomy x y with h1 | h1 | h1
      · simp [h1]
      · exact absurd h1 h
      · rw [if_neg (Nat.lt_asymm h1), if_pos h1]
        simp [Nat.lt_asymm h1]

/-- Characterisation of the `sort.Slice` comparator: first byte ascending,
then length descending. -/
theorem symLess_iff {a b : List Nat} :
    symLess a b = true ↔
      (a.headD 0 < b.headD 0 ∨ (a.headD 0 = b.headD 0 ∧ b.length < a.length)) := by
  unfold symLess
  split
  next h => rw [h]; simp
  next h =>
    rw [lexLt_iff_of_head_ne h]
    constructor
    · exact Or.inl
    · rintro (h1 | ⟨h2, _⟩)
      · exact h1
      · exact absurd h2 h

/-- Characterisation of the non-strict sort relation. -/
theorem sortLe_iff {a b : List Nat} :
    sortLe a b = true ↔
      (a.headD 0 < b.headD 0 ∨ (a.headD 0 = b.headD 0 ∧ b.length ≤ a.length)) := by
  unfold sortLe
  rw [Bool.not_eq_eq_eq_not, Bool.not_true, ← Bool.not_eq_true, symLess_iff]
  omega

theorem sortLe_trans : ∀ (a b c : List Nat),
    sortLe a b = true → sortLe b c = true → sortLe a c = true := by
  intro a b c hab hbc
  rw [sortLe_iff] at hab hbc ⊢
  omega

theorem sortLe_total : ∀ (a b : List Nat), (sortLe a b || sortLe b a) = true := by
  intro a b
  rcases Nat.lt_trichotomy (a.headD 0) (b.headD 0) with h | h | h <;>
    simp [sortLe_iff, h] <;> omega

end Ordering

section MakeIndex

/-- The descending index-filling loop of `makeIndex`, folded from the right:
its value at `b` is `256 +` the first position of a symbol with first byte
`b` among the first `N` symbols, and the base value if there is none. -/
theorem foldrIdx_eq (l : List (List Nat)) :
    ∀ (N : Nat), N ≤ l.length → ∀ (base : Nat → Nat) (b : Nat),
    ((List.range N).foldr
      (fun i acc => fun b' =>
        if b' = (l.getD i []).headD 0 then 256 + i else acc b') base) b
    = if (l.take N).findIdx (fun s => s.headD 0 == b) < N
        then 256 + (l.take N).findIdx (fun s => s.headD 0 == b)
        else base b := by
  intro N
  induction N with
  | zero => intro _ base b; simp
  | succ N ih =>
      intro hN base b
      rw [List.range_succ, List.foldr_append]
      rw [ih (Nat.le_of_succ_le hN)]
      have hNl : N < l.length := hN
      have htake : l.take (N + 1) = l.take N ++ [l[N]] := by
        rw [List.take_succ]
        simp [List.getElem?_eq_getElem hNl]
      have hlen : (l.take N).length = N := List.length_take_of_le (Nat.le_of_lt hNl)
      rw [htake, List.findIdx_append]
      by_cases hfi : (l.take N).findIdx (fun s => s.headD 0 == b) < N
      · rw [if_pos (by omega : (l.take N).findIdx (fun s => s.headD 0 == b) < (l.take N).length)]
        rw [if_pos hfi, if_pos (by omega)]
      · rw [if_neg (by omega : ¬ (l.take N).findIdx (fun s => s.headD 0 == b) < (l.take N).length)]
        rw [if_neg hfi]
        simp only [List.foldr_cons, List.foldr_nil]
        by_cases hb : b = (l.getD N []).headD 0
        · have : (l.getD N []) = l[N] := List.getD_eq_getElem l [] hNl
          rw [if_pos hb]
          have hfx : List.findIdx (fun s => s.headD 0 == b) [l[N]] = 0 := by
            simp [List.findIdx_cons, ← this, hb]
          rw [hfx, hlen]
          simp [Nat.lt_succ_self]
        · have : (l.getD N []) = l[N] := List.getD_eq_getElem l [] hNl
          rw [if_neg hb]
          have hpx : ((l[N] : List Nat).headD 0 == b) = false := by
            simp only [beq_eq_false_iff_ne, ne_eq]
            rw [← this]
            exact fun hh => hb hh.symm
          have hfx : List.findIdx (fun s => s.headD 0 == b) [l[N]] = 1 := by
            simp only [List.headD_eq_head?_getD] at hpx
            simp [List.findIdx_cons, hpx]
          rw [hfx, hlen]
          rw [if_neg (by omega)]

/-- The `Symbols` slice after `makeIndex`: singleton part unchanged, learned
part sorted. -/
theorem makeIndex_Symbols (st : symbolTable) :
    st.makeIndex.Symbols
      = st.Symbols.take 256 ++ List.insertionSort symLe (st.Symbols.drop 256) := rfl

theorem makeIndex_Nsymbols (st : symbolTable) :
    st.makeIndex.Nsymbols = st.Nsymbols := rfl

/-- The `Index` array after `makeIndex`: `256 +` the position of the first
sorted learned symbol whose first byte is `b`, with the sentinel
`256 + Nsymbols` (= `256 +` length) when there is none. -/
theorem makeIndex_Index (st : symbolTable)
    (hlen : st.Nsymbols = (st.Symbols.drop 256).length) (b : Nat) :
    st.makeIndex.Index b
      = 256 + (List.insertionSort symLe (st.Symbols.drop 256)).findIdx
          (fun s => s.headD 0 == b) := by
  have hidx : st.makeIndex.Index = (List.range st.Nsymbols).reverse.foldl
      (fun idx i => fun b' =>
        if b' = ((List.insertionSort symLe (st.Symbols.drop 256)).getD i []).headD 0
        then 256 + i else idx b')
      (fun _ => 256 + st.Nsymbols) := rfl
  rw [hidx, List.foldl_reverse]
  set l := List.insertionSort symLe (st.Symbols.drop 256) with hl
  have hll : l.length = st.Nsymbols := by
    rw [hl, List.Perm.length_eq (List.perm_insertionSort _ _), hlen]
  rw [foldrIdx_eq l st.Nsymbols (le_of_eq hll.symm)]
  rw [List.take_of_length_le (le_of_eq hll)]
  by_cases h : l.findIdx (fun s => s.headD 0 == b) < st.Nsymbols
  · rw [if_pos h]
  · rw [if_neg h]
    have := @List.findIdx_le_length (List Nat) (fun s => s.headD 0 == b) l
    omega

end MakeIndex

section SortedFacts

/-- First bytes are monotone along the sorted learned symbols. -/
theorem sorted_heads_mono {l : List (List Nat)}
    (hs : List.Pairwise symLe l)
    {i j : Nat} (hij : i ≤ j) (hj : j < l.length) :
    (l.getD i []).headD 0 ≤ (l.getD j []).headD 0 := by
  rcases Nat.eq_or_lt_of_le hij with rfl | hlt
  · exact Nat.le_refl _
  · have hi : i < l.length := Nat.lt_trans hlt hj
    have := (List.pairwise_iff_getElem.mp hs) i j hi hj hlt
    unfold symLe at this
    rw [sortLe_iff] at this
    rw [List.getD_eq_getElem l [] hi, List.getD_eq_getElem l [] hj]
    omega

/-- Among sorted learned symbols with the same first byte, lengths are
non-increasing. -/
theorem sorted_len_anti {l : List (List Nat)}
    (hs : List.Pairwise symLe l)
    {i j : Nat} (hij : i ≤ j) (hj : j < l.length)
    (hhd : (l.getD i []).headD 0 = (l.getD j []).headD 0) :
    (l.getD j []).length ≤ (l.getD i []).length := by
  rcases Nat.eq_or_lt_of_le hij with rfl | hlt
  · exact Nat.le_refl _
  · have hi : i < l.length := Nat.lt_trans hlt hj
    have := (List.pairwise_iff_getElem.mp hs) i j hi hj hlt
    unfold symLe at this
    rw [sortLe_iff] at this
    rw [List.getD_eq_getElem l [] hi, List.getD_eq_getElem l [] hj] at hhd ⊢
    omega

/-- If the first-byte search succeeds, the found symbol has that first
byte. -/
theorem findIdx_head_eq {l : List (List Nat)} {b : Nat}
    (h : l.findIdx (fun s => s.headD 0 == b) < l.length) :
    (l.getD (l.findIdx (fun s => s.headD 0 == b)) []).headD 0 = b := by
  have := @List.findIdx_getElem (List Nat) (fun s => s.headD 0 == b) l h
  rw [List.getD_eq_getElem l [] h]
  simpa using this

/-- The first-byte search returns a position no later than any position
holding that first byte. -/
theorem findIdx_le_of_head_eq {l : List (List Nat)} {b p : Nat}
    (hp : p < l.length) (hh : (l.getD p []).headD 0 = b) :
    l.findIdx (fun s => s.headD 0 == b) ≤ p := by
  by_contra hlt
  have h2 := @List.not_of_lt_findIdx (List Nat) (fun s => s.headD 0 == b)
    l p (Nat.lt_of_not_le hlt)
  rw [List.getD_eq_getElem l [] hp, List.headD_eq_head?_getD] at hh
  simp only [beq_eq_false_iff_ne, ne_eq, List.headD_eq_head?_getD] at h2
  exact h2 hh

end SortedFacts

section ParseValid

/-- `makeIndex` turns any structurally well-formed raw table into a
`ValidTable`: sorting establishes the three semantic index properties. -/
theorem makeIndex_valid (st : symbolTable)
    (hlen : st.Symbols.length = 256 + st.Nsymbols)
    (hsing : ∀ i < 256, st.Symbols.getD i [] = [i])
    (hne : ∀ s ∈ st.Symbols, s ≠ [])
    (hshort : ∀ s ∈ st.Symbols, s.length ≤ 8)
    (hmax : st.Nsymbols ≤ 255) :
    ValidTable st.makeIndex := by
  set l := List.insertionSort symLe (st.Symbols.drop 256) with hldef
  have hperm : l.Perm (st.Symbols.drop 256) := List.perm_insertionSort _ _
  haveI : IsTotal (List Nat) symLe := ⟨fun a b => by
    unfold symLe
    have h := sortLe_total a b
    rcases Bool.or_eq_true_iff.mp h with h1 | h1
    · exact Or.inl h1
    · exact Or.inr h1⟩
  haveI : IsTrans (List Nat) symLe := ⟨fun a b c hab hbc => sortLe_trans a b c hab hbc⟩
  have hsorted : List.Pairwise symLe l := List.sorted_insertionSort symLe _
  have hNl : l.length = st.Nsymbols := by
    rw [hperm.length_eq, List.length_drop, hlen]
    omega
  have hN : st.Nsymbols = (st.Symbols.drop 256).length := by
    rw [List.length_drop, hlen]; omega
  have htlen : (st.Symbols.take 256).length = 256 := by
    rw [List.length_take]; omega
  have hsym : st.makeIndex.Symbols = st.Symbols.take 256 ++ l := makeIndex_Symbols st
  have hgetL : ∀ p, st.makeIndex.Symbols.getD (256 + p) [] = l.getD p [] := by
    intro p
    rw [hsym]
    rw [List.getD_append_right (st.Symbols.take 256) l [] (256 + p)
      (by rw [htlen]; omega)]
    rw [htlen]
    rw [show 256 + p - 256 = p from by omega]
  have hidx : ∀ b, st.makeIndex.Index b
      = 256 + l.findIdx (fun s => s.headD 0 == b) := fun b => makeIndex_Index st hN b
  have hmem : ∀ s ∈ l, s ∈ st.Symbols := fun s hs =>
    List.drop_subset 256 _ (hperm.mem_iff.mp hs)
  constructor
  · -- len_eq
    rw [hsym, List.length_append, htlen, hNl, makeIndex_Nsymbols]
  · -- singleton
    intro i hi
    have hi' : i < (st.Symbols.take 256).length := by omega
    have hi'' : i < st.Symbols.length := by omega
    have h1 : st.makeIndex.Symbols.getD i [] = (st.Symbols.take 256).getD i [] := by
      rw [hsym]
      exact List.getD_append (st.Symbols.take 256) l [] i hi'
    have h2 : (st.Symbols.take 256).getD i [] = st.Symbols.getD i [] := by
      rw [List.getD_eq_getElem _ [] hi', List.getD_eq_getElem _ [] hi'']
      exact List.getElem_take _
    rw [h1, h2]
    exact hsing i hi
  · -- nonempty
    intro s hs
    rw [hsym] at hs
    rcases List.mem_append.mp hs with h | h
    · exact hne s (List.take_subset _ _ h)
    · exact hne s (hmem s h)
  · -- short
    intro s hs
    rw [hsym] at hs
    rcases List.mem_append.mp hs with h | h
    · exact hshort s (List.take_subset _ _ h)
    · exact hshort s (hmem s h)
  · -- nmax
    rw [makeIndex_Nsymbols]; exact hmax
  · -- scan_complete
    intro p hp
    rw [makeIndex_Nsymbols] at hp
    rw [hgetL p, hidx, hidx]
    set b := (l.getD p []).headD 0 with hbdef
    have hpl : p < l.length := by omega
    constructor
    · have := findIdx_le_of_head_eq hpl hbdef.symm
      omega
    · -- p < findIdx (b+1)
      by_contra hcon
      have hm' : l.findIdx (fun s => s.headD 0 == b + 1) ≤ p := by omega
      have hm'l : l.findIdx (fun s => s.headD 0 == b + 1) < l.length :=
        Nat.lt_of_le_of_lt hm' hpl
      have hhd := findIdx_head_eq hm'l
      have := sorted_heads_mono hsorted hm' hpl
      omega
  · -- scan_sound
    intro b _hb code h1 h2
    rw [hidx] at h1
    rw [hidx] at h2
    have hm'le : l.findIdx (fun s => s.headD 0 == b + 1) ≤ l.length :=
      List.findIdx_le_length _
    have hmlt : l.findIdx (fun s => s.headD 0 == b) < l.length := by omega
    have hhdm := findIdx_head_eq hmlt
    refine ⟨by omega, by rw [makeIndex_Nsymbols]; omega, ?_⟩
    have hcd : code - 256 < l.length := by omega
    have hcode : st.makeIndex.Symbols.getD code [] = l.getD (code - 256) [] := by
      have := hgetL (code - 256)
      rwa [show 256 + (code - 256) = code by omega] at this
    rw [hcode]
    have := sorted_heads_mono hsorted
      (show l.findIdx (fun s => s.headD 0 == b) ≤ code - 256 by omega) hcd
    omega
  · -- scan_sorted
    intro b _hb p q h1 h2 h3 hhp hhq
    rw [hidx] at h1
    rw [hidx] at h3
    have hm'le : l.findIdx (fun s => s.headD 0 == b + 1) ≤ l.length :=
      List.findIdx_le_length _
    have hq : q - 256 < l.length := by omega
    have hcp : st.makeIndex.Symbols.getD p [] = l.getD (p - 256) [] := by
      have := hgetL (p - 256)
      rwa [show 256 + (p - 256) = p by omega] at this
    have hcq : st.makeIndex.Symbols.getD q [] = l.getD (q - 256) [] := by
      have := hgetL (q - 256)
      rwa [show 256 + (q - 256) = q by omega] at this
    rw [hcp, hcq]
    rw [hcp] at hhp
    rw [hcq] at hhq
    exact sorted_len_anti hsorted (by omega) hq (by rw [hhp, hhq])

theorem newSymbolTable_length : newSymbolTable.Symbols.length = 256 := by
  simp [newSymbolTable]

theorem newSymbolTable_getD {i : Nat} (hi : i < 256) :
    newSymbolTable.Symbols.getD i [] = [i] := by
  have h1 : i < newSymbolTable.Symbols.length := by rw [newSymbolTable_length]; exact hi
  rw [List.getD_eq_getElem _ [] h1]
  simp [newSymbolTable]

theorem newSymbolTable_mem {s : List Nat} (hs : s ∈ newSymbolTable.Symbols) :
    ∃ i < 256, s = [i] := by
  simp only [newSymbolTable, List.mem_map, List.mem_range] at hs
  obtain ⟨i, hi, rfl⟩ := hs
  exact ⟨i, hi, rfl⟩

/-- Successful run of the header-entry loop: it consumes exactly
`n * symLen` bytes and appends the `n` consecutive slices. -/
theorem insertLoop_ok_eq (dict : List Nat) (sl : Nat) :
    ∀ (n frm : Nat) (st : symbolTable), frm + n * sl ≤ dict.length →
    insertLoop dict sl n frm st = .ok
      (⟨st.Nsymbols + n, st.Index,
        st.Symbols ++ (List.range n).map (fun k => (dict.drop (frm + k * sl)).take sl)⟩,
       frm + n * sl) := by
  intro n
  induction n with
  | zero =>
      intro frm st _h
      show Except.ok (st, frm) = _
      cases st
      simp
  | succ n ih =>
      intro frm st h
      have hsm : (n + 1) * sl = n * sl + sl := Nat.succ_mul n sl
      show (if dict.length < frm + sl then _ else _) = _
      rw [if_neg (by omega)]
      rw [ih (frm + sl) (st.insert ((dict.drop frm).take sl)) (by omega)]
      have h2 : frm + sl + n * sl = frm + (n + 1) * sl := by omega
      simp only [symbolTable.insert]
      have hN : st.Nsymbols + 1 + n = st.Nsymbols + (n + 1) := by omega
      have hfmla : (st.Symbols ++ [(dict.drop frm).take sl])
            ++ (List.range n).map (fun k => (dict.drop (frm + sl + k * sl)).take sl)
          = st.Symbols
            ++ (List.range (n + 1)).map (fun k => (dict.drop (frm + k * sl)).take sl) := by
        rw [List.append_assoc]
        congr 1
        rw [List.range_succ_eq_map, List.map_cons, List.map_map]
        have hmap : (List.range n).map (fun k => (dict.drop (frm + sl + k * sl)).take sl)
            = (List.range n).map
                ((fun k => (dict.drop (frm + k * sl)).take sl) ∘ (· + 1)) := by
          apply List.map_congr_left
          intro k _
          simp only [Function.comp_apply]
          have hks : (k + 1) * sl = k * sl + sl := Nat.succ_mul k sl
          rw [show frm + sl + k * sl = frm + (k + 1) * sl from by omega]
        rw [← hmap]
        simp
      rw [h2, hN, hfmla]

/-- Failing run of the header-entry loop: with at least one symbol to read
and not enough bytes, it reports a header error. -/
theorem insertLoop_err (dict : List Nat) (sl : Nat) :
    ∀ (n frm : Nat) (st : symbolTable), 1 ≤ n → dict.length < frm + n * sl →
    insertLoop dict sl n frm st = .error .invalidDictHeader := by
  intro n
  induction n with
  | zero => intro frm st h; omega
  | succ n ih =>
      intro frm st _h1 h2
      show (if dict.length < frm + sl then _ else _) = _
      by_cases hg : dict.length < frm + sl
      · rw [if_pos hg]
      · rw [if_neg hg]
        have hsm : (n + 1) * sl = n * sl + sl := Nat.succ_mul n sl
        rcases Nat.eq_zero_or_pos n with rfl | hn
        · exfalso; push_neg at hg; omega
        · exact ih (frm + sl) _ hn (by omega)

theorem insertLoop_zero (dict : List Nat) (sl frm : Nat) (st : symbolTable) :
    insertLoop dict sl 0 frm st = .ok (st, frm) := rfl

theorem countFrom_lt {dict : List Nat} {i : Nat} (h : i < 8) :
    countFrom dict i = dict.getD i 0 + countFrom dict (i + 1) := by
  unfold countFrom
  conv_lhs => rw [show 8 - i = (8 - (i + 1)) + 1 from by omega]
  show (if i < 8 then _ else _) = _
  rw [if_pos h]

theorem countFrom_ge {dict : List Nat} {i : Nat} (h : ¬ i < 8) :
    countFrom dict i = 0 := by
  unfold countFrom
  rw [show 8 - i = 0 from by omega]
  rfl

theorem payloadFrom_lt {dict : List Nat} {i : Nat} (h : i < 8) :
    payloadFrom dict i = dict.getD i 0 * (8 - i) + payloadFrom dict (i + 1) := by
  unfold payloadFrom
  conv_lhs => rw [show 8 - i = (8 - (i + 1)) + 1 from by omega]
  show (if i < 8 then _ else _) = _
  rw [if_pos h]

theorem payloadFrom_ge {dict : List Nat} {i : Nat} (h : ¬ i < 8) :
    payloadFrom dict i = 0 := by
  unfold payloadFrom
  rw [show 8 - i = 0 from by omega]
  rfl

/-- Successful runs of the header loop append `countFrom` symbols, consume
`payloadFrom` bytes, and every appended symbol is a non-empty slice of the
dictionary of length at most 8. -/
theorem parseLoop_ok_spec (dict : List Nat) :
    ∀ (fuel i frm : Nat) (st st' : symbolTable) (frm' : Nat), 8 ≤ i + fuel →
    parseLoop dict fuel i frm st = .ok (st', frm') →
    ∃ L : List (List Nat),
      st'.Symbols = st.Symbols ++ L ∧ st'.Index = st.Index ∧
      st'.Nsymbols = st.Nsymbols + L.length ∧
      L.length = countFrom dict i ∧ frm' = frm + payloadFrom dict i ∧
      ∀ s ∈ L, 1 ≤ s.length ∧ s.length ≤ 8 ∧ ∀ x ∈ s, x ∈ dict := by
  intro fuel
  induction fuel with
  | zero =>
      intro i frm st st' frm' hif h
      have hc : ¬ i < 8 := by omega
      have h' : (Except.ok (st, frm) : Except FsstError (symbolTable × Nat))
          = .ok (st', frm') := h
      injection h' with h'
      injection h' with h1 h2
      subst h1
      subst h2
      refine ⟨[], by simp, rfl, by simp, ?_, ?_, by simp⟩
      · simp [countFrom_ge hc]
      · simp [payloadFrom_ge hc]
  | succ fuel ih =>
      intro i frm st st' frm' _hif h
      by_cases hc : i < 8
      · have hstep : parseLoop dict (fuel + 1) i frm st
            = match insertLoop dict (MaxSymbolLength - i) (dict.getD i 0) frm st with
              | .error e => .error e
              | .ok (st2, frm2) => parseLoop dict fuel (i + 1) frm2 st2 := by
          show (if i < MaxSymbolLength then _ else _) = _
          rw [if_pos (show i < MaxSymbolLength from hc)]
        rw [hstep] at h
        set n := dict.getD i 0 with hn
        set sl := MaxSymbolLength - i with hsl
        have hsl8 : sl = 8 - i := rfl
        by_cases hn0 : n = 0
        · rw [hn0, insertLoop_zero] at h
          obtain ⟨L', hS, hI, hN, hcnt, hpay, hall⟩ :=
            ih (i + 1) frm st st' frm' (by omega) h
          refine ⟨L', hS, hI, hN, ?_, ?_, hall⟩
          · rw [countFrom_lt hc, ← hn, hn0, hcnt]
            omega
          · rw [payloadFrom_lt hc, ← hn, hn0, hpay]
            omega
        · by_cases hfit : frm + n * sl ≤ dict.length
          · rw [insertLoop_ok_eq dict sl n frm st hfit] at h
            obtain ⟨L', hS, hI, hN, hcnt, hpay, hall⟩ :=
              ih (i + 1) (frm + n * sl) _ st' frm' (by omega) h
            dsimp only at hS hI hN
            refine ⟨(List.range n).map (fun k => (dict.drop (frm + k * sl)).take sl) ++ L',
              ?_, hI, ?_, ?_, ?_, ?_⟩
            · rw [hS, List.append_assoc]
            · rw [hN, List.length_append, List.length_map, List.length_range]
              omega
            · rw [List.length_append, List.length_map, List.length_range, hcnt]
              rw [countFrom_lt hc, ← hn]
            · rw [hpay, payloadFrom_lt hc, ← hn]
              have hnsl : n * sl = n * (8 - i) := by rw [hsl8]
              omega
            · intro s hs
              rcases List.mem_append.mp hs with hmem | hmem
              · obtain ⟨k, hk, rfl⟩ := List.mem_map.mp hmem
                rw [List.mem_range] at hk
                have hlen : ((dict.drop (frm + k * sl)).take sl).length = sl := by
                  rw [List.length_take, List.length_drop]
                  have hks : (k + 1) * sl = k * sl + sl := Nat.succ_mul k sl
                  have hkn : (k + 1) * sl ≤ n * sl := Nat.mul_le_mul_right sl hk
                  omega
                refine ⟨by omega, by omega, ?_⟩
                intro x hx
                exact List.drop_subset _ _ (List.take_subset _ _ hx)
              · exact hall s hmem
          · push_neg at hfit
            have hn1 : 1 ≤ n := Nat.one_le_iff_ne_zero.mpr hn0
            rw [insertLoop_err dict sl n frm st hn1 hfit] at h
            simp at h
      · have hstop : parseLoop dict (fuel + 1) i frm st = .ok (st, frm) := by
          show (if i < MaxSymbolLength then _ else _) = _
          rw [if_neg (show ¬ i < MaxSymbolLength from hc)]
        rw [hstop] at h
        injection h with h
        injection h with h1 h2
        subst h1
        subst h2
        refine ⟨[], by simp, rfl, by simp, ?_, ?_, by simp⟩
        · simp [countFrom_ge hc]
        · simp [payloadFrom_ge hc]

/-- The header loop succeeds exactly when the dictionary is long enough for
the payload the header claims (or the header claims nothing at all). -/
theorem parseLoop_ok_iff (dict : List Nat) :
    ∀ (fuel i frm : Nat) (st : symbolTable), 8 ≤ i + fuel →
    ((∃ r, parseLoop dict fuel i frm st = .ok r) ↔
      (payloadFrom dict i = 0 ∨ frm + payloadFrom dict i ≤ dict.length)) := by
  intro fuel
  induction fuel with
  | zero =>
      intro i frm st hif
      have hc : ¬ i < 8 := by omega
      have hz : payloadFrom dict i = 0 := payloadFrom_ge hc
      constructor
      · intro _
        exact Or.inl hz
      · intro _
        exact ⟨(st, frm), rfl⟩
  | succ fuel ih =>
      intro i frm st hif
      by_cases hc : i < 8
      · have hstep : parseLoop dict (fuel + 1) i frm st
            = match insertLoop dict (MaxSymbolLength - i) (dict.getD i 0) frm st with
              | .error e => .error e
              | .ok (st2, frm2) => parseLoop dict fuel (i + 1) frm2 st2 := by
          show (if i < MaxSymbolLength then _ else _) = _
          rw [if_pos (show i < MaxSymbolLength from hc)]
        rw [hstep]
        set n := dict.getD i 0 with hn
        set sl := MaxSymbolLength - i with hsl
        have hsl8 : sl = 8 - i := rfl
        have hpay : payloadFrom dict i = n * sl + payloadFrom dict (i + 1) := by
          rw [payloadFrom_lt hc, ← hn, hsl8]
        have hsl1 : 1 ≤ sl := by omega
        by_cases hn0 : n = 0
        · rw [hn0, insertLoop_zero]
          rw [ih (i + 1) frm st (by omega)]
          rw [hn0] at hpay
          simp only [Nat.zero_mul, Nat.zero_add] at hpay
          omega
        · by_cases hfit : frm + n * sl ≤ dict.length
          · rw [insertLoop_ok_eq dict sl n frm st hfit]
            rw [ih (i + 1) (frm + n * sl)
              ⟨st.Nsymbols + n, st.Index,
                st.Symbols ++ (List.range n).map
                  (fun k => (dict.drop (frm + k * sl)).take sl)⟩ (by omega)]
            omega
          · push_neg at hfit
            have hn1 : 1 ≤ n := Nat.one_le_iff_ne_zero.mpr hn0
            rw [insertLoop_err dict sl n frm st hn1 hfit]
            constructor
            · rintro ⟨r, hr⟩
              simp at hr
            · intro hr
              exfalso
              have hnsl : sl ≤ n * sl := Nat.le_mul_of_pos_left sl hn1
              rcases hr with hr | hr
              · rw [hpay] at hr
                omega
              · rw [hpay] at hr
                omega
      · have hstop : parseLoop dict (fuel + 1) i frm st = .ok (st, frm) := by
          show (if i < MaxSymbolLength then _ else _) = _
          rw [if_neg (show ¬ i < MaxSymbolLength from hc)]
        rw [hstop]
        have hz : payloadFrom dict i = 0 := payloadFrom_ge hc
        constructor
        · intro _
          exact Or.inl hz
        · intro _
          exact ⟨(st, frm), rfl⟩

/-- A successful `newSymbolTableFromDict` yields a well-formed table whose
learned-symbol bytes all come from the dictionary blob. -/
theorem newSymbolTableFromDict_ok {dict : List Nat} {st : symbolTable}
    (h : newSymbolTableFromDict dict = .ok st) :
    ValidTable st ∧ ∀ s ∈ st.Symbols.drop 256, ∀ x ∈ s, x ∈ dict := by
  rw [newSymbolTableFromDict] at h
  by_cases hshort : dict.length < MaxSymbolLength
  · rw [if_pos hshort] at h
    simp at h
  · rw [if_neg hshort] at h
    rcases hp : parseLoop dict MaxSymbolLength 0 MaxSymbolLength newSymbolTable with e | r
    · rw [hp] at h
      simp at h
    · rw [hp] at h
      obtain ⟨st0, frm'⟩ := r
      dsimp only at h
      by_cases hcnt : st0.Nsymbols > NumSymbols - 1
      · rw [if_pos hcnt] at h
        simp at h
      · rw [if_neg hcnt] at h
        injection h with h
        obtain ⟨L, hS, _hI, hN, _hcnt, _hpay, hall⟩ :=
          parseLoop_ok_spec dict MaxSymbolLength 0 MaxSymbolLength newSymbolTable st0 frm' (by decide) hp
        have hN0 : newSymbolTable.Nsymbols = 0 := rfl
        have hlen0 : st0.Symbols.length = 256 + st0.Nsymbols := by
          rw [hS, List.length_append, newSymbolTable_length, hN, hN0]
          omega
        have hsing0 : ∀ i < 256, st0.Symbols.getD i [] = [i] := by
          intro i hi
          rw [hS]
          rw [List.getD_append newSymbolTable.Symbols L [] i
            (by rw [newSymbolTable_length]; exact hi)]
          exact newSymbolTable_getD hi
        have hmemL : ∀ s ∈ st0.Symbols, s ∈ newSymbolTable.Symbols ∨ s ∈ L := by
          intro s hs
          rw [hS] at hs
          exact List.mem_append.mp hs
        have hne0 : ∀ s ∈ st0.Symbols, s ≠ [] := by
          intro s hs
          rcases hmemL s hs with hm | hm
          · obtain ⟨i, _, rfl⟩ := newSymbolTable_mem hm
            simp
          · have := (hall s hm).1
            intro hcontra
            rw [hcontra] at this
            simp at this
        have hshort0 : ∀ s ∈ st0.Symbols, s.length ≤ 8 := by
          intro s hs
          rcases hmemL s hs with hm | hm
          · obtain ⟨i, _, rfl⟩ := newSymbolTable_mem hm
            simp
          · exact (hall s hm).2.1
        have hmax0 : st0.Nsymbols ≤ 255 := by
          push_neg at hcnt
          exact hcnt
        constructor
        · rw [← h]
          exact makeIndex_valid st0 hlen0 hsing0 hne0 hshort0 hmax0
        · intro s hs x hx
          have hdrop : st.Symbols.drop 256
              = List.insertionSort symLe (st0.Symbols.drop 256) := by
            rw [← h, makeIndex_Symbols]
            exact List.drop_left' (by rw [List.length_take]; omega)
          rw [hdrop] at hs
          have hsL : s ∈ st0.Symbols.drop 256 :=
            (List.perm_insertionSort symLe _).mem_iff.mp hs
          have hdropL : st0.Symbols.drop 256 = L := by
            rw [hS]
            exact List.drop_left' newSymbolTable_length
          rw [hdropL] at hsL
          exact (hall s hsL).2.2 x hx

/-- Core of claim C6: parsing a dictionary blob succeeds exactly when the
blob is at least 8 bytes long, the payload the header claims fits, and the
header counts at most 255 learned symbols. -/
theorem newSymbolTableFromDict_ok_iff (dict : List Nat) :
    (∃ st, newSymbolTableFromDict dict = .ok st) ↔
      (8 ≤ dict.length ∧ 8 + payloadFrom dict 0 ≤ dict.length ∧
        countFrom dict 0 ≤ 255) := by
  have hM : MaxSymbolLength = 8 := rfl
  rw [newSymbolTableFromDict]
  by_cases hshort : dict.length < MaxSymbolLength
  · rw [if_pos hshort]
    constructor
    · rintro ⟨st, hst⟩
      simp at hst
    · intro hr
      exfalso
      rw [hM] at hshort
      omega
  · rw [if_neg hshort]
    rw [hM] at hshort
    push_neg at hshort
    rcases hp : parseLoop dict MaxSymbolLength 0 MaxSymbolLength newSymbolTable with e | r
    · constructor
      · rintro ⟨st, hst⟩
        simp at hst
      · intro hr
        exfalso
        have hiff := parseLoop_ok_iff dict MaxSymbolLength 0 MaxSymbolLength newSymbolTable (by decide)
        rw [hp] at hiff
        have : ¬ (payloadFrom dict 0 = 0 ∨
            MaxSymbolLength + payloadFrom dict 0 ≤ dict.length) := by
          rw [← hiff]
          rintro ⟨r, hr2⟩
          simp at hr2
        rw [hM] at this
        push_neg at this
        omega
    · obtain ⟨st0, frm'⟩ := r
      obtain ⟨L, _hS, _hI, hN, hcnt, _hpay, _hall⟩ :=
        parseLoop_ok_spec dict MaxSymbolLength 0 MaxSymbolLength newSymbolTable st0 frm' (by decide) hp
      have hN0 : st0.Nsymbols = countFrom dict 0 := by
        have hzero : newSymbolTable.Nsymbols = 0 := rfl
        rw [hN, hcnt, hzero]
        omega
      have hpok : payloadFrom dict 0 = 0 ∨ 8 + payloadFrom dict 0 ≤ dict.length := by
        have hiff := parseLoop_ok_iff dict MaxSymbolLength 0 MaxSymbolLength newSymbolTable (by decide)
        rw [hp, hM] at hiff
        exact hiff.mp ⟨(st0, frm'), rfl⟩
      dsimp only
      by_cases hbig : st0.Nsymbols > NumSymbols - 1
      · rw [if_pos hbig]
        constructor
        · rintro ⟨st, hst⟩
          simp at hst
        · intro hr
          exfalso
          have : NumSymbols - 1 = 255 := rfl
          omega
      · rw [if_neg hbig]
        have : NumSymbols - 1 = 255 := rfl
        constructor
        · intro _
          refine ⟨hshort, ?_, by omega⟩
          omega
        · intro _
          exact ⟨st0.makeIndex, rfl⟩

theorem insertLoop_error_eq (dict : List Nat) (sl : Nat) :
    ∀ (n frm : Nat) (st : symbolTable) (e : FsstError),
    insertLoop dict sl n frm st = .error e → e = .invalidDictHeader := by
  intro n
  induction n with
  | zero =>
      intro frm st e h
      simp [insertLoop_zero] at h
  | succ n ih =>
      intro frm st e h
      rw [show insertLoop dict sl (n + 1) frm st
          = if dict.length < frm + sl then .error .invalidDictHeader
            else insertLoop dict sl n (frm + sl)
              (st.insert ((dict.drop frm).take sl)) from rfl] at h
      by_cases hg : dict.length < frm + sl
      · rw [if_pos hg] at h
        injection h with h
        exact h.symm
      · rw [if_neg hg] at h
        exact ih _ _ e h

theorem parseLoop_error_eq (dict : List Nat) :
    ∀ (fuel i frm : Nat) (st : symbolTable) (e : FsstError),
    parseLoop dict fuel i frm st = .error e → e = .invalidDictHeader := by
  intro fuel
  induction fuel with
  | zero =>
      intro i frm st e h
      have h' : (Except.ok (st, frm) : Except FsstError (symbolTable × Nat))
          = .error e := h
      simp at h'
  | succ fuel ih =>
      intro i frm st e h
      by_cases hc : i < MaxSymbolLength
      · have hstep : parseLoop dict (fuel + 1) i frm st
            = match insertLoop dict (MaxSymbolLength - i) (dict.getD i 0) frm st with
              | .error e => .error e
              | .ok (st2, frm2) => parseLoop dict fuel (i + 1) frm2 st2 := by
          show (if i < MaxSymbolLength then _ else _) = _
          rw [if_pos hc]
        rw [hstep] at h
        rcases hins : insertLoop dict (MaxSymbolLength - i) (dict.getD i 0) frm st
          with e' | r
        · rw [hins] at h
          injection h with h
          rw [← h]
          exact insertLoop_error_eq dict _ _ _ _ e' hins
        · rw [hins] at h
          obtain ⟨st', frm'⟩ := r
          exact ih (i + 1) frm' st' e h
      · have hstop : parseLoop dict (fuel + 1) i frm st = .ok (st, frm) := by
          show (if i < MaxSymbolLength then _ else _) = _
          rw [if_neg hc]
        rw [hstop] at h
        simp at h

/-- Parse failures always report one of the three InvalidDict conditions. -/
theorem newSymbolTableFromDict_error {dict : List Nat} {e : FsstError}
    (h : newSymbolTableFromDict dict = .error e) :
    e = .invalidDictTooShort ∨ e = .invalidDictHeader ∨
      e = .invalidDictTooManySymbols := by
  rw [newSymbolTableFromDict] at h
  by_cases hshort : dict.length < MaxSymbolLength
  · rw [if_pos hshort] at h
    injection h with h
    exact Or.inl h.symm
  · rw [if_neg hshort] at h
    rcases hp : parseLoop dict MaxSymbolLength 0 MaxSymbolLength newSymbolTable with e' | r
    · rw [hp] at h
      injection h with h
      rw [← h]
      exact Or.inr (Or.inl (parseLoop_error_eq dict MaxSymbolLength 0 _ _ e' hp))
    · rw [hp] at h
      obtain ⟨st0, frm'⟩ := r
      dsimp only at h
      by_cases hbig : st0.Nsymbols > NumSymbols - 1
      · rw [if_pos hbig] at h
        injection h with h
        exact Or.inr (Or.inr h.symm)
      · rw [if_neg hbig] at h
        simp at h

theorem except_map_ok_iff {α β : Type} (e : Except FsstError α) (f : α → β) :
    (∃ b, e.map f = .ok b) ↔ (∃ a, e = .ok a) := by
  cases e <;> simp [Except.map]

theorem except_map_error_iff {α β : Type} (e : Except FsstError α) (f : α → β)
    (err : FsstError) : e.map f = .error err ↔ e = .error err := by
  cases e <;> simp [Except.map]

/-- The index of a parsed table, described on the parsed table itself: entry
`b` is 256 plus the position of the first learned symbol with first byte `b`
(the number of learned symbols when there is none). -/
theorem parsed_Index_eq {dict : List Nat} {st : symbolTable}
    (h : newSymbolTableFromDict dict = .ok st) :
    ∀ b, st.Index b
      = 256 + (st.Symbols.drop 256).findIdx (fun s => s.headD 0 == b) := by
  rw [newSymbolTableFromDict] at h
  by_cases hshort : dict.length < MaxSymbolLength
  · rw [if_pos hshort] at h
    simp at h
  · rw [if_neg hshort] at h
    rcases hp : parseLoop dict MaxSymbolLength 0 MaxSymbolLength newSymbolTable with e | r
    · rw [hp] at h
      simp at h
    · rw [hp] at h
      obtain ⟨st0, frm'⟩ := r
      dsimp only at h
      by_cases hcnt : st0.Nsymbols > NumSymbols - 1
      · rw [if_pos hcnt] at h
        simp at h
      · rw [if_neg hcnt] at h
        injection h with h
        obtain ⟨L, hS, _hI, hN, _hcnt, _hpay, _hall⟩ :=
          parseLoop_ok_spec dict MaxSymbolLength 0 MaxSymbolLength newSymbolTable
            st0 frm' (by decide) hp
        have hlen0 : st0.Symbols.length = 256 + st0.Nsymbols := by
          rw [hS, List.length_append, newSymbolTable_length, hN]
          have : newSymbolTable.Nsymbols = 0 := rfl
          omega
        have hNdrop : st0.Nsymbols = (st0.Symbols.drop 256).length := by
          rw [List.length_drop, hlen0]
          omega
        intro b
        have hix := makeIndex_Index st0 hNdrop b
        rw [h] at hix
        rw [hix]
        have hdrop : st.Symbols.drop 256
            = List.insertionSort symLe (st0.Symbols.drop 256) := by
          rw [← h, makeIndex_Symbols]
          exact List.drop_left' (by rw [List.length_take]; omega)
        rw [hdrop]

theorem headD_mem_self {s : List Nat} (h : s ≠ []) : s.headD 0 ∈ s := by
  cases s with
  | nil => exact absurd rfl h
  | cons a t => exact List.mem_cons_self a t

/-- With a byte-valued dictionary, entry 256 of the parsed index is the
sentinel `256 + Nsymbols` (no learned symbol has first byte 256). -/
theorem parsed_Index256 {dict : List Nat} {st : symbolTable}
    (hbytes : ByteStr dict) (h : newSymbolTableFromDict dict = .ok st) :
    st.Index 256 = 256 + st.Nsymbols := by
  obtain ⟨hv, hdictb⟩ := newSymbolTableFromDict_ok h
  rw [parsed_Index_eq h 256]
  have hall : ∀ s ∈ st.Symbols.drop 256, (fun s => s.headD 0 == 256) s = false := by
    intro s hs
    have hne : s ≠ [] := hv.nonempty s (List.drop_subset _ _ hs)
    have hhd : s.headD 0 ∈ s := headD_mem_self hne
    have : s.headD 0 < 256 := hbytes _ (hdictb s hs _ hhd)
    simp only [beq_eq_false_iff_ne, ne_eq]
    omega
  have hfi : (st.Symbols.drop 256).findIdx (fun s => s.headD 0 == 256)
      = (st.Symbols.drop 256).length := by
    rw [List.findIdx_eq_length]
    exact hall
  rw [hfi, List.length_drop, hv.len_eq]
  omega

/-- Amended claim C4: after `make_index`, `index[256]` is the sentinel
`256 + N` (i.e. `N` in the learned-symbols-only index space), every learned
symbol with first byte `b` lies at a position inside the scan range
`[index[b], index[b+1])`, and every position of that range holds a learned
symbol whose first byte is at least `b`. (The index array is not in general
non-decreasing: first bytes with no symbols hold the sentinel, and a bucket
range may also contain trailing symbols with larger first bytes.) -/
theorem claim_C4 {dict : List Nat} {st : symbolTable} (hbytes : ByteStr dict)
    (hparse : newSymbolTableFromDict dict = .ok st) :
    st.Index 256 = 256 + st.Nsymbols ∧
    (∀ p < st.Nsymbols,
      st.Index ((st.Symbols.getD (256 + p) []).headD 0) ≤ 256 + p ∧
      256 + p < st.Index ((st.Symbols.getD (256 + p) []).headD 0 + 1)) ∧
    (∀ b < 256, ∀ code, st.Index b ≤ code → code < st.Index (b + 1) →
      256 ≤ code ∧ code < 256 + st.Nsymbols ∧
      b ≤ (st.Symbols.getD code []).headD 0) := by
  have hv := (newSymbolTableFromDict_ok hparse).1
  exact ⟨parsed_Index256 hbytes hparse, hv.scan_complete, hv.scan_sound⟩

/-- Witness for the amended claim C4 at the dictionary with learned symbols
"a" and "c". -/
theorem claim_C4_witness :
    ByteStr dex3 ∧
    ∃ st, newSymbolTableFromDict dex3 = .ok st ∧
      (st.Index 256 = 256 + st.Nsymbols ∧
      (∀ p < st.Nsymbols,
        st.Index ((st.Symbols.getD (256 + p) []).headD 0) ≤ 256 + p ∧
        256 + p < st.Index ((st.Symbols.getD (256 + p) []).headD 0 + 1)) ∧
      (∀ b < 256, ∀ code, st.Index b ≤ code → code < st.Index (b + 1) →
        256 ≤ code ∧ code < 256 + st.Nsymbols ∧
        b ≤ (st.Symbols.getD code []).headD 0)) := by
  refine ⟨by decide, ?_⟩
  have hok : (newSymbolTableFromDict dex3).isOk = true := by decide
  rcases hp : newSymbolTableFromDict dex3 with e | st
  · rw [hp] at hok
    simp [Except.isOk, Except.toBool] at hok
  · exact ⟨st, rfl, claim_C4 (by decide) hp⟩

/-- Counterexample to claim C4 as stated: the dictionary `dex3` (learned
symbols "a" with first byte 97 and "c" with first byte 99) is accepted, but
its index array is not non-decreasing (`Index 98 = 258 > 257 = Index 99`),
and the range `[Index 97, Index 98) = [256, 258)` contains position 257
whose symbol is "c" with first byte 99, so the symbols of that range are not
exactly the symbols with first byte 97. -/
theorem claim_C4_counterexample :
    parsedIndex dex3 97 = some 256 ∧ parsedIndex dex3 98 = some 258 ∧
    parsedIndex dex3 99 = some 257 ∧ parsedSymbolAt dex3 257 = some [99] := by
  decide

/-- Claim C6: constructing an encoder or a decoder from a dictionary blob
fails if and only if the blob is shorter than 8 bytes, or the header counts
claim more symbol payload bytes than the blob contains, or the header counts
sum to more than 255 learned symbols; every failure reports one of the three
InvalidDict conditions, and otherwise construction succeeds with a fully
parsed instance. -/
theorem claim_C6 (dict : List Nat) :
    ((∃ c, NewCompressor dict = .ok c) ↔
      (8 ≤ dict.length ∧ 8 + payloadFrom dict 0 ≤ dict.length ∧
        countFrom dict 0 ≤ 255)) ∧
    ((∃ d, NewDecompressor dict = .ok d) ↔
      (8 ≤ dict.length ∧ 8 + payloadFrom dict 0 ≤ dict.length ∧
        countFrom dict 0 ≤ 255)) ∧
    (∀ e, NewCompressor dict = .error e →
      e = .invalidDictTooShort ∨ e = .invalidDictHeader ∨
        e = .invalidDictTooManySymbols) ∧
    (∀ e, NewDecompressor dict = .error e →
      e = .invalidDictTooShort ∨ e = .invalidDictHeader ∨
        e = .invalidDictTooManySymbols) := by
  refine ⟨?_, ?_, ?_, ?_⟩
  · rw [NewCompressor, except_map_ok_iff]
    exact newSymbolTableFromDict_ok_iff dict
  · rw [NewDecompressor, except_map_ok_iff]
    exact newSymbolTableFromDict_ok_iff dict
  · intro e he
    rw [NewCompressor, except_map_error_iff] at he
    exact newSymbolTableFromDict_error he
  · intro e he
    rw [NewDecompressor, except_map_error_iff] at he
    exact newSymbolTableFromDict_error he

end ParseValid

section Decode

theorem tokenStarts_esc_cons (l : Nat) (r2 : List Nat) :
    tokenStarts (escapeMarker :: l :: r2) = 0 :: (tokenStarts r2).map (· + 2) := by
  rw [tokenStarts.eq_3]
  rw [if_pos rfl]

theorem tokenStarts_code_cons {c : Nat} (hc : c ≠ escapeMarker) (r : List Nat) :
    tokenStarts (c :: r) = 0 :: (tokenStarts r).map (· + 1) := by
  cases r with
  | nil =>
      rw [tokenStarts.eq_2]
      rw [if_neg hc]
  | cons x r' =>
      rw [tokenStarts.eq_3]
      rw [if_neg hc]

/-- Shifting the decode-error conditions across a complete escape token. -/
theorem truncCond_esc_cons (l : Nat) (r2 : List Nat) :
    TruncCond (escapeMarker :: l :: r2) ↔ TruncCond r2 := by
  unfold TruncCond
  rw [tokenStarts_esc_cons]
  constructor
  · rintro ⟨p, hp, hget, hlen⟩
    rcases List.mem_cons.mp hp with rfl | hp
    · exfalso
      simp at hlen
    · obtain ⟨q, hq, rfl⟩ := List.mem_map.mp hp
      refine ⟨q, hq, ?_, ?_⟩
      · simpa using hget
      · simp at hlen
        omega
  · rintro ⟨q, hq, hget, hlen⟩
    refine ⟨q + 2, List.mem_cons_of_mem 0 (List.mem_map.mpr ⟨q, hq, rfl⟩), ?_, ?_⟩
    · simpa using hget
    · simp
      omega

theorem unknownCond_esc_cons (d : Decompressor) (l : Nat) (r2 : List Nat) :
    UnknownCond d (escapeMarker :: l :: r2) ↔ UnknownCond d r2 := by
  unfold UnknownCond
  rw [tokenStarts_esc_cons]
  constructor
  · rintro ⟨p, hp, hget, hlen⟩
    rcases List.mem_cons.mp hp with rfl | hp
    · exfalso
      simp at hget
    · obtain ⟨q, hq, rfl⟩ := List.mem_map.mp hp
      refine ⟨q, hq, ?_, ?_⟩
      · simpa using hget
      · simpa using hlen
  · rintro ⟨q, hq, hget, hlen⟩
    refine ⟨q + 2, List.mem_cons_of_mem 0 (List.mem_map.mpr ⟨q, hq, rfl⟩), ?_, ?_⟩
    · simpa using hget
    · simpa using hlen

/-- Shifting the decode-error conditions across a defined code token. -/
theorem truncCond_code_cons {c : Nat} (hc : c ≠ escapeMarker) (r : List Nat) :
    TruncCond (c :: r) ↔ TruncCond r := by
  unfold TruncCond
  rw [tokenStarts_code_cons hc]
  constructor
  · rintro ⟨p, hp, hget, hlen⟩
    rcases List.mem_cons.mp hp with rfl | hp
    · exfalso
      simp at hget
      exact hc hget
    · obtain ⟨q, hq, rfl⟩ := List.mem_map.mp hp
      refine ⟨q, hq, ?_, ?_⟩
      · simpa using hget
      · simp at hlen
        omega
  · rintro ⟨q, hq, hget, hlen⟩
    refine ⟨q + 1, List.mem_cons_of_mem 0 (List.mem_map.mpr ⟨q, hq, rfl⟩), ?_, ?_⟩
    · simpa using hget
    · simp
      omega

theorem unknownCond_code_cons (d : Decompressor) {c : Nat} (hc : c ≠ escapeMarker)
    (hdef : d.lens c ≠ 0) (r : List Nat) :
    UnknownCond d (c :: r) ↔ UnknownCond d r := by
  unfold UnknownCond
  rw [tokenStarts_code_cons hc]
  constructor
  · rintro ⟨p, hp, hget, hlen⟩
    rcases List.mem_cons.mp hp with rfl | hp
    · exfalso
      simp at hget hlen
      exact hdef hlen
    · obtain ⟨q, hq, rfl⟩ := List.mem_map.mp hp
      refine ⟨q, hq, ?_, ?_⟩
      · simpa using hget
      · simpa using hlen
  · rintro ⟨q, hq, hget, hlen⟩
    refine ⟨q + 1, List.mem_cons_of_mem 0 (List.mem_map.mpr ⟨q, hq, rfl⟩), ?_, ?_⟩
    · simpa using hget
    · simpa using hlen

/-- The size-computing pass fails exactly when the spec-side conditions (a)
truncated escape or (b) undefined code hold, and each error value matches
its condition. -/
theorem calcSize_error_iff (d : Decompressor) :
    ∀ input : List Nat,
    ((∃ e, calcSize d input = .error e) ↔ (TruncCond input ∨ UnknownCond d input)) ∧
    (calcSize d input = .error .truncatedStream → TruncCond input) ∧
    (∀ c, calcSize d input = .error (.unknownCode c) → UnknownCond d input) := by
  intro input
  match input with
  | [] =>
      refine ⟨?_, ?_, ?_⟩
      · constructor
        · rintro ⟨e, he⟩
          simp [calcSize] at he
        · rintro (⟨p, hp, _⟩ | ⟨p, hp, _⟩) <;> simp [tokenStarts] at hp
      · intro h
        simp [calcSize] at h
      · intro c h
        simp [calcSize] at h
  | [c] =>
      by_cases hc : c = escapeMarker
      · subst hc
        have hstep : calcSize d [escapeMarker] = .error .truncatedStream := by
          rw [calcSize.eq_2]
          rw [if_pos rfl]
        have hts : TruncCond [escapeMarker] := by
          refine ⟨0, ?_, by simp, by simp⟩
          rw [tokenStarts.eq_2]
          rw [if_pos rfl]
          simp
        refine ⟨?_, fun _ => hts, ?_⟩
        · exact ⟨fun _ => Or.inl hts, fun _ => ⟨.truncatedStream, hstep⟩⟩
        · intro c' h
          rw [hstep] at h
          simp at h
      · by_cases hdef : d.lens c = 0
        · have hstep : calcSize d [c] = .error (.unknownCode c) := by
            rw [calcSize.eq_2]
            rw [if_neg hc, if_pos hdef]
          have huk : UnknownCond d [c] := by
            refine ⟨0, ?_, by simpa using hc, by simpa using hdef⟩
            rw [tokenStarts_code_cons hc]
            simp
          refine ⟨?_, ?_, fun _ _ => huk⟩
          · exact ⟨fun _ => Or.inr huk, fun _ => ⟨.unknownCode c, hstep⟩⟩
          · intro h
            rw [hstep] at h
            simp at h
        · have hstep : calcSize d [c] = (calcSize d []).map (· + d.lens c) := by
            rw [calcSize.eq_2]
            rw [if_neg hc, if_neg hdef]
          have hok : calcSize d [c] = .ok (0 + d.lens c) := by
            rw [hstep]
            rfl
          refine ⟨?_, ?_, ?_⟩
          · constructor
            · rintro ⟨e, he⟩
              rw [hok] at he
              simp at he
            · rintro (h | h)
              · rw [truncCond_code_cons hc] at h
                obtain ⟨p, hp, _⟩ := h
                simp [tokenStarts] at hp
              · rw [unknownCond_code_cons d hc hdef] at h
                obtain ⟨p, hp, _⟩ := h
                simp [tokenStarts] at hp
          · intro h
            rw [hok] at h
            simp at h
          · intro c' h
            rw [hok] at h
            simp at h
  | c :: x :: r2 =>
      by_cases hc : c = escapeMarker
      · subst hc
        have ih := calcSize_error_iff d r2
        have hstep : calcSize d (escapeMarker :: x :: r2)
            = (calcSize d r2).map (· + 1) := by
          rw [calcSize.eq_3]
          rw [if_pos rfl]
        have herr : ∀ e, calcSize d (escapeMarker :: x :: r2) = .error e
            ↔ calcSize d r2 = .error e := by
          intro e
          rw [hstep]
          cases calcSize d r2 <;> simp [Except.map]
        refine ⟨?_, ?_, ?_⟩
        · rw [truncCond_esc_cons, unknownCond_esc_cons, ← ih.1]
          constructor
          · rintro ⟨e, he⟩
            exact ⟨e, (herr e).mp he⟩
          · rintro ⟨e, he⟩
            exact ⟨e, (herr e).mpr he⟩
        · intro h
          rw [truncCond_esc_cons]
          exact ih.2.1 ((herr _).mp h)
        · intro c' h
          rw [unknownCond_esc_cons]
          exact ih.2.2 c' ((herr _).mp h)
      · by_cases hdef : d.lens c = 0
        · have hstep : calcSize d (c :: x :: r2) = .error (.unknownCode c) := by
            rw [calcSize.eq_3]
            rw [if_neg hc, if_pos hdef]
          have huk : UnknownCond d (c :: x :: r2) := by
            refine ⟨0, ?_, by simpa using hc, by simpa using hdef⟩
            rw [tokenStarts_code_cons hc]
            simp
          refine ⟨?_, ?_, fun _ _ => huk⟩
          · exact ⟨fun _ => Or.inr huk, fun _ => ⟨.unknownCode c, hstep⟩⟩
          · intro h
            rw [hstep] at h
            simp at h
        · have ih := calcSize_error_iff d (x :: r2)
          have hstep : calcSize d (c :: x :: r2)
              = (calcSize d (x :: r2)).map (· + d.lens c) := by
            rw [calcSize.eq_3]
            rw [if_neg hc, if_neg hdef]
          have herr : ∀ e, calcSize d (c :: x :: r2) = .error e
              ↔ calcSize d (x :: r2) = .error e := by
            intro e
            rw [hstep]
            cases calcSize d (x :: r2) <;> simp [Except.map]
          refine ⟨?_, ?_, ?_⟩
          · rw [truncCond_code_cons hc, unknownCond_code_cons d hc hdef, ← ih.1]
            constructor
            · rintro ⟨e, he⟩
              exact ⟨e, (herr e).mp he⟩
            · rintro ⟨e, he⟩
              exact ⟨e, (herr e).mpr he⟩
          · intro h
            rw [truncCond_code_cons hc]
            exact ih.2.1 ((herr _).mp h)
          · intro c' h
            rw [unknownCond_code_cons d hc hdef]
            exact ih.2.2 c' ((herr _).mp h)
termination_by input => input.length

/-- Claim C5: `Decompress` returns an error if and only if the input has a
token consisting of the escape byte 0xFF with no literal byte following it
(reported as the truncated-stream error), or a non-escape token byte `c` with
`lens[c] = 0`, i.e. a code not defined by the dictionary (reported as the
unknown-code error); on every other input it succeeds. -/
theorem claim_C5 (d : Decompressor) (input : List Nat) :
    ((∃ e, d.Decompress input = .error e) ↔
      (TruncCond input ∨ UnknownCond d input)) ∧
    (d.Decompress input = .error .truncatedStream → TruncCond input) ∧
    (∀ c, d.Decompress input = .error (.unknownCode c) → UnknownCond d input) ∧
    ((¬ TruncCond input ∧ ¬ UnknownCond d input) →
      ∃ out, d.Decompress input = .ok out) := by
  have hcs := calcSize_error_iff d input
  have hmatch : ∀ e, d.Decompress input = .error e ↔ calcSize d input = .error e := by
    intro e
    unfold Decompressor.Decompress
    cases calcSize d input <;> simp
  refine ⟨?_, ?_, ?_, ?_⟩
  · rw [← hcs.1]
    constructor
    · rintro ⟨e, he⟩
      exact ⟨e, (hmatch e).mp he⟩
    · rintro ⟨e, he⟩
      exact ⟨e, (hmatch e).mpr he⟩
  · intro h
    exact hcs.2.1 ((hmatch _).mp h)
  · intro c h
    exact hcs.2.2 c ((hmatch _).mp h)
  · rintro ⟨h1, h2⟩
    rcases hval : calcSize d input with e | n
    · exfalso
      rcases hcs.1.mp ⟨e, hval⟩ with h | h
      · exact h1 h
      · exact h2 h
    · refine ⟨decodeLoop d input, ?_⟩
      unfold Decompressor.Decompress
      rw [hval]

end Decode

section FindLongest

theorem pref_iff_matches (st : symbolTable) (text : List Nat) (p : Nat) :
    Matches st text p ↔ Pref (st.Symbols.getD p []) text := by
  unfold Matches Pref
  constructor
  · rintro ⟨_, h⟩
    exact h
  · intro h
    refine ⟨?_, h⟩
    have := congrArg List.length h
    rw [List.length_take] at this
    omega

theorem head_of_pref {s t : List Nat} (h : Pref s t) (hne : s ≠ []) :
    s.headD 0 = t.headD 0 := by
  unfold Pref at h
  cases t with
  | nil =>
      rw [List.take_nil] at h
      exact absurd h.symm hne
  | cons a t' =>
      cases s with
      | nil => exact absurd rfl hne
      | cons b s' =>
          rw [List.length_cons, List.take_succ_cons] at h
          injection h with h1 _
          rw [h1]
          rfl

theorem getD_mem {l : List (List Nat)} {p : Nat} (h : p < l.length) :
    l.getD p [] ∈ l := by
  rw [List.getD_eq_getElem l [] h]
  exact List.getElem_mem h

theorem findScan_step (st : symbolTable) (text : List Nat) (ℓ fuel code : Nat)
    (h : code < st.Index (ℓ + 1)) :
    st.findScan text ℓ (fuel + 1) code
      = if Matches st text code then (code, (st.Symbols.getD code []).length)
        else st.findScan text ℓ fuel (code + 1) := by
  show (if code < st.Index (ℓ + 1) then _ else _) = _
  rw [if_pos h]
  rfl

theorem findScan_stop (st : symbolTable) (text : List Nat) (ℓ : Nat) :
    ∀ (fuel code : Nat), ¬ code < st.Index (ℓ + 1) →
    st.findScan text ℓ fuel code = (ℓ, 1) := by
  intro fuel code h
  cases fuel with
  | zero => rfl
  | succ f =>
      show (if code < st.Index (ℓ + 1) then _ else _) = _
      rw [if_neg h]

/-- Complete case analysis of the scanning loop (with sufficient fuel):
either it returns the first matching position at or after `code` within the
scan range, or no position in the range matches and it returns the escape
result. -/
theorem findScan_cases (st : symbolTable) (text : List Nat) (ℓ : Nat) :
    ∀ (fuel code : Nat), st.Index (ℓ + 1) ≤ code + fuel →
    (∃ p, code ≤ p ∧ p < st.Index (ℓ + 1) ∧ Matches st text p ∧
       (∀ q, code ≤ q → q < p → ¬ Matches st text q) ∧
       st.findScan text ℓ fuel code = (p, (st.Symbols.getD p []).length)) ∨
    ((∀ q, code ≤ q → q < st.Index (ℓ + 1) → ¬ Matches st text q) ∧
       st.findScan text ℓ fuel code = (ℓ, 1)) := by
  intro fuel
  induction fuel with
  | zero =>
      intro code hf
      right
      refine ⟨?_, findScan_stop st text ℓ 0 code (by omega)⟩
      intro q h1 h2
      exact absurd (Nat.lt_of_le_of_lt h1 h2) (by omega)
  | succ fuel ih =>
      intro code hf
      by_cases h : code < st.Index (ℓ + 1)
      · by_cases hm : Matches st text code
        · left
          refine ⟨code, Nat.le_refl _, h, hm, ?_, ?_⟩
          · intro q h1 h2
            exact absurd (Nat.lt_of_le_of_lt h1 h2) (Nat.lt_irrefl code)
          · rw [findScan_step st text ℓ fuel code h, if_pos hm]
        · rcases ih (code + 1) (by omega) with ⟨p, hp1, hp2, hp3, hp4, hp5⟩ | ⟨hall, hres⟩
          · left
            refine ⟨p, by omega, hp2, hp3, ?_, ?_⟩
            · intro q h1 h2
              rcases Nat.eq_or_lt_of_le h1 with rfl | hlt
              · exact hm
              · exact hp4 q hlt h2
            · rw [findScan_step st text ℓ fuel code h, if_neg hm]
              exact hp5
          · right
            refine ⟨?_, ?_⟩
            · intro q h1 h2
              rcases Nat.eq_or_lt_of_le h1 with rfl | hlt
              · exact hm
              · exact hall q hlt h2
            · rw [findScan_step st text ℓ fuel code h, if_neg hm]
              exact hres
      · right
        refine ⟨?_, findScan_stop st text ℓ (fuel + 1) code h⟩
        intro q h1 h2
        exact absurd (Nat.lt_of_le_of_lt h1 h2) h

/-- Functional specification of `findLongestSymbol` on a well-formed table:
a returned code `≥ 256` designates a learned symbol that is a prefix of
`text`, its length is returned, and no learned symbol that is a prefix of
`text` is longer; a returned code `< 256` is `text[0]` with length 1, and no
learned symbol is a prefix of `text`. -/
theorem findLongestSymbol_spec (st : symbolTable) (hv : ValidTable st)
    (text : List Nat) (hb : text.headD 0 < 256) :
    (256 ≤ (st.findLongestSymbol text).1 →
      (st.findLongestSymbol text).1 < 256 + st.Nsymbols ∧
      (st.findLongestSymbol text).2
        = (st.Symbols.getD (st.findLongestSymbol text).1 []).length ∧
      1 ≤ (st.findLongestSymbol text).2 ∧
      Pref (st.Symbols.getD (st.findLongestSymbol text).1 []) text ∧
      (∀ q < st.Nsymbols, Pref (st.Symbols.getD (256 + q) []) text →
        (st.Symbols.getD (256 + q) []).length ≤ (st.findLongestSymbol text).2)) ∧
    ((st.findLongestSymbol text).1 < 256 →
      (st.findLongestSymbol text).1 = text.headD 0 ∧
      (st.findLongestSymbol text).2 = 1 ∧
      (∀ q < st.Nsymbols, ¬ Pref (st.Symbols.getD (256 + q) []) text)) := by
  set ℓ := text.headD 0 with hℓ
  have hcases := findScan_cases st text ℓ
    (st.Index (ℓ + 1) - st.Index ℓ) (st.Index ℓ) (by omega)
  have hcomplete : ∀ q < st.Nsymbols, Pref (st.Symbols.getD (256 + q) []) text →
      st.Index ℓ ≤ 256 + q ∧ 256 + q < st.Index (ℓ + 1) := by
    intro q hq hpref
    have hqmem : st.Symbols.getD (256 + q) [] ∈ st.Symbols :=
      getD_mem (by rw [hv.len_eq]; omega)
    have hqne : st.Symbols.getD (256 + q) [] ≠ [] := hv.nonempty _ hqmem
    have hhead : (st.Symbols.getD (256 + q) []).headD 0 = ℓ := head_of_pref hpref hqne
    have := hv.scan_complete q hq
    rw [hhead] at this
    exact this
  rcases hcases with ⟨p, hge, hlt, hmatch, hnom, hres⟩ | ⟨hall, hres⟩
  · have hsound := hv.scan_sound ℓ hb p hge hlt
    have hr : st.findLongestSymbol text = (p, (st.Symbols.getD p []).length) := hres
    have hpmem : st.Symbols.getD p [] ∈ st.Symbols :=
      getD_mem (by rw [hv.len_eq]; omega)
    have hpne : st.Symbols.getD p [] ≠ [] := hv.nonempty _ hpmem
    have hppref : Pref (st.Symbols.getD p []) text := (pref_iff_matches st text p).mp hmatch
    have hphead : (st.Symbols.getD p []).headD 0 = ℓ := head_of_pref hppref hpne
    constructor
    · intro _
      rw [hr]
      refine ⟨hsound.2.1, rfl, ?_, hppref, ?_⟩
      · have : st.Symbols.getD p [] ≠ [] := hpne
        cases hval : st.Symbols.getD p [] with
        | nil => exact absurd hval this
        | cons a t => simp [hval]
      · intro q hq hqpref
        obtain ⟨hq1, hq2⟩ := hcomplete q hq hqpref
        have hple : p ≤ 256 + q := by
          by_contra hcon
          push_neg at hcon
          exact hnom (256 + q) hq1 hcon ((pref_iff_matches st text _).mpr hqpref)
        have hqmem : st.Symbols.getD (256 + q) [] ∈ st.Symbols :=
          getD_mem (by rw [hv.len_eq]; omega)
        have hqne : st.Symbols.getD (256 + q) [] ≠ [] := hv.nonempty _ hqmem
        have hqhead : (st.Symbols.getD (256 + q) []).headD 0 = ℓ :=
          head_of_pref hqpref hqne
        exact hv.scan_sorted ℓ hb p (256 + q) hge hple hq2 hphead hqhead
    · intro hlt256
      rw [hr] at hlt256
      exact absurd hlt256 (by push_neg; exact hsound.1)
  · have hr : st.findLongestSymbol text = (ℓ, 1) := hres
    constructor
    · intro h256
      rw [hr] at h256
      exact absurd h256 (by push_neg; exact hb)
    · intro _
      rw [hr]
      refine ⟨rfl, rfl, ?_⟩
      intro q hq hqpref
      obtain ⟨hq1, hq2⟩ := hcomplete q hq hqpref
      exact hall (256 + q) hq1 hq2 ((pref_iff_matches st text _).mpr hqpref)

theorem headD_mem {t : List Nat} (h : t ≠ []) : t.headD 0 ∈ t := by
  cases t with
  | nil => exact absurd rfl h
  | cons a t' => exact List.mem_cons_self a t'

/-- Claim C2: on a symbol table parsed from a valid dictionary and a
non-empty byte slice, `findLongestSymbol` returns either a learned symbol
(code at least 256) that is a prefix of the text and at least as long as
every learned symbol that is a prefix of the text, together with that
symbol's length, or — when no learned symbol is a prefix — the escape pair
`(text[0], 1)` with code below 256. -/
theorem claim_C2 {dict : List Nat} {st : symbolTable}
    (hparse : newSymbolTableFromDict dict = .ok st)
    (text : List Nat) (hne : text ≠ []) (hbytes : ByteStr text) :
    (256 ≤ (st.findLongestSymbol text).1 →
      (st.findLongestSymbol text).1 < 256 + st.Nsymbols ∧
      (st.findLongestSymbol text).2
        = (st.Symbols.getD (st.findLongestSymbol text).1 []).length ∧
      1 ≤ (st.findLongestSymbol text).2 ∧
      Pref (st.Symbols.getD (st.findLongestSymbol text).1 []) text ∧
      (∀ q < st.Nsymbols, Pref (st.Symbols.getD (256 + q) []) text →
        (st.Symbols.getD (256 + q) []).length ≤ (st.findLongestSymbol text).2)) ∧
    ((st.findLongestSymbol text).1 < 256 →
      (st.findLongestSymbol text).1 = text.headD 0 ∧
      (st.findLongestSymbol text).2 = 1 ∧
      (∀ q < st.Nsymbols, ¬ Pref (st.Symbols.getD (256 + q) []) text)) := by
  have hv := (newSymbolTableFromDict_ok hparse).1
  exact findLongestSymbol_spec st hv text (hbytes _ (headD_mem hne))

/-- Concrete instantiation of claim C2 on the dictionary with learned
symbols "ab" and "a": discharges every hypothesis at an explicit input. -/
theorem claim_C2_witness :
    ([97, 98, 99] : List Nat) ≠ [] ∧ ByteStr [97, 98, 99] ∧
    ∃ st, newSymbolTableFromDict dex1 = .ok st ∧
      ((256 ≤ (st.findLongestSymbol [97, 98, 99]).1 →
        (st.findLongestSymbol [97, 98, 99]).1 < 256 + st.Nsymbols ∧
        (st.findLongestSymbol [97, 98, 99]).2
          = (st.Symbols.getD (st.findLongestSymbol [97, 98, 99]).1 []).length ∧
        1 ≤ (st.findLongestSymbol [97, 98, 99]).2 ∧
        Pref (st.Symbols.getD (st.findLongestSymbol [97, 98, 99]).1 []) [97, 98, 99] ∧
        (∀ q < st.Nsymbols, Pref (st.Symbols.getD (256 + q) []) [97, 98, 99] →
          (st.Symbols.getD (256 + q) []).length ≤ (st.findLongestSymbol [97, 98, 99]).2)) ∧
      ((st.findLongestSymbol [97, 98, 99]).1 < 256 →
        (st.findLongestSymbol [97, 98, 99]).1 = ([97, 98, 99] : List Nat).headD 0 ∧
        (st.findLongestSymbol [97, 98, 99]).2 = 1 ∧
        (∀ q < st.Nsymbols, ¬ Pref (st.Symbols.getD (256 + q) []) [97, 98, 99]))) := by
  refine ⟨by decide, by decide, ?_⟩
  have hok : (newSymbolTableFromDict dex1).isOk = true := by decide
  rcases hp : newSymbolTableFromDict dex1 with e | st
  · rw [hp] at hok
    simp [Except.isOk, Except.toBool] at hok
  · exact ⟨st, rfl, claim_C2 hp [97, 98, 99] (by decide) (by decide)⟩

end FindLongest

section CompressLemmas

theorem NewCompressor_ok_table {dict : List Nat} {c : Compressor}
    (h : NewCompressor dict = .ok c) :
    newSymbolTableFromDict dict = .ok c.table := by
  rw [NewCompressor] at h
  rcases hp : newSymbolTableFromDict dict with e | st
  · rw [hp] at h
    simp [Except.map] at h
  · rw [hp] at h
    simp only [Except.map] at h
    injection h with h
    rw [← h]

theorem compressLoop_nil (st : symbolTable) : ∀ fuel, compressLoop st fuel [] = some [] := by
  intro fuel
  cases fuel <;> rfl

theorem compressLoop_cons (st : symbolTable) (fuel b : Nat) (rest : List Nat) :
    compressLoop st (fuel + 1) (b :: rest)
      = if (st.findLongestSymbol (b :: rest)).1 < 256 then
          (compressLoop st fuel rest).map (fun out => escapeMarker :: b :: out)
        else
          (compressLoop st fuel
              ((b :: rest).drop (st.findLongestSymbol (b :: rest)).2)).map
            (fun out => ((st.findLongestSymbol (b :: rest)).1 - 256) % 256 :: out) := rfl

theorem byteStr_cons {b : Nat} {rest : List Nat} (h : ByteStr (b :: rest)) :
    b < 256 ∧ ByteStr rest := by
  refine ⟨h b (List.mem_cons_self b rest), ?_⟩
  intro x hx
  exact h x (List.mem_cons_of_mem b hx)

theorem byteStr_drop {input : List Nat} (h : ByteStr input) (n : Nat) :
    ByteStr (input.drop n) := by
  intro x hx
  exact h x (List.drop_subset n input hx)

/-- With a well-formed table, the token returned on a non-empty byte string
always has length at least 1. -/
theorem findLongestSymbol_pos (st : symbolTable) (hv : ValidTable st)
    {text : List Nat} (hne : text ≠ []) (hb : ByteStr text) :
    1 ≤ (st.findLongestSymbol text).2 := by
  have hhb : text.headD 0 < 256 := hb _ (headD_mem hne)
  have hspec := findLongestSymbol_spec st hv text hhb
  by_cases h256 : 256 ≤ (st.findLongestSymbol text).1
  · exact (hspec.1 h256).2.2.1
  · push_neg at h256
    rw [(hspec.2 h256).2.1]

/-- With a well-formed table, fuel equal to the input length never runs
out: the loop always completes. -/
theorem compressLoop_progress (st : symbolTable) (hv : ValidTable st) :
    ∀ (fuel : Nat) (input : List Nat), input.length ≤ fuel → ByteStr input →
    ∃ out, compressLoop st fuel input = some out := by
  intro fuel
  induction fuel with
  | zero =>
      intro input hlen _hb
      cases input with
      | nil => exact ⟨[], rfl⟩
      | cons b rest => simp at hlen
  | succ fuel ih =>
      intro input hlen hb
      cases input with
      | nil => exact ⟨[], rfl⟩
      | cons b rest =>
          obtain ⟨hb256, hbrest⟩ := byteStr_cons hb
          rw [compressLoop_cons]
          by_cases hesc : (st.findLongestSymbol (b :: rest)).1 < 256
          · rw [if_pos hesc]
            obtain ⟨out, hout⟩ := ih rest (by simpa using hlen) hbrest
            exact ⟨escapeMarker :: b :: out, by rw [hout]; rfl⟩
          · rw [if_neg hesc]
            have hpos : 1 ≤ (st.findLongestSymbol (b :: rest)).2 :=
              findLongestSymbol_pos st hv (by simp) hb
            obtain ⟨out, hout⟩ := ih ((b :: rest).drop (st.findLongestSymbol (b :: rest)).2)
              (by
                rw [List.length_drop]
                simp only [List.length_cons] at hlen ⊢
                omega)
              (byteStr_drop hb _)
            exact ⟨((st.findLongestSymbol (b :: rest)).1 - 256) % 256 :: out,
              by rw [hout]; rfl⟩

/-- Any two sufficient fuels give the same result. -/
theorem compressLoop_fuel_eq (st : symbolTable) (hv : ValidTable st) :
    ∀ (n fuel1 fuel2 : Nat) (input : List Nat), input.length = n →
    n ≤ fuel1 → n ≤ fuel2 → ByteStr input →
    compressLoop st fuel1 input = compressLoop st fuel2 input := by
  intro n
  induction n using Nat.strong_induction_on with
  | _ n ih =>
      intro fuel1 fuel2 input hlen h1 h2 hb
      cases input with
      | nil => rw [compressLoop_nil, compressLoop_nil]
      | cons b rest =>
          have hn1 : 1 ≤ n := by rw [← hlen]; simp
          obtain ⟨f1, rfl⟩ : ∃ f1, fuel1 = f1 + 1 :=
            ⟨fuel1 - 1, by omega⟩
          obtain ⟨f2, rfl⟩ : ∃ f2, fuel2 = f2 + 1 :=
            ⟨fuel2 - 1, by omega⟩
          rw [compressLoop_cons, compressLoop_cons]
          by_cases hesc : (st.findLongestSymbol (b :: rest)).1 < 256
          · rw [if_pos hesc, if_pos hesc]
            rw [ih (n - 1) (by omega) f1 f2 rest
              (by simp only [List.length_cons] at hlen; omega)
              (by omega) (by omega) (byteStr_cons hb).2]
          · rw [if_neg hesc, if_neg hesc]
            have hpos : 1 ≤ (st.findLongestSymbol (b :: rest)).2 :=
              findLongestSymbol_pos st hv (by simp) hb
            set m := ((b :: rest).drop (st.findLongestSymbol (b :: rest)).2).length with hm
            rw [ih m
              (by
                rw [hm, List.length_drop]
                simp only [List.length_cons] at hlen ⊢
                omega)
              f1 f2 _ rfl
              (by
                rw [hm, List.length_drop]
                simp only [List.length_cons] at hlen ⊢
                omega)
              (by
                rw [hm, List.length_drop]
                simp only [List.length_cons] at hlen ⊢
                omega)
              (byteStr_drop hb _)]

/-- Length bound: each loop step emits at most two bytes per consumed input
byte. -/
theorem compressLoop_le (st : symbolTable) (hv : ValidTable st) :
    ∀ (fuel : Nat) (input out : List Nat), ByteStr input →
    compressLoop st fuel input = some out → out.length ≤ 2 * input.length := by
  intro fuel
  induction fuel with
  | zero =>
      intro input out _hb h
      cases input with
      | nil =>
          injection h with h
          rw [← h]
          simp
      | cons b rest => simp [compressLoop] at h
  | succ fuel ih =>
      intro input out hb h
      cases input with
      | nil =>
          injection h with h
          rw [← h]
          simp
      | cons b rest =>
          rw [compressLoop_cons] at h
          by_cases hesc : (st.findLongestSymbol (b :: rest)).1 < 256
          · rw [if_pos hesc] at h
            rw [Option.map_eq_some'] at h
            obtain ⟨out', hout', rfl⟩ := h
            have := ih rest out' (byteStr_cons hb).2 hout'
            simp only [List.length_cons]
            omega
          · rw [if_neg hesc] at h
            rw [Option.map_eq_some'] at h
            obtain ⟨out', hout', rfl⟩ := h
            have hpos : 1 ≤ (st.findLongestSymbol (b :: rest)).2 :=
              findLongestSymbol_pos st hv (by simp) hb
            have := ih _ out' (byteStr_drop hb _) hout'
            rw [List.length_drop] at this
            simp only [List.length_cons] at this ⊢
            omega

/-- Claim C7: for every accepted dictionary, the compressed output is at
most twice as long as the input, and compressing the empty string yields the
empty string. -/
theorem claim_C7 {dict : List Nat} {c : Compressor}
    (h : NewCompressor dict = .ok c) (input : List Nat) (hb : ByteStr input) :
    (∃ out, c.Compress input = some out ∧ out.length ≤ 2 * input.length) ∧
    c.Compress [] = some [] := by
  have hv := (newSymbolTableFromDict_ok (NewCompressor_ok_table h)).1
  obtain ⟨out, hout⟩ :=
    compressLoop_progress c.table hv input.length input (Nat.le_refl _) hb
  exact ⟨⟨out, hout, compressLoop_le c.table hv input.length input out hb hout⟩, rfl⟩

/-- Witness for claim C7 on the empty dictionary and the input `[5, 6]`. -/
theorem claim_C7_witness :
    ByteStr [5, 6] ∧
    ∃ c, NewCompressor dexEmpty = .ok c ∧
      ((∃ out, c.Compress [5, 6] = some out ∧ out.length ≤ 2 * ([5, 6] : List Nat).length) ∧
        c.Compress [] = some []) := by
  refine ⟨by decide, ?_⟩
  have hok : (NewCompressor dexEmpty).isOk = true := by decide
  rcases hp : NewCompressor dexEmpty with e | c
  · rw [hp] at hok
    simp [Except.isOk, Except.toBool] at hok
  · exact ⟨c, rfl, claim_C7 hp [5, 6] (by decide)⟩

/-- Claim C10: on every table parsed from an accepted dictionary, all stored
symbols are non-empty, `findLongestSymbol` on a non-empty byte slice returns
a length of at least 1, and the compression loop run with fuel equal to the
input length terminates with a result for every byte input. -/
theorem claim_C10 {dict : List Nat} {c : Compressor}
    (h : NewCompressor dict = .ok c) :
    (∀ s ∈ c.table.Symbols, s ≠ []) ∧
    (∀ text, text ≠ [] → ByteStr text → 1 ≤ (c.table.findLongestSymbol text).2) ∧
    (∀ input, ByteStr input → ∃ out, c.Compress input = some out) := by
  have hv := (newSymbolTableFromDict_ok (NewCompressor_ok_table h)).1
  refine ⟨hv.nonempty, ?_, ?_⟩
  · intro text hne hb
    exact findLongestSymbol_pos c.table hv hne hb
  · intro input hb
    exact compressLoop_progress c.table hv input.length input (Nat.le_refl _) hb

/-- Witness for claim C10 on the dictionary with learned symbols "ab" and
"a". -/
theorem claim_C10_witness :
    ∃ c, NewCompressor dex1 = .ok c ∧
      ((∀ s ∈ c.table.Symbols, s ≠ []) ∧
      (∀ text, text ≠ [] → ByteStr text → 1 ≤ (c.table.findLongestSymbol text).2) ∧
      (∀ input, ByteStr input → ∃ out, c.Compress input = some out)) := by
  have hok : (NewCompressor dex1).isOk = true := by decide
  rcases hp : NewCompressor dex1 with e | c
  · rw [hp] at hok
    simp [Except.isOk, Except.toBool] at hok
  · exact ⟨c, rfl, claim_C10 hp⟩

end CompressLemmas

section DecompArrays

theorem upd_eval (f : Nat → Nat) (i v j : Nat) :
    upd f i v j = if j = i then v else f j := rfl

/-- Pointwise value of a `writeBytes` copy. -/
theorem writeBytes_eval (s : List Nat) :
    ∀ (f : Nat → Nat) (off x : Nat),
    writeBytes f off s x
      = if off ≤ x ∧ x < off + s.length then s.getD (x - off) 0 else f x := by
  induction s with
  | nil =>
      intro f off x
      rw [if_neg (by simp)]
      rfl
  | cons b bs ih =>
      intro f off x
      show writeBytes (upd f off b) (off + 1) bs x = _
      rw [ih]
      by_cases h1 : off + 1 ≤ x ∧ x < off + 1 + bs.length
      · rw [if_pos h1, if_pos (by simp only [List.length_cons]; omega)]
        have hx : x - off = (x - (off + 1)) + 1 := by omega
        rw [hx]
        rfl
      · rw [if_neg h1, upd_eval]
        by_cases h2 : x = off
        · rw [if_pos h2, if_pos (by simp only [List.length_cons]; omega)]
          rw [show x - off = 0 from by omega]
          rfl
        · rw [if_neg h2, if_neg (by simp only [List.length_cons]; omega)]

/-- Pointwise characterisation of the decompressor arrays built by
`NewDecompressor`: `lens` holds the (byte-truncated) symbol lengths, and
`data` holds symbol `i` at offsets `8 i .. 8 i + len i`. -/
theorem decompOf_spec (st : symbolTable)
    (hshort : ∀ p < st.Nsymbols, (st.Symbols.getD (256 + p) []).length ≤ 8) :
    (∀ c, (decompOf st).lens c
      = if c < st.Nsymbols then (st.Symbols.getD (256 + c) []).length % 256 else 0) ∧
    (∀ x, (decompOf st).data x
      = if x / 8 < st.Nsymbols ∧ x % 8 < (st.Symbols.getD (256 + x / 8) []).length
        then (st.Symbols.getD (256 + x / 8) []).getD (x % 8) 0 else 0) := by
  have main : ∀ m, m ≤ st.Nsymbols →
      (∀ c, ((List.range m).foldl
          (fun d i =>
            let sym := st.Symbols.getD (256 + i) []
            { data := writeBytes d.data (i * MaxSymbolLength) sym
              lens := upd d.lens i (sym.length % 256) })
          { data := fun _ => 0, lens := fun _ => 0 } : Decompressor).lens c
        = if c < m then (st.Symbols.getD (256 + c) []).length % 256 else 0) ∧
      (∀ x, ((List.range m).foldl
          (fun d i =>
            let sym := st.Symbols.getD (256 + i) []
            { data := writeBytes d.data (i * MaxSymbolLength) sym
              lens := upd d.lens i (sym.length % 256) })
          { data := fun _ => 0, lens := fun _ => 0 } : Decompressor).data x
        = if x / 8 < m ∧ x % 8 < (st.Symbols.getD (256 + x / 8) []).length
          then (st.Symbols.getD (256 + x / 8) []).getD (x % 8) 0 else 0) := by
    intro m
    induction m with
    | zero =>
        intro _
        constructor
        · intro c
          rw [if_neg (by omega)]
          rfl
        · intro x
          rw [if_neg (by omega)]
          rfl
    | succ m ih =>
        intro hm
        obtain ⟨ihl, ihd⟩ := ih (by omega)
        rw [List.range_succ, List.foldl_append]
        constructor
        · intro c
          simp only [List.foldl_cons, List.foldl_nil]
          rw [upd_eval]
          by_cases hc : c = m
          · rw [if_pos hc, if_pos (by omega), hc]
          · rw [if_neg hc, ihl]
            by_cases hcm : c < m
            · rw [if_pos hcm, if_pos (by omega)]
            · rw [if_neg hcm, if_neg (by omega)]
        · intro x
          simp only [List.foldl_cons, List.foldl_nil]
          rw [writeBytes_eval]
          have h8 : (MaxSymbolLength : Nat) = 8 := rfl
          have hlenm : (st.Symbols.getD (256 + m) []).length ≤ 8 :=
            hshort m (by omega)
          by_cases hw : m * MaxSymbolLength ≤ x ∧
              x < m * MaxSymbolLength + (st.Symbols.getD (256 + m) []).length
          · rw [if_pos hw]
            have hdiv : x / 8 = m := by
              rw [h8] at hw
              omega
            have hmod : x % 8 = x - m * MaxSymbolLength := by
              rw [h8] at hw ⊢
              omega
            rw [if_pos (by
              rw [hdiv, hmod, h8] at *
              constructor
              · omega
              · rw [h8] at hw
                omega)]
            rw [hdiv, hmod]
          · rw [if_neg hw, ihd]
            rw [h8] at hw
            by_cases hx : x / 8 < m ∧ x % 8 < (st.Symbols.getD (256 + x / 8) []).length
            · rw [if_pos hx, if_pos (by omega)]
            · rw [if_neg hx]
              by_cases hx2 : x / 8 < m + 1 ∧
                  x % 8 < (st.Symbols.getD (256 + x / 8) []).length
              · exfalso
                have hdm : x / 8 = m := by omega
                rw [hdm] at hx2
                push_neg at hw
                omega
              · rw [if_neg hx2]
  exact main st.Nsymbols (Nat.le_refl _)

theorem range_map_getD (s : List Nat) :
    (List.range s.length).map (fun j => s.getD j 0) = s := by
  apply List.ext_getElem
  · simp
  · intro i h1 h2
    simp only [List.getElem_map, List.getElem_range]
    rw [List.getD_eq_getElem s 0 h2]

/-- Reading back symbol `c` from the decompressor arrays yields the learned
symbol. -/
theorem decompOf_read (st : symbolTable) (hv : ValidTable st)
    {c : Nat} (hc : c < st.Nsymbols) :
    (decompOf st).lens c = (st.Symbols.getD (256 + c) []).length ∧
    (decompOf st).lens c ≠ 0 ∧
    (List.range ((decompOf st).lens c)).map
        (fun j => (decompOf st).data (c * MaxSymbolLength + j))
      = st.Symbols.getD (256 + c) [] := by
  have hshort : ∀ p < st.Nsymbols, (st.Symbols.getD (256 + p) []).length ≤ 8 := by
    intro p hp
    exact hv.short _ (getD_mem (by rw [hv.len_eq]; omega))
  obtain ⟨hlens, hdata⟩ := decompOf_spec st hshort
  have hmem : st.Symbols.getD (256 + c) [] ∈ st.Symbols :=
    getD_mem (by rw [hv.len_eq]; omega)
  have hle8 : (st.Symbols.getD (256 + c) []).length ≤ 8 := hv.short _ hmem
  have hne : st.Symbols.getD (256 + c) [] ≠ [] := hv.nonempty _ hmem
  have hpos : 1 ≤ (st.Symbols.getD (256 + c) []).length := by
    cases hval : st.Symbols.getD (256 + c) [] with
    | nil => exact absurd hval hne
    | cons a t => simp [hval]
  have hlc : (decompOf st).lens c = (st.Symbols.getD (256 + c) []).length := by
    rw [hlens c, if_pos hc, Nat.mod_eq_of_lt (by omega)]
  refine ⟨hlc, by omega, ?_⟩
  rw [hlc]
  have h8 : (MaxSymbolLength : Nat) = 8 := rfl
  have hmap : ∀ j < (st.Symbols.getD (256 + c) []).length,
      (decompOf st).data (c * MaxSymbolLength + j)
        = (st.Symbols.getD (256 + c) []).getD j 0 := by
    intro j hj
    have hjd : (c * MaxSymbolLength + j) / 8 = c := by
      rw [h8]
      omega
    have hjm : (c * MaxSymbolLength + j) % 8 = j := by
      rw [h8]
      omega
    rw [hdata, hjd, hjm, if_pos ⟨hc, hj⟩]
  calc (List.range (st.Symbols.getD (256 + c) []).length).map
          (fun j => (decompOf st).data (c * MaxSymbolLength + j))
      = (List.range (st.Symbols.getD (256 + c) []).length).map
          (fun j => (st.Symbols.getD (256 + c) []).getD j 0) := by
        apply List.map_congr_left
        intro j hj
        rw [List.mem_range] at hj
        exact hmap j hj
    _ = st.Symbols.getD (256 + c) [] := range_map_getD _

end DecompArrays

section RoundTrip

theorem NewDecompressor_ok_decomp {dict : List Nat} {d : Decompressor}
    (h : NewDecompressor dict = .ok d) :
    ∃ st, newSymbolTableFromDict dict = .ok st ∧ d = decompOf st := by
  rw [NewDecompressor] at h
  rcases hp : newSymbolTableFromDict dict with e | st
  · rw [hp] at h
    simp [Except.map] at h
  · rw [hp] at h
    simp only [Except.map] at h
    injection h with h
    exact ⟨st, rfl, h.symm⟩

theorem calcSize_esc_cons (d : Decompressor) (l : Nat) (r2 : List Nat) :
    calcSize d (escapeMarker :: l :: r2) = (calcSize d r2).map (· + 1) := by
  rw [calcSize.eq_3]
  rw [if_pos rfl]

theorem calcSize_code_cons (d : Decompressor) {c : Nat} (hc : c ≠ escapeMarker)
    (hl : d.lens c ≠ 0) (r : List Nat) :
    calcSize d (c :: r) = (calcSize d r).map (· + d.lens c) := by
  cases r with
  | nil =>
      rw [calcSize.eq_2]
      rw [if_neg hc, if_neg hl]
  | cons x r2 =>
      rw [calcSize.eq_3]
      rw [if_neg hc, if_neg hl]

theorem decodeLoop_esc_cons (d : Decompressor) (l : Nat) (r2 : List Nat) :
    decodeLoop d (escapeMarker :: l :: r2) = l :: decodeLoop d r2 := by
  rw [decodeLoop.eq_3]
  rw [if_pos rfl]

theorem decodeLoop_code_cons (d : Decompressor) {c : Nat} (hc : c ≠ escapeMarker)
    (r : List Nat) :
    decodeLoop d (c :: r)
      = (List.range (d.lens c)).map (fun j => d.data (c * MaxSymbolLength + j))
        ++ decodeLoop d r := by
  cases r with
  | nil =>
      rw [decodeLoop.eq_2]
      rw [if_neg hc]
  | cons x r2 =>
      rw [decodeLoop.eq_3]
      rw [if_neg hc]

/-- Core of the round-trip: decoding the compressed form of `input` with the
arrays built from the same table reproduces `input`, and the size pass
accepts it. -/
theorem decode_roundtrip (st : symbolTable) (hv : ValidTable st) :
    ∀ (n : Nat) (input : List Nat), input.length = n → ByteStr input →
    ∀ out, compressLoop st input.length input = some out →
    (∃ sz, calcSize (decompOf st) out = .ok sz) ∧
      decodeLoop (decompOf st) out = input := by
  intro n
  induction n using Nat.strong_induction_on with
  | _ n ih =>
      intro input hlen hb out hout
      cases input with
      | nil =>
          rw [compressLoop_nil] at hout
          injection hout with hout
          rw [← hout]
          exact ⟨⟨0, rfl⟩, rfl⟩
      | cons b rest =>
          simp only [List.length_cons] at hout
          rw [compressLoop_cons] at hout
          obtain ⟨hb256, hbrest⟩ := byteStr_cons hb
          have hhead : (b :: rest).headD 0 < 256 := by simpa using hb256
          have hspec := findLongestSymbol_spec st hv (b :: rest) hhead
          by_cases hesc : (st.findLongestSymbol (b :: rest)).1 < 256
          · rw [if_pos hesc, Option.map_eq_some'] at hout
            obtain ⟨out', hout', rfl⟩ := hout
            have hn1 : 1 ≤ n := by
              simp only [List.length_cons] at hlen
              omega
            obtain ⟨⟨sz, hsz⟩, hdec⟩ := ih (n - 1) (by omega) rest
              (by simp only [List.length_cons] at hlen; omega) hbrest out' hout'
            constructor
            · refine ⟨sz + 1, ?_⟩
              rw [calcSize_esc_cons, hsz]
              rfl
            · rw [decodeLoop_esc_cons, hdec]
          · rw [if_neg hesc, Option.map_eq_some'] at hout
            obtain ⟨out', hout', rfl⟩ := hout
            push_neg at hesc
            set r := st.findLongestSymbol (b :: rest) with hrdef
            obtain ⟨hlt, hlen2, hpos, hpref, _hmax⟩ := hspec.1 hesc
            have hn1 : 1 ≤ n := by
              simp only [List.length_cons] at hlen
              omega
            have hcc : r.1 - 256 < st.Nsymbols := by omega
            have h256c : 256 + (r.1 - 256) = r.1 := by omega
            have hccle : r.1 - 256 ≤ 254 := by
              have := hv.nmax
              omega
            have hmod : (r.1 - 256) % 256 = r.1 - 256 :=
              Nat.mod_eq_of_lt (by omega)
            have hne255 : (r.1 - 256) % 256 ≠ escapeMarker := by
              rw [hmod]
              unfold escapeMarker
              omega
            obtain ⟨hlc, hlnz, hread⟩ := decompOf_read st hv hcc
            rw [h256c] at hlc hread
            -- align the fuel of the recursive compression
            have hdlen : ((b :: rest).drop r.2).length = n - r.2 := by
              rw [List.length_drop]
              simp only [List.length_cons] at hlen ⊢
              omega
            have hfuel : compressLoop st ((b :: rest).drop r.2).length
                ((b :: rest).drop r.2) = some out' := by
              rw [compressLoop_fuel_eq st hv ((b :: rest).drop r.2).length
                ((b :: rest).drop r.2).length (rest.length) ((b :: rest).drop r.2)
                rfl (Nat.le_refl _)
                (by
                  rw [hdlen]
                  simp only [List.length_cons] at hlen
                  omega)
                (byteStr_drop hb _)]
              exact hout'
            obtain ⟨⟨sz, hsz⟩, hdec⟩ := ih (n - r.2) (by omega)
              ((b :: rest).drop r.2) (by omega) (byteStr_drop hb _) out' hfuel
            have hlensval : (decompOf st).lens ((r.1 - 256) % 256)
                = (st.Symbols.getD r.1 []).length := by
              rw [hmod, hlc]
            constructor
            · refine ⟨sz + (decompOf st).lens ((r.1 - 256) % 256), ?_⟩
              rw [calcSize_code_cons (decompOf st) hne255
                (by rw [hmod]; exact hlnz), hsz]
              rfl
            · rw [decodeLoop_code_cons (decompOf st) hne255, hdec]
              have hreadm : (List.range ((decompOf st).lens ((r.1 - 256) % 256))).map
                    (fun j => (decompOf st).data
                      (((r.1 - 256) % 256) * MaxSymbolLength + j))
                  = st.Symbols.getD r.1 [] := by
                rw [hmod]
                exact hread
              rw [hreadm]
              have htake : (b :: rest).take r.2 = st.Symbols.getD r.1 [] := by
                unfold Pref at hpref
                rw [← hlen2] at hpref
                exact hpref
              rw [← htake, List.take_append_drop]

/-- Round trip via the public interfaces: an encoder and a decoder built
from the same accepted blob are mutually inverse on every byte string. -/
theorem roundtrip_ok {dict : List Nat} {c : Compressor} {d : Decompressor}
    (hc : NewCompressor dict = .ok c) (hd : NewDecompressor dict = .ok d)
    (s : List Nat) (hb : ByteStr s) :
    ∃ out, c.Compress s = some out ∧ d.Decompress out = .ok s := by
  have hparse := NewCompressor_ok_table hc
  obtain ⟨st, hparse2, hdval⟩ := NewDecompressor_ok_decomp hd
  rw [hparse] at hparse2
  injection hparse2 with hparse2
  subst hparse2
  have hv := (newSymbolTableFromDict_ok hparse).1
  obtain ⟨out, hout⟩ :=
    compressLoop_progress c.table hv s.length s (Nat.le_refl _) hb
  obtain ⟨⟨sz, hsz⟩, hdec⟩ :=
    decode_roundtrip c.table hv s.length s rfl hb out hout
  refine ⟨out, hout, ?_⟩
  rw [hdval]
  unfold Decompressor.Decompress
  rw [hsz, hdec]

end RoundTrip

section BuilderBasics

theorem newSymbolTable_valid : ValidTable newSymbolTable := by
  have h0 : newSymbolTable.Nsymbols = 0 := rfl
  constructor
  · rw [newSymbolTable_length, h0]
  · intro i hi
    exact newSymbolTable_getD hi
  · intro s hs
    obtain ⟨i, _, rfl⟩ := newSymbolTable_mem hs
    simp
  · intro s hs
    obtain ⟨i, _, rfl⟩ := newSymbolTable_mem hs
    simp
  · exact Nat.zero_le 255
  · intro p hp
    rw [h0] at hp
    exact absurd hp (Nat.not_lt_zero p)
  · intro b _ code h1 h2
    exfalso
    have hz : newSymbolTable.Index b = 0 := rfl
    have hz2 : newSymbolTable.Index (b + 1) = 0 := rfl
    omega
  · intro b _ p q h1 _ h3 _ _
    exfalso
    have hz : newSymbolTable.Index b = 0 := rfl
    have hz2 : newSymbolTable.Index (b + 1) = 0 := rfl
    omega

theorem popMax_none {pq : List (List Nat × Int)} (h : popMax pq = none) :
    pq = [] := by
  cases pq with
  | nil => rfl
  | cons x xs =>
      exfalso
      rw [popMax] at h
      rcases hm : popMax xs with hnone | p
      · rw [hm] at h
        simp at h
      · rw [hm] at h
        obtain ⟨m, rest⟩ := p
        by_cases hc : x.2 < m.2 <;> simp [hc] at h

theorem popMax_perm : ∀ (pq : List (List Nat × Int)) (x : List Nat × Int)
    (rest : List (List Nat × Int)), popMax pq = some (x, rest) →
    (x :: rest).Perm pq := by
  intro pq
  induction pq with
  | nil =>
      intro x rest h
      simp [popMax] at h
  | cons y ys ih =>
      intro x rest h
      rw [popMax] at h
      rcases hm : popMax ys with hnone | p
      · rw [hm] at h
        have hys : ys = [] := popMax_none hm
        dsimp only at h
        injection h with h
        injection h with h1 h2
        subst h1
        subst h2
        rw [hys]
      · rw [hm] at h
        obtain ⟨m, rest'⟩ := p
        dsimp only at h
        have hperm : (m :: rest').Perm ys := ih m rest' hm
        by_cases hc : y.2 < m.2
        · rw [if_pos hc] at h
          injection h with h
          injection h with h1 h2
          subst h1
          subst h2
          exact (List.Perm.swap y m rest').trans (hperm.cons y)
        · rw [if_neg hc] at h
          injection h with h
          injection h with h1 h2
          subst h1
          subst h2
          exact List.Perm.refl _

theorem popLoop_succ (fuel : Nat) (pq : List (List Nat × Int)) (nst : symbolTable) :
    popLoop (fuel + 1) pq nst
      = if nst.Nsymbols < 255 then
          match popMax pq with
          | none => nst
          | some (it, rest) => popLoop fuel rest (nst.insert it.1)
        else nst := rfl

/-- The pop loop appends a sub-collection of the queued candidate strings. -/
theorem popLoop_spec : ∀ (fuel : Nat) (pq : List (List Nat × Int))
    (nst : symbolTable),
    ∃ popped : List (List Nat × Int),
      popped.Subperm pq ∧
      (popLoop fuel pq nst).Symbols = nst.Symbols ++ popped.map (fun it => it.1) ∧
      (popLoop fuel pq nst).Nsymbols = nst.Nsymbols + popped.length ∧
      (popLoop fuel pq nst).Index = nst.Index := by
  intro fuel
  induction fuel with
  | zero =>
      intro pq nst
      refine ⟨[], List.nil_subperm, ?_, ?_, rfl⟩
      · show nst.Symbols = nst.Symbols ++ ([] : List (List Nat × Int)).map (fun it => it.1)
        simp
      · show nst.Nsymbols = nst.Nsymbols + ([] : List (List Nat × Int)).length
        simp
  | succ fuel ih =>
      intro pq nst
      rw [popLoop_succ]
      by_cases hn : nst.Nsymbols < 255
      · rw [if_pos hn]
        rcases hm : popMax pq with hnone | p
        · refine ⟨[], List.nil_subperm, ?_, ?_, rfl⟩
          · simp
          · simp
        · obtain ⟨it, rest⟩ := p
          obtain ⟨popped, hsub, hsym, hN, hI⟩ := ih rest (nst.insert it.1)
          refine ⟨it :: popped, ?_, ?_, ?_, ?_⟩
          · have h1 : (it :: popped).Subperm (it :: rest) :=
              (List.subperm_cons it).mpr hsub
            exact h1.trans (popMax_perm pq it rest hm).subperm
          · rw [hsym]
            show nst.Symbols ++ [it.1] ++ popped.map (fun it => it.1) = _
            rw [List.append_assoc]
            rfl
          · rw [hN]
            show nst.Nsymbols + 1 + popped.length = _
            simp only [List.length_cons]
            omega
          · rw [hI]
            rfl
      · rw [if_neg hn]
        refine ⟨[], List.nil_subperm, ?_, ?_, rfl⟩
        · simp
        · simp

/-- The pop loop never exceeds 255 learned symbols. -/
theorem popLoop_le : ∀ (fuel : Nat) (pq : List (List Nat × Int))
    (nst : symbolTable), nst.Nsymbols ≤ 255 →
    (popLoop fuel pq nst).Nsymbols ≤ 255 := by
  intro fuel
  induction fuel with
  | zero =>
      intro pq nst h
      exact h
  | succ fuel ih =>
      intro pq nst h
      rw [popLoop_succ]
      by_cases hn : nst.Nsymbols < 255
      · rw [if_pos hn]
        rcases hm : popMax pq with hnone | p
        · exact h
        · obtain ⟨it, rest⟩ := p
          exact ih rest (nst.insert it.1) (by
            show nst.Nsymbols + 1 ≤ 255
            omega)
      · rw [if_neg hn]
        exact h

end BuilderBasics

section BuildEmpty

theorem foldl_const {α β : Type} (f : α → β → α) (hf : ∀ a b, f a b = a) :
    ∀ (l : List β) (a : α), l.foldl f a = a := by
  intro l
  induction l with
  | nil => intro a; rfl
  | cons x xs ih =>
      intro a
      rw [List.foldl_cons, hf]
      exact ih a

/-- With all-zero counters the candidate generation pushes nothing. -/
theorem candidates_zero (st : symbolTable) :
    Builder.candidates ⟨st, fun _ => 0, fun _ _ => 0⟩ = [] := by
  rw [Builder.candidates]
  apply foldl_const
  intro pq code1
  dsimp only
  rw [if_neg (lt_irrefl (0 : Int))]
  apply foldl_const
  intro pq2 code2
  dsimp only
  rw [if_neg (lt_irrefl (0 : Int))]

/-- With all-zero counters `makeTable` returns the indexed fresh table. -/
theorem makeTable_zero (st : symbolTable) :
    Builder.makeTable ⟨st, fun _ => 0, fun _ _ => 0⟩ = newSymbolTable.makeIndex := by
  rw [Builder.makeTable, candidates_zero]
  rfl

/-- A trainer pass over an empty sample list always yields the indexed
fresh table. -/
theorem buildPass_nil (st : symbolTable) (sf : Nat) :
    buildPass [] st sf = some newSymbolTable.makeIndex := by
  show some (Builder.makeTable ⟨st, fun _ => 0, fun _ _ => 0⟩) = _
  rw [makeTable_zero]

/-- `Build` on the empty sample list returns the all-zero blob. -/
theorem Build_nil : Build [] = some dexEmpty := by
  have hfold : List.foldlM (buildPass []) newSymbolTable [8, 38, 68, 98, 128]
      = some newSymbolTable.makeIndex := by
    simp [List.foldlM_cons, List.foldlM_nil, buildPass_nil]
  rw [Build, hfold]
  show some (Builder.Finnalize newSymbolTable.makeIndex) = some dexEmpty
  have hfin : Builder.Finnalize newSymbolTable.makeIndex = dexEmpty := by decide
  rw [hfin]

theorem flatMap_esc_length (s : List Nat) :
    (s.flatMap (fun b => [escapeMarker, b])).length = 2 * s.length := by
  induction s with
  | nil => rfl
  | cons b rest ih =>
      rw [List.flatMap_cons, List.length_append, ih, List.length_cons]
      show 2 + 2 * rest.length = 2 * (rest.length + 1)
      omega

/-- The indexed fresh table (no learned symbols) has every `Index` entry
equal to the sentinel 256. -/
theorem emptyTable_Index (b : Nat) : newSymbolTable.makeIndex.Index b = 256 := by
  have h0 : newSymbolTable.Nsymbols = 0 := rfl
  have hd : newSymbolTable.Symbols.drop 256 = [] :=
    List.drop_eq_nil_of_le (le_of_eq newSymbolTable_length)
  have hlen : newSymbolTable.Nsymbols = (newSymbolTable.Symbols.drop 256).length := by
    rw [hd, h0]
    rfl
  rw [makeIndex_Index newSymbolTable hlen b, hd]
  rfl

/-- On the table with no learned symbols every lookup is an escape. -/
theorem find_emptyTable (b : Nat) (rest : List Nat) :
    newSymbolTable.makeIndex.findLongestSymbol (b :: rest) = (b, 1) := by
  rw [symbolTable.findLongestSymbol]
  have hh : ((b :: rest) : List Nat).headD 0 = b := rfl
  rw [hh, emptyTable_Index, emptyTable_Index]
  rfl

/-- On the table with no learned symbols the compression loop emits exactly
the escape pair of every input byte. -/
theorem compress_empty_table : ∀ (s : List Nat), ByteStr s → ∀ fuel, s.length ≤ fuel →
    compressLoop newSymbolTable.makeIndex fuel s
      = some (s.flatMap (fun b => [escapeMarker, b])) := by
  intro s
  induction s with
  | nil =>
      intro _ fuel _
      rw [compressLoop_nil]
      rfl
  | cons b rest ih =>
      intro hb fuel hfuel
      cases fuel with
      | zero =>
          exfalso
          simp only [List.length_cons] at hfuel
          omega
      | succ fuel =>
          rw [compressLoop_cons, find_emptyTable]
          have hblt : b < 256 := hb b (List.mem_cons_self b rest)
          rw [if_pos (show ((b, 1) : Nat × Nat).1 < 256 from hblt)]
          have hrest : ByteStr rest := by
            intro x hx
            exact hb x (List.mem_cons_of_mem b hx)
          rw [ih hrest fuel (by simp only [List.length_cons] at hfuel; omega)]
          rfl

/-- The all-zero blob parses to the indexed fresh table. -/
theorem parse_dexEmpty :
    newSymbolTableFromDict dexEmpty = Except.ok newSymbolTable.makeIndex := rfl

/-- Claim C8: `Build` on an empty sample set returns exactly the 8-byte
all-zero blob, and an encoder constructed from that blob compresses every
byte string `s` to the concatenation of the escape pairs `[0xFF, s[i]]` in
order, whose length is exactly twice the length of `s`. -/
theorem claim_C8 :
    Build [] = some dexEmpty ∧
    ∀ c : Compressor, NewCompressor dexEmpty = Except.ok c →
      ∀ s : List Nat, ByteStr s →
        c.Compress s = some (s.flatMap (fun b => [escapeMarker, b])) ∧
        (s.flatMap (fun b => [escapeMarker, b])).length = 2 * s.length := by
  refine ⟨Build_nil, ?_⟩
  intro c hc s hs
  have htab : c.table = newSymbolTable.makeIndex := by
    have h2 := NewCompressor_ok_table hc
    rw [parse_dexEmpty] at h2
    injection h2 with h2
    exact h2.symm
  constructor
  · rw [Compressor.Compress, htab]
    exact compress_empty_table s hs s.length (Nat.le_refl _)
  · exact flatMap_esc_length s

/-- Witness for claim C8: the all-zero blob is accepted and the input
`[104, 105]` compresses to the two escape pairs. -/
theorem claim_C8_witness :
    Build [] = some dexEmpty ∧
    ∃ c : Compressor, NewCompressor dexEmpty = Except.ok c ∧
      c.Compress [104, 105] = some [escapeMarker, 104, escapeMarker, 105] := by
  have hok : (NewCompressor dexEmpty).isOk = true := by decide
  rcases hp : NewCompressor dexEmpty with e | c
  · rw [hp] at hok
    simp [Except.isOk, Except.toBool] at hok
  · have h := claim_C8
    refine ⟨h.1, c, rfl, ?_⟩
    have h2 := (h.2 c hp [104, 105] (by decide)).1
    rw [h2]
    rfl

/-- Claim C9: `Build` is deterministic — invoked on equal sample lists (same
samples in the same order) it produces equal blobs. The embedding is a pure
function of the sample list: the hash gate, the fixed pass schedule, the heap
order and the sort are all determined by the input. -/
theorem claim_C9 (samples1 samples2 : List (List Nat)) (h : samples1 = samples2) :
    Build samples1 = Build samples2 := by
  rw [h]

/-- Witness for claim C9 at a concrete sample list. -/
theorem claim_C9_witness :
    ([[104, 105]] : List (List Nat)) = [[104, 105]] ∧
    Build [[104, 105]] = Build [[104, 105]] :=
  ⟨rfl, claim_C9 [[104, 105]] [[104, 105]] rfl⟩

end BuildEmpty

section BuildAccept

theorem getD_set_self (l : List Nat) (i v : Nat) (h : i < l.length) :
    (l.set i v).getD i 0 = v := by
  rw [List.getD_eq_getElem _ _ (by rw [List.length_set]; exact h)]
  exact List.getElem_set_self _

theorem getD_set_ne (l : List Nat) (i j v : Nat) (hij : i ≠ j) (h : j < l.length) :
    (l.set i v).getD j 0 = l.getD j 0 := by
  rw [List.getD_eq_getElem _ _ (by rw [List.length_set]; exact h),
    List.getD_eq_getElem _ _ h]
  exact List.getElem_set_ne hij _

/-- Length of the serialization fold of `Finnalize`: the initial bytes plus
the grouped symbol payloads. -/
theorem finnFold_length (L : List (List Nat)) :
    ∀ (gs : List Nat) (out : List Nat),
    (gs.foldl (fun output i =>
        ((output ++ (L.filter (fun s => s.length = i)).flatten).set (8 - i)
          ((L.filter (fun s => s.length = i)).length % 256))) out).length
      = out.length
        + (gs.map (fun i => ((L.filter (fun s => s.length = i)).flatten).length)).sum := by
  intro gs
  induction gs with
  | nil =>
      intro out
      simp
  | cons i gs ih =>
      intro out
      rw [List.foldl_cons, ih, List.length_set, List.length_append,
        List.map_cons, List.sum_cons]
      omega

/-- Header bytes written by the serialization fold: position `k < 8` ends up
holding the (truncated) count of the length-`8-k` group. -/
theorem finnFold_getD (L : List (List Nat)) :
    ∀ (gs : List Nat), gs.Nodup → (∀ i ∈ gs, 1 ≤ i ∧ i ≤ 8) →
    ∀ (out : List Nat), 8 ≤ out.length → ∀ k, k < 8 →
    (gs.foldl (fun output i =>
        ((output ++ (L.filter (fun s => s.length = i)).flatten).set (8 - i)
          ((L.filter (fun s => s.length = i)).length % 256))) out).getD k 0
      = if (8 - k) ∈ gs
          then (L.filter (fun s => s.length = (8 - k))).length % 256
          else out.getD k 0 := by
  intro gs
  induction gs with
  | nil =>
      intro _ _ out _ k _
      rw [List.foldl_nil, if_neg (by simp)]
  | cons i gs ih =>
      intro hnd hrange out hlen k hk
      rw [List.foldl_cons]
      have hi := hrange i (List.mem_cons_self i gs)
      have hout' : 8 ≤ ((out ++ (L.filter (fun s => s.length = i)).flatten).set (8 - i)
          ((L.filter (fun s => s.length = i)).length % 256)).length := by
        rw [List.length_set, List.length_append]
        omega
      rw [ih (List.nodup_cons.mp hnd).2
        (fun j hj => hrange j (List.mem_cons_of_mem i hj)) _ hout' k hk]
      by_cases hik : i = 8 - k
      · have hknotin : (8 - k) ∉ gs := by
          rw [← hik]
          exact (List.nodup_cons.mp hnd).1
        rw [if_neg hknotin, if_pos (by rw [← hik]; exact List.mem_cons_self i gs), ← hik]
        have hpos : 8 - i = k := by omega
        rw [hpos]
        exact getD_set_self _ _ _ (by rw [List.length_append]; omega)
      · by_cases hmem : (8 - k) ∈ gs
        · rw [if_pos hmem, if_pos (List.mem_cons_of_mem i hmem)]
        · rw [if_neg hmem, if_neg (by
            intro hcon
            rcases List.mem_cons.mp hcon with hcon | hcon
            · exact hik hcon.symm
            · exact hmem hcon)]
          have hne : 8 - i ≠ k := by omega
          rw [getD_set_ne _ _ _ _ hne (by rw [List.length_append]; omega)]
          exact List.getD_append out _ 0 k (by omega)

/-- The flattened length-`i` group has exactly `i` bytes per member. -/
theorem flatten_filter_length (i : Nat) (L : List (List Nat)) :
    ((L.filter (fun s => s.length = i)).flatten).length
      = i * (L.filter (fun s => s.length = i)).length := by
  induction L with
  | nil => rfl
  | cons s L ih =>
      by_cases h : s.length = i
      · rw [List.filter_cons_of_pos (by simp [h]), List.flatten_cons,
          List.length_append, ih, List.length_cons, Nat.mul_succ, h]
        omega
      · rw [List.filter_cons_of_neg (by simp [h])]
        exact ih

/-- The eight per-length groups are disjoint, so their sizes sum to at most
the number of symbols. -/
theorem sum8_filters_le (L : List (List Nat)) :
    (L.filter (fun s => s.length = 8)).length + (L.filter (fun s => s.length = 7)).length
      + (L.filter (fun s => s.length = 6)).length + (L.filter (fun s => s.length = 5)).length
      + (L.filter (fun s => s.length = 4)).length + (L.filter (fun s => s.length = 3)).length
      + (L.filter (fun s => s.length = 2)).length + (L.filter (fun s => s.length = 1)).length
      ≤ L.length := by
  induction L with
  | nil => simp
  | cons s L ih =>
      simp only [List.filter_cons, decide_eq_true_eq, List.length_cons]
      split_ifs <;> (try simp only [List.length_cons]) <;> omega

theorem countFrom_closed (dict : List Nat) :
    countFrom dict 0 = dict.getD 0 0 + dict.getD 1 0 + dict.getD 2 0 + dict.getD 3 0
      + dict.getD 4 0 + dict.getD 5 0 + dict.getD 6 0 + dict.getD 7 0 := by
  rw [countFrom_lt (by omega : (0:Nat) < 8), countFrom_lt (by omega : (1:Nat) < 8),
    countFrom_lt (by omega : (2:Nat) < 8), countFrom_lt (by omega : (3:Nat) < 8),
    countFrom_lt (by omega : (4:Nat) < 8), countFrom_lt (by omega : (5:Nat) < 8),
    countFrom_lt (by omega : (6:Nat) < 8), countFrom_lt (by omega : (7:Nat) < 8),
    countFrom_ge (by omega : ¬ (8:Nat) < 8)]
  omega

theorem payloadFrom_closed (dict : List Nat) :
    payloadFrom dict 0 = dict.getD 0 0 * 8 + dict.getD 1 0 * 7 + dict.getD 2 0 * 6
      + dict.getD 3 0 * 5 + dict.getD 4 0 * 4 + dict.getD 5 0 * 3 + dict.getD 6 0 * 2
      + dict.getD 7 0 * 1 := by
  rw [payloadFrom_lt (by omega : (0:Nat) < 8), payloadFrom_lt (by omega : (1:Nat) < 8),
    payloadFrom_lt (by omega : (2:Nat) < 8), payloadFrom_lt (by omega : (3:Nat) < 8),
    payloadFrom_lt (by omega : (4:Nat) < 8), payloadFrom_lt (by omega : (5:Nat) < 8),
    payloadFrom_lt (by omega : (6:Nat) < 8), payloadFrom_lt (by omega : (7:Nat) < 8),
    payloadFrom_ge (by omega : ¬ (8:Nat) < 8)]
  omega

/-- `Finnalize` as the bare serialization fold (lets unfolded). -/
theorem Finnalize_fold (st : symbolTable) :
    Builder.Finnalize st
      = [8, 7, 6, 5, 4, 3, 2, 1].foldl (fun output i =>
          ((output ++ (((List.range st.Nsymbols).map
              (fun j => st.Symbols.getD (256 + j) [])).filter
                (fun s => s.length = i)).flatten).set (8 - i)
            ((((List.range st.Nsymbols).map
              (fun j => st.Symbols.getD (256 + j) [])).filter
                (fun s => s.length = i)).length % 256)))
        [0, 0, 0, 0, 0, 0, 0, 0] := rfl

/-- The serialization of any table with at most 255 learned symbols is
accepted by the dictionary parser: the header counts are exact, the payload
exactly fills the blob, and the total count is at most 255. -/
theorem Finnalize_accepted (st : symbolTable) (h255 : st.Nsymbols ≤ 255) :
    ∃ st2, newSymbolTableFromDict (Builder.Finnalize st) = Except.ok st2 := by
  rw [newSymbolTableFromDict_ok_iff, Finnalize_fold st]
  set L := (List.range st.Nsymbols).map (fun j => st.Symbols.getD (256 + j) []) with hL
  have hLlen : L.length = st.Nsymbols := by
    rw [hL, List.length_map, List.length_range]
  have hlenb := finnFold_length L [8, 7, 6, 5, 4, 3, 2, 1] [0, 0, 0, 0, 0, 0, 0, 0]
  simp only [List.map_cons, List.map_nil, List.sum_cons, List.sum_nil,
    List.length_cons, List.length_nil] at hlenb
  have hgd : ∀ k, k < 8 →
      ([8, 7, 6, 5, 4, 3, 2, 1].foldl (fun output i =>
        ((output ++ (L.filter (fun s => s.length = i)).flatten).set (8 - i)
          ((L.filter (fun s => s.length = i)).length % 256))) [0, 0, 0, 0, 0, 0, 0, 0]).getD k 0
      = (L.filter (fun s => s.length = (8 - k))).length % 256 := by
    intro k hk
    rw [finnFold_getD L [8, 7, 6, 5, 4, 3, 2, 1] (by decide) (by decide)
      [0, 0, 0, 0, 0, 0, 0, 0] (by decide) k hk]
    rw [if_pos (by interval_cases k <;> decide)]
  have hmod : ∀ j : Nat, (L.filter (fun s => s.length = j)).length % 256
      = (L.filter (fun s => s.length = j)).length := by
    intro j
    apply Nat.mod_eq_of_lt
    have := List.length_filter_le (fun s => s.length = j) L
    omega
  have hg0 := hgd 0 (by omega)
  have hg1 := hgd 1 (by omega)
  have hg2 := hgd 2 (by omega)
  have hg3 := hgd 3 (by omega)
  have hg4 := hgd 4 (by omega)
  have hg5 := hgd 5 (by omega)
  have hg6 := hgd 6 (by omega)
  have hg7 := hgd 7 (by omega)
  rw [show (8:Nat) - 0 = 8 from rfl, hmod 8] at hg0
  rw [show (8:Nat) - 1 = 7 from rfl, hmod 7] at hg1
  rw [show (8:Nat) - 2 = 6 from rfl, hmod 6] at hg2
  rw [show (8:Nat) - 3 = 5 from rfl, hmod 5] at hg3
  rw [show (8:Nat) - 4 = 4 from rfl, hmod 4] at hg4
  rw [show (8:Nat) - 5 = 3 from rfl, hmod 3] at hg5
  rw [show (8:Nat) - 6 = 2 from rfl, hmod 2] at hg6
  rw [show (8:Nat) - 7 = 1 from rfl, hmod 1] at hg7
  have hf8 := flatten_filter_length 8 L
  have hf7 := flatten_filter_length 7 L
  have hf6 := flatten_filter_length 6 L
  have hf5 := flatten_filter_length 5 L
  have hf4 := flatten_filter_length 4 L
  have hf3 := flatten_filter_length 3 L
  have hf2 := flatten_filter_length 2 L
  have hf1 := flatten_filter_length 1 L
  have hcf := countFrom_closed ([8, 7, 6, 5, 4, 3, 2, 1].foldl (fun output i =>
    ((output ++ (L.filter (fun s => s.length = i)).flatten).set (8 - i)
      ((L.filter (fun s => s.length = i)).length % 256))) [0, 0, 0, 0, 0, 0, 0, 0])
  rw [hg0, hg1, hg2, hg3, hg4, hg5, hg6, hg7] at hcf
  have hpf := payloadFrom_closed ([8, 7, 6, 5, 4, 3, 2, 1].foldl (fun output i =>
    ((output ++ (L.filter (fun s => s.length = i)).flatten).set (8 - i)
      ((L.filter (fun s => s.length = i)).length % 256))) [0, 0, 0, 0, 0, 0, 0, 0])
  rw [hg0, hg1, hg2, hg3, hg4, hg5, hg6, hg7] at hpf
  have hsum := sum8_filters_le L
  refine ⟨by omega, by omega, by omega⟩

/-- A successful trainer pass yields a table with at most 255 learned
symbols. -/
theorem buildPass_le (text : List (List Nat)) (st : symbolTable) (sf : Nat)
    (st2 : symbolTable) (h : buildPass text st sf = some st2) : st2.Nsymbols ≤ 255 := by
  rw [buildPass] at h
  rcases hm : Builder.compressCount ⟨st, fun _ => 0, fun _ _ => 0⟩ sf text with _ | p
  · rw [hm] at h
    exact Option.noConfusion h
  · rw [hm] at h
    obtain ⟨b, sz⟩ := p
    have h2 : some b.makeTable = some st2 := h
    injection h2 with h2
    rw [← h2]
    show ((popLoop (Builder.candidates b).length (Builder.candidates b)
      newSymbolTable).makeIndex).Nsymbols ≤ 255
    rw [makeIndex_Nsymbols]
    exact popLoop_le _ _ _ (Nat.zero_le 255)

/-- The table after a non-empty chain of trainer passes has at most 255
learned symbols. -/
theorem foldlM_buildPass_le (text : List (List Nat)) :
    ∀ (l : List Nat) (st0 st : symbolTable), l ≠ [] →
    List.foldlM (buildPass text) st0 l = some st → st.Nsymbols ≤ 255 := by
  intro l
  induction l with
  | nil =>
      intro st0 st hne _
      exact absurd rfl hne
  | cons sf rest ih =>
      intro st0 st _ h
      rw [List.foldlM_cons] at h
      rcases hb : buildPass text st0 sf with _ | s1
      · rw [hb] at h
        simp at h
      · rw [hb] at h
        cases rest with
        | nil =>
            have h2 : some s1 = some st := h
            injection h2 with h2
            rw [← h2]
            exact buildPass_le text st0 sf s1 hb
        | cons sf2 rest2 =>
            exact ih s1 st (List.cons_ne_nil sf2 rest2) h

/-- Every blob produced by `Build` is accepted by both constructors. -/
theorem Build_accepted (samples : List (List Nat)) (dict : List Nat)
    (h : Build samples = some dict) :
    (∃ c, NewCompressor dict = Except.ok c) ∧
    ∃ d, NewDecompressor dict = Except.ok d := by
  rw [Build] at h
  rcases hf : List.foldlM (buildPass samples) newSymbolTable [8, 38, 68, 98, 128]
    with _ | st
  · rw [hf] at h
    exact Option.noConfusion h
  · rw [hf] at h
    have h2 : some (Builder.Finnalize st) = some dict := h
    injection h2 with h2
    have hle : st.Nsymbols ≤ 255 :=
      foldlM_buildPass_le samples [8, 38, 68, 98, 128] newSymbolTable st (by simp) hf
    obtain ⟨st2, hok⟩ := Finnalize_accepted st hle
    rw [← h2]
    constructor
    · exact ⟨⟨st2⟩, by rw [NewCompressor, hok]; rfl⟩
    · exact ⟨decompOf st2, by rw [NewDecompressor, hok]; rfl⟩

/-- Claim C1: an encoder and a decoder built from any blob accepted by both
constructors are mutually inverse on every byte string — `Decompress` of
`Compress(s)` succeeds and returns exactly `s` — and every blob produced by
`Build` is accepted by both constructors. -/
theorem claim_C1 :
    (∀ (dict : List Nat) (c : Compressor) (d : Decompressor),
        NewCompressor dict = Except.ok c → NewDecompressor dict = Except.ok d →
        ∀ s : List Nat, ByteStr s →
          ∃ out, c.Compress s = some out ∧ d.Decompress out = Except.ok s) ∧
    (∀ (samples : List (List Nat)) (dict : List Nat), Build samples = some dict →
        (∃ c, NewCompressor dict = Except.ok c) ∧
        ∃ d, NewDecompressor dict = Except.ok d) := by
  constructor
  · intro dict c d hc hd s hb
    exact roundtrip_ok hc hd s hb
  · intro samples dict h
    exact Build_accepted samples dict h

/-- Witness for claim C1: the round trip at a concrete accepted blob and
input, and acceptance of the blob `Build` produces on the empty sample
list. -/
theorem claim_C1_witness :
    (∃ c d, NewCompressor dex1 = Except.ok c ∧ NewDecompressor dex1 = Except.ok d ∧
       ∃ out, c.Compress [97, 98, 97] = some out ∧
         d.Decompress out = Except.ok [97, 98, 97]) ∧
    ((∃ c, NewCompressor dexEmpty = Except.ok c) ∧
      ∃ d, NewDecompressor dexEmpty = Except.ok d) := by
  constructor
  · have hok1 : (NewCompressor dex1).isOk = true := by decide
    have hok2 : (NewDecompressor dex1).isOk = true := by decide
    rcases hp1 : NewCompressor dex1 with e | c
    · rw [hp1] at hok1
      simp [Except.isOk, Except.toBool] at hok1
    · rcases hp2 : NewDecompressor dex1 with e | d
      · rw [hp2] at hok2
        simp [Except.isOk, Except.toBool] at hok2
      · exact ⟨c, d, rfl, rfl, claim_C1.1 dex1 c d hp1 hp2 [97, 98, 97] (by decide)⟩
  · exact claim_C1.2 [] dexEmpty Build_nil

end BuildAccept

section CandDistinct

theorem pref_length_le {s t : List Nat} (h : Pref s t) : s.length ≤ t.length := by
  have h2 := congrArg List.length h
  rw [List.length_take] at h2
  omega

theorem pref_trans {u w t : List Nat} (h1 : Pref u w) (h2 : Pref w t) : Pref u t := by
  have hle : u.length ≤ w.length := pref_length_le h1
  unfold Pref at h1 h2 ⊢
  have h3 : (t.take w.length).take u.length = u := by rw [h2, h1]
  rw [List.take_take, min_eq_left hle] at h3
  exact h3

theorem pref_append {u v t : List Nat} (h1 : Pref u t) (h2 : Pref v (t.drop u.length)) :
    Pref (u ++ v) t := by
  unfold Pref at h1 h2 ⊢
  rw [List.length_append, List.take_add, h1, h2]

theorem drop_ne_nil {l : List Nat} {p : Nat} (h : p < l.length) : l.drop p ≠ [] := by
  intro hc
  have h2 := List.length_drop p l
  rw [hc] at h2
  simp only [List.length_nil] at h2
  omega

/-- Uniform functional facts about a `findLongestSymbol` result (both for a
learned match and for an escape): range, returned length, prefix property,
maximality, and — for an escape — the absence of any learned prefix. -/
theorem found_spec (st : symbolTable) (hv : ValidTable st) (T : List Nat)
    (hne : T ≠ []) (hb : T.headD 0 < 256) {c l : Nat}
    (hc : st.findLongestSymbol T = (c, l)) :
    c < 256 + st.Nsymbols ∧
    (st.Symbols.getD c []).length = l ∧
    1 ≤ l ∧
    Pref (st.Symbols.getD c []) T ∧
    (∀ q < st.Nsymbols, Pref (st.Symbols.getD (256 + q) []) T →
      (st.Symbols.getD (256 + q) []).length ≤ l) ∧
    (c < 256 → ∀ q < st.Nsymbols, ¬ Pref (st.Symbols.getD (256 + q) []) T) := by
  have hs := findLongestSymbol_spec st hv T hb
  rw [hc] at hs
  dsimp only at hs
  by_cases h256 : 256 ≤ c
  · obtain ⟨hrange, hlen, hpos, hpref, hmax⟩ := hs.1 h256
    exact ⟨hrange, hlen.symm, hpos, hpref, hmax, fun hlt => absurd h256 (by omega)⟩
  · push_neg at h256
    obtain ⟨hhead, hl1, hnopref⟩ := hs.2 h256
    have hsing : st.Symbols.getD c [] = [c] := hv.singleton c h256
    have hprefc : Pref [c] T := by
      cases T with
      | nil => exact absurd rfl hne
      | cons a t =>
          have h4 : c = a := hhead
          rw [h4]
          rfl
    refine ⟨by omega, by rw [hsing, hl1]; rfl, by omega, by rw [hsing]; exact hprefc,
      ?_, fun _ => hnopref⟩
    intro q hq hqp
    exact absurd hqp (hnopref q hq)

theorem getD_drop256 (st : symbolTable) (hv : ValidTable st) {k : Nat}
    (hk : k < st.Nsymbols) :
    (st.Symbols.drop 256).getD k [] = st.Symbols.getD (256 + k) [] := by
  rw [List.getD_eq_getElem _ _ (by rw [List.length_drop, hv.len_eq]; omega),
    List.getD_eq_getElem _ _ (by rw [hv.len_eq]; omega)]
  exact List.getElem_drop _

/-- On a table without duplicate learned symbols, two `findLongestSymbol`
results with the same symbol string are the same code: two learned codes by
the no-duplicates hypothesis, and an escape code excludes any learned symbol
with that single byte being present at all. -/
theorem found_code_eq (st : symbolTable) (hv : ValidTable st)
    (hnd : (st.Symbols.drop 256).Nodup)
    {T1 T2 : List Nat} (h1ne : T1 ≠ []) (h2ne : T2 ≠ [])
    (hb1 : T1.headD 0 < 256) (hb2 : T2.headD 0 < 256)
    {c d l m : Nat}
    (hc : st.findLongestSymbol T1 = (c, l)) (hd : st.findLongestSymbol T2 = (d, m))
    (heq : st.Symbols.getD c [] = st.Symbols.getD d []) : c = d := by
  obtain ⟨hcr, _, _, hcp, _, hce⟩ := found_spec st hv T1 h1ne hb1 hc
  obtain ⟨hdr, _, _, hdp, _, hde⟩ := found_spec st hv T2 h2ne hb2 hd
  by_cases hc256 : c < 256
  · by_cases hd256 : d < 256
    · rw [hv.singleton c hc256, hv.singleton d hd256] at heq
      simp only [List.cons.injEq, and_true] at heq
      exact heq
    · exfalso
      push_neg at hd256
      have hq : d - 256 < st.Nsymbols := by omega
      have h1 : Pref (st.Symbols.getD (256 + (d - 256)) []) T1 := by
        rw [show 256 + (d - 256) = d from by omega, ← heq]
        exact hcp
      exact hce hc256 (d - 256) hq h1
  · by_cases hd256 : d < 256
    · exfalso
      push_neg at hc256
      have hq : c - 256 < st.Nsymbols := by omega
      have h1 : Pref (st.Symbols.getD (256 + (c - 256)) []) T2 := by
        rw [show 256 + (c - 256) = c from by omega, heq]
        exact hdp
      exact hde hd256 (c - 256) hq h1
    · push_neg at hc256 hd256
      have hk1 : c - 256 < st.Nsymbols := by omega
      have hk2 : d - 256 < st.Nsymbols := by omega
      have e1 : st.Symbols.getD c [] = (st.Symbols.drop 256).getD (c - 256) [] := by
        rw [getD_drop256 st hv hk1, show 256 + (c - 256) = c from by omega]
      have e2 : st.Symbols.getD d [] = (st.Symbols.drop 256).getD (d - 256) [] := by
        rw [getD_drop256 st hv hk2, show 256 + (d - 256) = d from by omega]
      rw [e1, e2] at heq
      have hdl : (st.Symbols.drop 256).length = st.Nsymbols := by
        rw [List.length_drop, hv.len_eq]
        omega
      rw [List.getD_eq_getElem (st.Symbols.drop 256) ([] : List Nat)
          (show c - 256 < (st.Symbols.drop 256).length by omega),
        List.getD_eq_getElem (st.Symbols.drop 256) ([] : List Nat)
          (show d - 256 < (st.Symbols.drop 256).length by omega)] at heq
      have := (hnd.getElem_inj_iff).mp heq
      omega

/-- The length of a `findLongestSymbol` token never exceeds the suffix it was
found on. -/
theorem find_le_length (st : symbolTable) (hv : ValidTable st) (text : List Nat)
    (hne : text ≠ []) (hb : text.headD 0 < 256) :
    (st.findLongestSymbol text).2 ≤ text.length := by
  have hc : st.findLongestSymbol text
      = ((st.findLongestSymbol text).1, (st.findLongestSymbol text).2) := rfl
  obtain ⟨_, _, _, hpref, _, _⟩ := found_spec st hv text hne hb hc
  have h2 := pref_length_le hpref
  obtain ⟨_, hlen, _, _, _, _⟩ := found_spec st hv text hne hb hc
  omega

end CandDistinct

section CountSound

theorem countLoop_succ (st : symbolTable) (str : List Nat) (fuel cur code1 len1 : Nat)
    (c1 : Nat → Int) (c2 : Nat → Nat → Int) :
    countLoop st str (fuel + 1) cur code1 len1 c1 c2
      = if cur + len1 = str.length
          then some (fun c => if c = code1 then i16inc (c1 c) else c1 c, c2,
            1 + isEscapeCode code1)
          else
            (countLoop st str fuel (cur + len1)
              (st.findLongestSymbol (str.drop (cur + len1))).1
              (st.findLongestSymbol (str.drop (cur + len1))).2
              (fun c => if c = code1 then i16inc (c1 c) else c1 c)
              (fun a b =>
                if a = code1 ∧ b = (st.findLongestSymbol (str.drop (cur + len1))).1
                then i16inc (c2 a b) else c2 a b)).map
              (fun p => (p.1, p.2.1, 1 + isEscapeCode code1 + p.2.2)) := rfl

/-- Counter soundness for the per-record loop: every counter cell that
changed belongs to a token (or adjacent token pair) of the greedy
tokenization of the record. -/
theorem countLoop_sound (st : symbolTable) (hv : ValidTable st) (str : List Nat)
    (hby : ByteStr str) :
    ∀ (fuel cur : Nat) (c1 : Nat → Int) (c2 : Nat → Nat → Int)
      (c1a : Nat → Int) (c2a : Nat → Nat → Int) (sz : Nat),
    cur < str.length →
    countLoop st str fuel cur (st.findLongestSymbol (str.drop cur)).1
      (st.findLongestSymbol (str.drop cur)).2 c1 c2 = some (c1a, c2a, sz) →
    (∀ code, c1a code ≠ c1 code →
      ∃ p, p < str.length ∧ (st.findLongestSymbol (str.drop p)).1 = code) ∧
    (∀ a bc, c2a a bc ≠ c2 a bc →
      ∃ p, p < str.length ∧ (st.findLongestSymbol (str.drop p)).1 = a ∧
        p + (st.findLongestSymbol (str.drop p)).2 < str.length ∧
        (st.findLongestSymbol
          (str.drop (p + (st.findLongestSymbol (str.drop p)).2))).1 = bc) := by
  intro fuel
  induction fuel with
  | zero =>
      intro cur c1 c2 c1a c2a sz _ h
      exact Option.noConfusion h
  | succ fuel ih =>
      intro cur c1 c2 c1a c2a sz hcur h
      rw [countLoop_succ] at h
      have hTne : str.drop cur ≠ [] := drop_ne_nil hcur
      have hhead : (str.drop cur).headD 0 < 256 :=
        hby _ (List.mem_of_mem_drop (headD_mem hTne))
      by_cases hend : cur + (st.findLongestSymbol (str.drop cur)).2 = str.length
      · rw [if_pos hend] at h
        injection h with h
        injection h with h1 h23
        injection h23 with h2 h3
        constructor
        · intro code hne
          by_cases hcc : code = (st.findLongestSymbol (str.drop cur)).1
          · exact ⟨cur, hcur, hcc.symm⟩
          · exfalso
            apply hne
            rw [← h1]
            simp only [if_neg hcc]
        · intro a bc hne
          rw [← h2] at hne
          exact absurd rfl hne
      · rw [if_neg hend] at h
        have hle2 : (st.findLongestSymbol (str.drop cur)).2 ≤ str.length - cur := by
          have h5 := find_le_length st hv (str.drop cur) hTne hhead
          rw [List.length_drop] at h5
          exact h5
        have hcur2 : cur + (st.findLongestSymbol (str.drop cur)).2 < str.length := by
          omega
        rcases hrec : countLoop st str fuel
            (cur + (st.findLongestSymbol (str.drop cur)).2)
            (st.findLongestSymbol
              (str.drop (cur + (st.findLongestSymbol (str.drop cur)).2))).1
            (st.findLongestSymbol
              (str.drop (cur + (st.findLongestSymbol (str.drop cur)).2))).2
            (fun c => if c = (st.findLongestSymbol (str.drop cur)).1
              then i16inc (c1 c) else c1 c)
            (fun a b =>
              if a = (st.findLongestSymbol (str.drop cur)).1
                  ∧ b = (st.findLongestSymbol
                    (str.drop (cur + (st.findLongestSymbol (str.drop cur)).2))).1
              then i16inc (c2 a b) else c2 a b)
            with _ | p
        · rw [hrec] at h
          exact Option.noConfusion h
        · rw [hrec] at h
          injection h with h
          injection h with h1 h23
          injection h23 with h2 h3
          obtain ⟨ih1, ih2⟩ := ih (cur + (st.findLongestSymbol (str.drop cur)).2)
            _ _ p.1 p.2.1 p.2.2 hcur2 hrec
          constructor
          · intro code hne
            rw [← h1] at hne
            by_cases hx : p.1 code
                = (if code = (st.findLongestSymbol (str.drop cur)).1
                    then i16inc (c1 code) else c1 code)
            · by_cases hcc : code = (st.findLongestSymbol (str.drop cur)).1
              · exact ⟨cur, hcur, hcc.symm⟩
              · exfalso
                apply hne
                rw [hx, if_neg hcc]
            · exact ih1 code hx
          · intro a bc hne
            rw [← h2] at hne
            by_cases hx : p.2.1 a bc
                = (if a = (st.findLongestSymbol (str.drop cur)).1
                    ∧ bc = (st.findLongestSymbol
                      (str.drop (cur + (st.findLongestSymbol (str.drop cur)).2))).1
                   then i16inc (c2 a bc) else c2 a bc)
            · by_cases hcc : a = (st.findLongestSymbol (str.drop cur)).1
                  ∧ bc = (st.findLongestSymbol
                    (str.drop (cur + (st.findLongestSymbol (str.drop cur)).2))).1
              · exact ⟨cur, hcur, hcc.1.symm, hcur2, hcc.2.symm⟩
              · exfalso
                apply hne
                rw [hx, if_neg hcc]
            · exact ih2 a bc hx

/-- Counter soundness for the record loop of `compressCount`. -/
theorem countRecords_sound (st : symbolTable) (hv : ValidTable st) (sf : Nat) :
    ∀ (recs : List (Nat × List Nat)), (∀ r ∈ recs, ByteStr r.2) →
    ∀ (c1 : Nat → Int) (c2 : Nat → Nat → Int) (size : Nat)
      (c1a : Nat → Int) (c2a : Nat → Nat → Int) (sz : Nat),
    countRecords st sf recs c1 c2 size = some (c1a, c2a, sz) →
    (∀ code, c1a code ≠ c1 code → Used1 st (recs.map Prod.snd) code) ∧
    (∀ a bc, c2a a bc ≠ c2 a bc → Used2 st (recs.map Prod.snd) a bc) := by
  intro recs
  induction recs with
  | nil =>
      intro _ c1 c2 size c1a c2a sz h
      have h2 : some (c1, c2, size) = some (c1a, c2a, sz) := h
      injection h2 with h2
      injection h2 with h1 h23
      injection h23 with h2b h3
      subst h1
      subst h2b
      exact ⟨fun code hne => absurd rfl hne, fun a bc hne => absurd rfl hne⟩
  | cons r recs ih =>
      intro hball c1 c2 size c1a c2a sz h
      obtain ⟨i, str⟩ := r
      have hstep : countRecords st sf ((i, str) :: recs) c1 c2 size
          = if sf < 128 ∧ sf < fsst_hash i % 128 then countRecords st sf recs c1 c2 size
            else if str.length = 0 then countRecords st sf recs c1 c2 size
            else match countLoop st str str.length 0
                (st.findLongestSymbol str).1 (st.findLongestSymbol str).2 c1 c2 with
              | none => none
              | some (c1b, c2b, szb) => countRecords st sf recs c1b c2b (size + szb) := rfl
      rw [hstep] at h
      have hwk1 : ∀ code, Used1 st (recs.map Prod.snd) code
          → Used1 st (((i, str) :: recs).map Prod.snd) code := by
        intro code hu
        obtain ⟨s, hs, rest⟩ := hu
        exact ⟨s, List.mem_cons_of_mem _ hs, rest⟩
      have hwk2 : ∀ a bc, Used2 st (recs.map Prod.snd) a bc
          → Used2 st (((i, str) :: recs).map Prod.snd) a bc := by
        intro a bc hu
        obtain ⟨s, hs, rest⟩ := hu
        exact ⟨s, List.mem_cons_of_mem _ hs, rest⟩
      have htail : ∀ r2 ∈ recs, ByteStr r2.2 :=
        fun r2 hr => hball r2 (List.mem_cons_of_mem _ hr)
      by_cases hskip : sf < 128 ∧ sf < fsst_hash i % 128
      · rw [if_pos hskip] at h
        obtain ⟨s1, s2⟩ := ih htail c1 c2 size c1a c2a sz h
        exact ⟨fun code hne => hwk1 code (s1 code hne),
          fun a bc hne => hwk2 a bc (s2 a bc hne)⟩
      · rw [if_neg hskip] at h
        by_cases hlen0 : str.length = 0
        · rw [if_pos hlen0] at h
          obtain ⟨s1, s2⟩ := ih htail c1 c2 size c1a c2a sz h
          exact ⟨fun code hne => hwk1 code (s1 code hne),
            fun a bc hne => hwk2 a bc (s2 a bc hne)⟩
        · rw [if_neg hlen0] at h
          rcases hcl : countLoop st str str.length 0 (st.findLongestSymbol str).1
              (st.findLongestSymbol str).2 c1 c2 with _ | q
          · rw [hcl] at h
            exact Option.noConfusion h
          · obtain ⟨q1, q2, q3⟩ := q
            rw [hcl] at h
            have h4 : countRecords st sf recs q1 q2 (size + q3) = some (c1a, c2a, sz) := h
            obtain ⟨s1, s2⟩ := ih htail q1 q2 (size + q3) c1a c2a sz h4
            have hstr : ByteStr str := hball (i, str) (List.mem_cons_self _ _)
            obtain ⟨cl1, cl2⟩ := countLoop_sound st hv str hstr str.length 0 c1 c2
              q1 q2 q3 (by omega) hcl
            constructor
            · intro code hne
              by_cases hx : c1a code = q1 code
              · have hd : q1 code ≠ c1 code := by
                  rw [← hx]
                  exact hne
                obtain ⟨p, hp, hf⟩ := cl1 code hd
                exact ⟨str, List.mem_cons_self str _, p, hp, hf⟩
              · exact hwk1 code (s1 code hx)
            · intro a bc hne
              by_cases hx : c2a a bc = q2 a bc
              · have hd : q2 a bc ≠ c2 a bc := by
                  rw [← hx]
                  exact hne
                obtain ⟨p, hp, hf1, hp2, hf2⟩ := cl2 a bc hd
                exact ⟨str, List.mem_cons_self str _, p, hp, hf1, hp2, hf2⟩
              · exact hwk2 a bc (s2 a bc hx)

/-- Counter soundness for `Builder.compressCount` started from zeroed
counters: the table is unchanged and every positive counter cell was used by
the tokenization of some sample. -/
theorem compressCount_sound (st : symbolTable) (hv : ValidTable st) (sf : Nat)
    (text : List (List Nat)) (hbytes : ∀ s ∈ text, ByteStr s)
    (b2 : Builder) (sz : Nat)
    (h : Builder.compressCount ⟨st, fun _ => 0, fun _ _ => 0⟩ sf text = some (b2, sz)) :
    b2.table = st ∧
    (∀ code, 0 < b2.count1 code → Used1 st text code) ∧
    (∀ a bc, 0 < b2.count2 a bc → Used2 st text a bc) := by
  rw [Builder.compressCount] at h
  rcases hcr : countRecords st sf text.enum (fun _ => 0) (fun _ _ => 0) 0 with _ | q
  · rw [hcr] at h
    exact Option.noConfusion h
  · obtain ⟨q1, q2, q3⟩ := q
    rw [hcr] at h
    have h2 : some ((⟨st, q1, q2⟩ : Builder), q3) = some (b2, sz) := h
    injection h2 with h2
    injection h2 with hb hsz
    have hball : ∀ r ∈ text.enum, ByteStr r.2 := by
      intro r hr
      apply hbytes
      have h5 : r.2 ∈ text.enum.map Prod.snd := List.mem_map_of_mem Prod.snd hr
      rw [List.enum_map_snd] at h5
      exact h5
    obtain ⟨s1, s2⟩ := countRecords_sound st hv sf text.enum hball
      (fun _ => 0) (fun _ _ => 0) 0 q1 q2 q3 hcr
    subst hb
    refine ⟨rfl, ?_, ?_⟩
    · intro code hpos
      have hpos2 : (0 : Int) < q1 code := hpos
      have hne : q1 code ≠ (fun _ => (0 : Int)) code := by
        intro hcon
        rw [hcon] at hpos2
        exact lt_irrefl 0 hpos2
      have hu := s1 code hne
      rw [List.enum_map_snd] at hu
      exact hu
    · intro a bc hpos
      have hpos2 : (0 : Int) < q2 a bc := hpos
      have hne : q2 a bc ≠ (fun _ _ => (0 : Int)) a bc := by
        intro hcon
        rw [hcon] at hpos2
        exact lt_irrefl 0 hpos2
      have hu := s2 a bc hne
      rw [List.enum_map_snd] at hu
      exact hu

end CountSound

section CandStruct

theorem addCandidate_append (pq : List (List Nat × Int)) (s : List Nat) (cnt : Int) :
    addCandidate pq s cnt = pq ++ addCandidate [] s cnt := rfl

/-- `Builder.candidates` as a flat map over the code space: for every code
with a positive single count one candidate, and for every pair with a
positive pair count and concatenation at most 8 bytes one candidate. -/
theorem candidates_eq (b : Builder) :
    b.candidates = (List.range 512).flatMap (fun code1 =>
      (if 0 < b.count1 code1
        then addCandidate [] (b.table.Symbols.getD code1 []) (b.count1 code1)
        else [])
      ++ (List.range 512).flatMap (fun code2 =>
          if 0 < b.count2 code1 code2 then
            (if 8 < (b.table.Symbols.getD code1 []).length
                + (b.table.Symbols.getD code2 []).length then []
             else addCandidate []
               (b.table.Symbols.getD code1 [] ++ b.table.Symbols.getD code2 [])
               (b.count2 code1 code2))
          else [])) := by
  have hin : ∀ (code1 : Nat) (l2 : List Nat) (init : List (List Nat × Int)),
      l2.foldl (fun pq code2 =>
        if 0 < b.count2 code1 code2 then
          (if 8 < (b.table.Symbols.getD code1 []).length
              + (b.table.Symbols.getD code2 []).length then pq
           else addCandidate pq
             (b.table.Symbols.getD code1 [] ++ b.table.Symbols.getD code2 [])
             (b.count2 code1 code2))
        else pq) init
      = init ++ l2.flatMap (fun code2 =>
          if 0 < b.count2 code1 code2 then
            (if 8 < (b.table.Symbols.getD code1 []).length
                + (b.table.Symbols.getD code2 []).length then []
             else addCandidate []
               (b.table.Symbols.getD code1 [] ++ b.table.Symbols.getD code2 [])
               (b.count2 code1 code2))
          else []) := by
    intro code1 l2
    induction l2 with
    | nil =>
        intro init
        rw [List.foldl_nil, List.flatMap_nil, List.append_nil]
    | cons c l2 ih =>
        intro init
        have hstep : (if 0 < b.count2 code1 c then
              (if 8 < (b.table.Symbols.getD code1 []).length
                  + (b.table.Symbols.getD c []).length then init
               else addCandidate init
                 (b.table.Symbols.getD code1 [] ++ b.table.Symbols.getD c [])
                 (b.count2 code1 c))
            else init)
            = init ++ (if 0 < b.count2 code1 c then
                (if 8 < (b.table.Symbols.getD code1 []).length
                    + (b.table.Symbols.getD c []).length then []
                 else addCandidate []
                   (b.table.Symbols.getD code1 [] ++ b.table.Symbols.getD c [])
                   (b.count2 code1 c))
              else []) := by
          by_cases hc2 : 0 < b.count2 code1 c
          · rw [if_pos hc2, if_pos hc2]
            by_cases h8 : 8 < (b.table.Symbols.getD code1 []).length
                + (b.table.Symbols.getD c []).length
            · rw [if_pos h8, if_pos h8, List.append_nil]
            · rw [if_neg h8, if_neg h8]
              rfl
          · rw [if_neg hc2, if_neg hc2, List.append_nil]
        rw [List.foldl_cons, hstep, ih, List.flatMap_cons, List.append_assoc]
  have houter : ∀ (l : List Nat) (init : List (List Nat × Int)),
      l.foldl (fun pq code1 =>
        (List.range 512).foldl (fun pq2 code2 =>
          if 0 < b.count2 code1 code2 then
            (if 8 < (b.table.Symbols.getD code1 []).length
                + (b.table.Symbols.getD code2 []).length then pq2
             else addCandidate pq2
               (b.table.Symbols.getD code1 [] ++ b.table.Symbols.getD code2 [])
               (b.count2 code1 code2))
          else pq2)
          (if 0 < b.count1 code1
            then addCandidate pq (b.table.Symbols.getD code1 []) (b.count1 code1)
            else pq)) init
      = init ++ l.flatMap (fun code1 =>
          (if 0 < b.count1 code1
            then addCandidate [] (b.table.Symbols.getD code1 []) (b.count1 code1)
            else [])
          ++ (List.range 512).flatMap (fun code2 =>
              if 0 < b.count2 code1 code2 then
                (if 8 < (b.table.Symbols.getD code1 []).length
                    + (b.table.Symbols.getD code2 []).length then []
                 else addCandidate []
                   (b.table.Symbols.getD code1 [] ++ b.table.Symbols.getD code2 [])
                   (b.count2 code1 code2))
              else [])) := by
    intro l
    induction l with
    | nil =>
        intro init
        rw [List.foldl_nil, List.flatMap_nil, List.append_nil]
    | cons c l ih =>
        intro init
        have hinit : (if 0 < b.count1 c
            then addCandidate init (b.table.Symbols.getD c []) (b.count1 c)
            else init)
          = init ++ (if 0 < b.count1 c
              then addCandidate [] (b.table.Symbols.getD c []) (b.count1 c)
              else []) := by
          by_cases hc : 0 < b.count1 c
          · rw [if_pos hc, if_pos hc]
            rfl
          · rw [if_neg hc, if_neg hc, List.append_nil]
        have hstep : ((List.range 512).foldl (fun pq2 code2 =>
              if 0 < b.count2 c code2 then
                (if 8 < (b.table.Symbols.getD c []).length
                    + (b.table.Symbols.getD code2 []).length then pq2
                 else addCandidate pq2
                   (b.table.Symbols.getD c [] ++ b.table.Symbols.getD code2 [])
                   (b.count2 c code2))
              else pq2)
              (if 0 < b.count1 c
                then addCandidate init (b.table.Symbols.getD c []) (b.count1 c)
                else init))
            = init ++ ((if 0 < b.count1 c
                then addCandidate [] (b.table.Symbols.getD c []) (b.count1 c)
                else [])
              ++ (List.range 512).flatMap (fun code2 =>
                  if 0 < b.count2 c code2 then
                    (if 8 < (b.table.Symbols.getD c []).length
                        + (b.table.Symbols.getD code2 []).length then []
                     else addCandidate []
                       (b.table.Symbols.getD c [] ++ b.table.Symbols.getD code2 [])
                       (b.count2 c code2))
                  else [])) := by
          rw [hinit, hin c (List.range 512), List.append_assoc]
        rw [List.foldl_cons, hstep, ih, List.flatMap_cons, List.append_assoc]
  have h0 := houter (List.range 512) []
  rw [List.nil_append] at h0
  exact h0

theorem mem_addCandidate_nil {it : List Nat × Int} {s : List Nat} {cnt : Int}
    (h : it ∈ addCandidate [] s cnt) : it.1 = s := by
  have h2 : it ∈ [(s, if s.length = 1 then (s.length : Int) * cnt * 8
      else (s.length : Int) * cnt)] := h
  rw [List.mem_singleton] at h2
  rw [h2]

/-- Every candidate string is either the symbol of a positively counted
single code or the short-enough concatenation of a positively counted code
pair. -/
theorem cand_mem (b : Builder) {it : List Nat × Int} (h : it ∈ b.candidates) :
    (∃ code1, 0 < b.count1 code1 ∧ it.1 = b.table.Symbols.getD code1 []) ∨
    (∃ code1 code2, 0 < b.count2 code1 code2 ∧
      (b.table.Symbols.getD code1 []).length
        + (b.table.Symbols.getD code2 []).length ≤ 8 ∧
      it.1 = b.table.Symbols.getD code1 [] ++ b.table.Symbols.getD code2 []) := by
  rw [candidates_eq] at h
  obtain ⟨code1, _, hmem⟩ := List.mem_flatMap.mp h
  rcases List.mem_append.mp hmem with hm | hm
  · left
    by_cases hc : 0 < b.count1 code1
    · rw [if_pos hc] at hm
      exact ⟨code1, hc, mem_addCandidate_nil hm⟩
    · rw [if_neg hc] at hm
      simp at hm
  · right
    obtain ⟨code2, _, hm2⟩ := List.mem_flatMap.mp hm
    by_cases hc : 0 < b.count2 code1 code2
    · rw [if_pos hc] at hm2
      by_cases h8 : 8 < (b.table.Symbols.getD code1 []).length
          + (b.table.Symbols.getD code2 []).length
      · rw [if_pos h8] at hm2
        simp at hm2
      · rw [if_neg h8] at hm2
        exact ⟨code1, code2, hc, by omega, mem_addCandidate_nil hm2⟩
    · rw [if_neg hc] at hm2
      simp at hm2

end CandStruct

section CandNodup

theorem nodup_flatMap_of (f : Nat → List (List Nat)) :
    ∀ (l : List Nat), l.Nodup → (∀ c ∈ l, (f c).Nodup) →
    (∀ c ∈ l, ∀ d ∈ l, c ≠ d → ∀ x ∈ f c, x ∉ f d) →
    (l.flatMap f).Nodup := by
  intro l
  induction l with
  | nil =>
      intro _ _ _
      simp
  | cons c l ih =>
      intro hl hfn hdis
      rw [List.flatMap_cons, List.nodup_append]
      obtain ⟨hc, hl2⟩ := List.nodup_cons.mp hl
      refine ⟨hfn c (List.mem_cons_self _ _),
        ih hl2 (fun d hd => hfn d (List.mem_cons_of_mem _ hd))
          (fun d hd e he hde =>
            hdis d (List.mem_cons_of_mem _ hd) e (List.mem_cons_of_mem _ he) hde),
        ?_⟩
      intro x hx hx2
      obtain ⟨d, hd, hxd⟩ := List.mem_flatMap.mp hx2
      exact hdis c (List.mem_cons_self _ _) d (List.mem_cons_of_mem _ hd)
        (fun hcd => hc (by rw [hcd]; exact hd)) x hx hxd

/-- Unpack a `Used1` fact into a suffix on which `findLongestSymbol` returned
the code. -/
theorem used1_elim (st : symbolTable) (strs : List (List Nat))
    (hbytes : ∀ s ∈ strs, ByteStr s) {code : Nat} (h : Used1 st strs code) :
    ∃ T : List Nat, T ≠ [] ∧ T.headD 0 < 256 ∧
      st.findLongestSymbol T = (code, (st.findLongestSymbol T).2) := by
  obtain ⟨str, hstr, p, hp, hf⟩ := h
  refine ⟨str.drop p, drop_ne_nil hp,
    hbytes str hstr _ (List.mem_of_mem_drop (headD_mem (drop_ne_nil hp))), ?_⟩
  have h0 : st.findLongestSymbol (str.drop p)
      = ((st.findLongestSymbol (str.drop p)).1, (st.findLongestSymbol (str.drop p)).2) := rfl
  rw [hf] at h0
  exact h0

/-- Unpack a `Used2` fact into a suffix with its two adjacent tokens. -/
theorem used2_elim (st : symbolTable) (strs : List (List Nat))
    (hbytes : ∀ s ∈ strs, ByteStr s) {a bc : Nat} (h : Used2 st strs a bc) :
    ∃ T : List Nat, T ≠ [] ∧ T.headD 0 < 256 ∧
      st.findLongestSymbol T = (a, (st.findLongestSymbol T).2) ∧
      T.drop (st.findLongestSymbol T).2 ≠ [] ∧
      (T.drop (st.findLongestSymbol T).2).headD 0 < 256 ∧
      st.findLongestSymbol (T.drop (st.findLongestSymbol T).2)
        = (bc, (st.findLongestSymbol (T.drop (st.findLongestSymbol T).2)).2) := by
  obtain ⟨str, hstr, p, hp, hf1, hlt, hf2⟩ := h
  have hbystr := hbytes str hstr
  have h0 : st.findLongestSymbol (str.drop p)
      = ((st.findLongestSymbol (str.drop p)).1, (st.findLongestSymbol (str.drop p)).2) := rfl
  rw [hf1] at h0
  refine ⟨str.drop p, drop_ne_nil hp,
    hbystr _ (List.mem_of_mem_drop (headD_mem (drop_ne_nil hp))), h0, ?_, ?_, ?_⟩
  · rw [List.drop_drop]
    exact drop_ne_nil hlt
  · rw [List.drop_drop]
    exact hbystr _ (List.mem_of_mem_drop (headD_mem (drop_ne_nil hlt)))
  · rw [List.drop_drop]
    have h1 : st.findLongestSymbol (str.drop (p + (st.findLongestSymbol (str.drop p)).2))
        = ((st.findLongestSymbol (str.drop (p + (st.findLongestSymbol (str.drop p)).2))).1,
          (st.findLongestSymbol (str.drop (p + (st.findLongestSymbol (str.drop p)).2))).2) := rfl
    rw [hf2] at h1
    exact h1

/-- Any symbol at a position found as a prefix of a suffix where
`findLongestSymbol` ran is no longer than the returned token. -/
theorem found_prefix_le (st : symbolTable) (hv : ValidTable st)
    {T : List Nat} (hTne : T ≠ []) (hbT : T.headD 0 < 256) {c l : Nat}
    (hf : st.findLongestSymbol T = (c, l)) {y : Nat} (hyr : y < 256 + st.Nsymbols)
    (hypref : Pref (st.Symbols.getD y []) T) :
    (st.Symbols.getD y []).length ≤ l := by
  obtain ⟨-, -, h1l, -, hmax, -⟩ := found_spec st hv T hTne hbT hf
  by_cases hy256 : y < 256
  · have h2 : st.Symbols.getD y [] = [y] := hv.singleton y hy256
    rw [h2]
    simp only [List.length_cons, List.length_nil]
    omega
  · push_neg at hy256
    have hq : y - 256 < st.Nsymbols := by omega
    have h3 := hmax (y - 256) hq
      (by rw [show 256 + (y - 256) = y from by omega]; exact hypref)
    rw [show 256 + (y - 256) = y from by omega] at h3
    exact h3

/-- Two used single codes with the same symbol string coincide. -/
theorem used_single_eq (st : symbolTable) (hv : ValidTable st)
    (hnd : (st.Symbols.drop 256).Nodup) (strs : List (List Nat))
    (hbytes : ∀ s ∈ strs, ByteStr s) {x y : Nat}
    (hx : Used1 st strs x) (hy : Used1 st strs y)
    (heq : st.Symbols.getD x [] = st.Symbols.getD y []) : x = y := by
  obtain ⟨T1, h1ne, hb1, hf1⟩ := used1_elim st strs hbytes hx
  obtain ⟨T2, h2ne, hb2, hf2⟩ := used1_elim st strs hbytes hy
  exact found_code_eq st hv hnd h1ne h2ne hb1 hb2 hf1 hf2 heq

/-- The second codes of two used pairs with the same symbol string
coincide. -/
theorem used_pair_snd_eq (st : symbolTable) (hv : ValidTable st)
    (hnd : (st.Symbols.drop 256).Nodup) (strs : List (List Nat))
    (hbytes : ∀ s ∈ strs, ByteStr s) {a x a2 y : Nat}
    (h1 : Used2 st strs a x) (h2 : Used2 st strs a2 y)
    (heq : st.Symbols.getD x [] = st.Symbols.getD y []) : x = y := by
  obtain ⟨T1, -, -, -, h1dne, hb1d, hf1b⟩ := used2_elim st strs hbytes h1
  obtain ⟨T2, -, -, -, h2dne, hb2d, hf2b⟩ := used2_elim st strs hbytes h2
  exact found_code_eq st hv hnd h1dne h2dne hb1d hb2d hf1b hf2b heq

/-- A used single code never has the same symbol string as the concatenation
of a used pair: the concatenation is a strictly longer learned prefix at the
pair site, contradicting the greedy maximality of the first token. -/
theorem used_single_pair_ne (st : symbolTable) (hv : ValidTable st)
    (hnd : (st.Symbols.drop 256).Nodup) (strs : List (List Nat))
    (hbytes : ∀ s ∈ strs, ByteStr s) {x a bc : Nat}
    (hx : Used1 st strs x) (hab : Used2 st strs a bc) :
    st.Symbols.getD x [] ≠ st.Symbols.getD a [] ++ st.Symbols.getD bc [] := by
  intro heq
  obtain ⟨T2, h2ne, hb2, hf2a, h2dne, hb2d, hf2b⟩ := used2_elim st strs hbytes hab
  obtain ⟨-, hal, ha1, hap, -, -⟩ := found_spec st hv T2 h2ne hb2 hf2a
  obtain ⟨-, hbl, hb1w, hbp, -, -⟩ :=
    found_spec st hv (T2.drop (st.findLongestSymbol T2).2) h2dne hb2d hf2b
  have hW : Pref (st.Symbols.getD a [] ++ st.Symbols.getD bc []) T2 := by
    apply pref_append hap
    rw [hal]
    exact hbp
  obtain ⟨T1, h1ne, hb1x, hf1⟩ := used1_elim st strs hbytes hx
  obtain ⟨hxr, hxl, -, -, -, -⟩ := found_spec st hv T1 h1ne hb1x hf1
  have hxpref : Pref (st.Symbols.getD x []) T2 := by
    rw [heq]
    exact hW
  have hle := found_prefix_le st hv h2ne hb2 hf2a hxr hxpref
  have hlen2 : (st.Symbols.getD x []).length
      = (st.Symbols.getD a []).length + (st.Symbols.getD bc []).length := by
    rw [heq, List.length_append]
  omega

/-- Two used pairs with the same concatenated string coincide componentwise:
unequal first-token lengths would contradict greedy maximality at one of the
two sites. -/
theorem used_pair_pair_eq (st : symbolTable) (hv : ValidTable st)
    (hnd : (st.Symbols.drop 256).Nodup) (strs : List (List Nat))
    (hbytes : ∀ s ∈ strs, ByteStr s) {a1 a2 b1 b2 : Nat}
    (ha : Used2 st strs a1 a2) (hb : Used2 st strs b1 b2)
    (heq : st.Symbols.getD a1 [] ++ st.Symbols.getD a2 []
      = st.Symbols.getD b1 [] ++ st.Symbols.getD b2 []) : a1 = b1 ∧ a2 = b2 := by
  obtain ⟨T1, h1ne, hbT1, hf1a, h1dne, hb1d, hf1b⟩ := used2_elim st strs hbytes ha
  obtain ⟨T2, h2ne, hbT2, hf2a, h2dne, hb2d, hf2b⟩ := used2_elim st strs hbytes hb
  obtain ⟨-, h1al, -, h1ap, -, -⟩ := found_spec st hv T1 h1ne hbT1 hf1a
  obtain ⟨-, h1bl, h1b1, h1bp, -, -⟩ :=
    found_spec st hv (T1.drop (st.findLongestSymbol T1).2) h1dne hb1d hf1b
  obtain ⟨h2ar, h2al, -, h2ap, -, -⟩ := found_spec st hv T2 h2ne hbT2 hf2a
  obtain ⟨-, h2bl, h2b1, h2bp, -, -⟩ :=
    found_spec st hv (T2.drop (st.findLongestSymbol T2).2) h2dne hb2d hf2b
  obtain ⟨h1ar, -, -, -, -, -⟩ := found_spec st hv T1 h1ne hbT1 hf1a
  have hWa : Pref (st.Symbols.getD a1 [] ++ st.Symbols.getD a2 []) T1 := by
    apply pref_append h1ap
    rw [h1al]
    exact h1bp
  have hWb : Pref (st.Symbols.getD b1 [] ++ st.Symbols.getD b2 []) T2 := by
    apply pref_append h2ap
    rw [h2al]
    exact h2bp
  rcases Nat.lt_trichotomy (st.Symbols.getD a1 []).length
      (st.Symbols.getD b1 []).length with hlt | heqlen | hgt
  · exfalso
    have hpref1 : Pref (st.Symbols.getD b1 [])
        (st.Symbols.getD a1 [] ++ st.Symbols.getD a2 []) := by
      unfold Pref
      rw [heq]
      exact List.take_left _ _
    have hpref : Pref (st.Symbols.getD b1 []) T1 := pref_trans hpref1 hWa
    have hle := found_prefix_le st hv h1ne hbT1 hf1a h2ar hpref
    omega
  · have h1 : st.Symbols.getD a1 [] = st.Symbols.getD b1 [] := by
      have e1 : (st.Symbols.getD a1 [] ++ st.Symbols.getD a2 []).take
          (st.Symbols.getD a1 []).length = st.Symbols.getD a1 [] := List.take_left _ _
      have e2 : (st.Symbols.getD b1 [] ++ st.Symbols.getD b2 []).take
          (st.Symbols.getD b1 []).length = st.Symbols.getD b1 [] := List.take_left _ _
      rw [← e1, ← e2, heq, heqlen]
    have h2 : st.Symbols.getD a2 [] = st.Symbols.getD b2 [] := by
      have e1 : (st.Symbols.getD a1 [] ++ st.Symbols.getD a2 []).drop
          (st.Symbols.getD a1 []).length = st.Symbols.getD a2 [] := List.drop_left _ _
      have e2 : (st.Symbols.getD b1 [] ++ st.Symbols.getD b2 []).drop
          (st.Symbols.getD b1 []).length = st.Symbols.getD b2 [] := List.drop_left _ _
      rw [← e1, ← e2, heq, heqlen]
    exact ⟨found_code_eq st hv hnd h1ne h2ne hbT1 hbT2 hf1a hf2a h1,
      found_code_eq st hv hnd h1dne h2dne hb1d hb2d hf1b hf2b h2⟩
  · exfalso
    have hpref1 : Pref (st.Symbols.getD a1 [])
        (st.Symbols.getD b1 [] ++ st.Symbols.getD b2 []) := by
      unfold Pref
      rw [← heq]
      exact List.take_left _ _
    have hpref : Pref (st.Symbols.getD a1 []) T2 := pref_trans hpref1 hWb
    have hle := found_prefix_le st hv h2ne hbT2 hf2a h1ar hpref
    omega

end CandNodup

section TableNodup

theorem mem_singlestr (b : Builder) (code1 : Nat) {x : List Nat}
    (h : x ∈ (if 0 < b.count1 code1
        then addCandidate [] (b.table.Symbols.getD code1 []) (b.count1 code1)
        else []).map (fun it => it.1)) :
    0 < b.count1 code1 ∧ x = b.table.Symbols.getD code1 [] := by
  by_cases hc : 0 < b.count1 code1
  · rw [if_pos hc] at h
    have he : (addCandidate [] (b.table.Symbols.getD code1 []) (b.count1 code1)).map
        (fun it => it.1) = [b.table.Symbols.getD code1 []] := rfl
    rw [he, List.mem_singleton] at h
    exact ⟨hc, h⟩
  · rw [if_neg hc] at h
    simp at h

theorem mem_innerstr (b : Builder) (code1 : Nat) {code2 : Nat} {x : List Nat}
    (h : x ∈ (if 0 < b.count2 code1 code2 then
        (if 8 < (b.table.Symbols.getD code1 []).length
            + (b.table.Symbols.getD code2 []).length then []
         else addCandidate []
           (b.table.Symbols.getD code1 [] ++ b.table.Symbols.getD code2 [])
           (b.count2 code1 code2))
      else []).map (fun it => it.1)) :
    0 < b.count2 code1 code2 ∧
    (b.table.Symbols.getD code1 []).length
      + (b.table.Symbols.getD code2 []).length ≤ 8 ∧
    x = b.table.Symbols.getD code1 [] ++ b.table.Symbols.getD code2 [] := by
  by_cases hc : 0 < b.count2 code1 code2
  · rw [if_pos hc] at h
    by_cases h8 : 8 < (b.table.Symbols.getD code1 []).length
        + (b.table.Symbols.getD code2 []).length
    · rw [if_pos h8] at h
      simp at h
    · rw [if_neg h8] at h
      have he : (addCandidate []
          (b.table.Symbols.getD code1 [] ++ b.table.Symbols.getD code2 [])
          (b.count2 code1 code2)).map (fun it => it.1)
          = [b.table.Symbols.getD code1 [] ++ b.table.Symbols.getD code2 []] := rfl
      rw [he, List.mem_singleton] at h
      exact ⟨hc, by omega, h⟩
  · rw [if_neg hc] at h
    simp at h

theorem mem_blockstr (b : Builder) (code1 : Nat) {x : List Nat}
    (h : x ∈ ((if 0 < b.count1 code1
        then addCandidate [] (b.table.Symbols.getD code1 []) (b.count1 code1)
        else [])
      ++ (List.range 512).flatMap (fun code2 =>
          if 0 < b.count2 code1 code2 then
            (if 8 < (b.table.Symbols.getD code1 []).length
                + (b.table.Symbols.getD code2 []).length then []
             else addCandidate []
               (b.table.Symbols.getD code1 [] ++ b.table.Symbols.getD code2 [])
               (b.count2 code1 code2))
          else [])).map (fun it => it.1)) :
    (0 < b.count1 code1 ∧ x = b.table.Symbols.getD code1 []) ∨
    (∃ code2, 0 < b.count2 code1 code2 ∧
      (b.table.Symbols.getD code1 []).length
        + (b.table.Symbols.getD code2 []).length ≤ 8 ∧
      x = b.table.Symbols.getD code1 [] ++ b.table.Symbols.getD code2 []) := by
  rw [List.map_append] at h
  rcases List.mem_append.mp h with hm | hm
  · exact Or.inl (mem_singlestr b code1 hm)
  · rw [List.map_flatMap] at hm
    obtain ⟨code2, _, hin⟩ := List.mem_flatMap.mp hm
    obtain ⟨hc, h8, hx⟩ := mem_innerstr b code1 hin
    exact Or.inr ⟨code2, hc, h8, hx⟩

/-- The byte strings of the candidates pushed by `makeTable` are pairwise
distinct whenever the counters are sound for the sample set: distinct
single/single, single/pair and pair/pair sources always yield distinct
strings under greedy tokenization. -/
theorem candidates_fst_nodup (b : Builder) (strs : List (List Nat))
    (hv : ValidTable b.table) (hnd : (b.table.Symbols.drop 256).Nodup)
    (hbytes : ∀ s ∈ strs, ByteStr s)
    (hU1 : ∀ code, 0 < b.count1 code → Used1 b.table strs code)
    (hU2 : ∀ a bc, 0 < b.count2 a bc → Used2 b.table strs a bc) :
    (b.candidates.map (fun it => it.1)).Nodup := by
  rw [candidates_eq, List.map_flatMap]
  refine nodup_flatMap_of _ (List.range 512) (List.nodup_range 512) ?_ ?_
  · intro code1 _
    rw [List.map_append, List.nodup_append]
    refine ⟨?_, ?_, ?_⟩
    · by_cases hc : 0 < b.count1 code1
      · rw [if_pos hc]
        have he : (addCandidate [] (b.table.Symbols.getD code1 []) (b.count1 code1)).map
            (fun it => it.1) = [b.table.Symbols.getD code1 []] := rfl
        rw [he]
        exact List.nodup_singleton _
      · rw [if_neg hc]
        exact List.nodup_nil
    · rw [List.map_flatMap]
      refine nodup_flatMap_of _ (List.range 512) (List.nodup_range 512) ?_ ?_
      · intro code2 _
        by_cases hc2 : 0 < b.count2 code1 code2
        · rw [if_pos hc2]
          by_cases h8 : 8 < (b.table.Symbols.getD code1 []).length
              + (b.table.Symbols.getD code2 []).length
          · rw [if_pos h8]
            exact List.nodup_nil
          · rw [if_neg h8]
            have he : (addCandidate []
                (b.table.Symbols.getD code1 [] ++ b.table.Symbols.getD code2 [])
                (b.count2 code1 code2)).map (fun it => it.1)
                = [b.table.Symbols.getD code1 [] ++ b.table.Symbols.getD code2 []] := rfl
            rw [he]
            exact List.nodup_singleton _
        · rw [if_neg hc2]
          exact List.nodup_nil
      · intro c2 _ d2 _ hne x hx hx2
        obtain ⟨hcnt2, h8a, hxa⟩ := mem_innerstr b code1 hx
        obtain ⟨hcnt2b, h8b, hxb⟩ := mem_innerstr b code1 hx2
        apply hne
        have heqq : b.table.Symbols.getD code1 [] ++ b.table.Symbols.getD c2 []
            = b.table.Symbols.getD code1 [] ++ b.table.Symbols.getD d2 [] :=
          hxa.symm.trans hxb
        have h3 : b.table.Symbols.getD c2 [] = b.table.Symbols.getD d2 [] :=
          List.append_cancel_left heqq
        exact used_pair_snd_eq b.table hv hnd strs hbytes
          (hU2 code1 c2 hcnt2) (hU2 code1 d2 hcnt2b) h3
    · intro x hx hx2
      obtain ⟨hc1, hxs⟩ := mem_singlestr b code1 hx
      rw [List.map_flatMap] at hx2
      obtain ⟨c2, _, hxin⟩ := List.mem_flatMap.mp hx2
      obtain ⟨hcnt2, h8, hxc⟩ := mem_innerstr b code1 hxin
      exact used_single_pair_ne b.table hv hnd strs hbytes
        (hU1 code1 hc1) (hU2 code1 c2 hcnt2) (hxs.symm.trans hxc)
  · intro c1 _ d1 _ hne x hx hx2
    rcases mem_blockstr b c1 hx with ⟨hc, hxe⟩ | ⟨c2, hc, h8, hxe⟩ <;>
      rcases mem_blockstr b d1 hx2 with ⟨hd, hye⟩ | ⟨d2, hd, h8b, hye⟩
    · exact hne (used_single_eq b.table hv hnd strs hbytes
        (hU1 c1 hc) (hU1 d1 hd) (hxe.symm.trans hye))
    · exact used_single_pair_ne b.table hv hnd strs hbytes
        (hU1 c1 hc) (hU2 d1 d2 hd) (hxe.symm.trans hye)
    · exact used_single_pair_ne b.table hv hnd strs hbytes
        (hU1 d1 hd) (hU2 c1 c2 hc) (hye.symm.trans hxe)
    · exact hne (used_pair_pair_eq b.table hv hnd strs hbytes
        (hU2 c1 c2 hc) (hU2 d1 d2 hd) (hxe.symm.trans hye)).1

/-- `makeTable` of a builder with sound counters yields a valid table whose
learned symbols are pairwise distinct. -/
theorem makeTable_inv (b : Builder) (strs : List (List Nat))
    (hv : ValidTable b.table) (hnd : (b.table.Symbols.drop 256).Nodup)
    (hbytes : ∀ s ∈ strs, ByteStr s)
    (hU1 : ∀ code, 0 < b.count1 code → Used1 b.table strs code)
    (hU2 : ∀ a bc, 0 < b.count2 a bc → Used2 b.table strs a bc) :
    ValidTable b.makeTable ∧ (b.makeTable.Symbols.drop 256).Nodup := by
  have hcnod := candidates_fst_nodup b strs hv hnd hbytes hU1 hU2
  obtain ⟨popped, hsub, hsym, hN, hI⟩ :=
    popLoop_spec b.candidates.length b.candidates newSymbolTable
  have hmk : b.makeTable
      = (popLoop b.candidates.length b.candidates newSymbolTable).makeIndex := rfl
  have h0 : newSymbolTable.Nsymbols = 0 := rfl
  have hTdrop : (popLoop b.candidates.length b.candidates newSymbolTable).Symbols.drop 256
      = popped.map (fun it => it.1) := by
    rw [hsym]
    exact List.drop_left' newSymbolTable_length
  have hplen : (popLoop b.candidates.length b.candidates newSymbolTable).Symbols.length
      = 256 + (popLoop b.candidates.length b.candidates newSymbolTable).Nsymbols := by
    rw [hsym, hN, List.length_append, newSymbolTable_length, List.length_map, h0]
    omega
  have hTnodup : ((popLoop b.candidates.length b.candidates newSymbolTable).Symbols.drop 256).Nodup := by
    rw [hTdrop]
    have hsubm : (popped.map (fun it => it.1)).Subperm
        (b.candidates.map (fun it => it.1)) := by
      obtain ⟨l, hp, hs⟩ := hsub
      exact ⟨l.map (fun it => it.1), hp.map (fun it => it.1), hs.map (fun it => it.1)⟩
    obtain ⟨l2, hp2, hs2⟩ := hsubm
    exact hp2.nodup (hs2.nodup hcnod)
  have hmem : ∀ s ∈ (popLoop b.candidates.length b.candidates newSymbolTable).Symbols,
      s ≠ [] ∧ s.length ≤ 8 := by
    intro s hs
    rw [hsym] at hs
    rcases List.mem_append.mp hs with hm | hm
    · obtain ⟨i, _, rfl⟩ := newSymbolTable_mem hm
      exact ⟨by simp, by simp⟩
    · obtain ⟨it, hit, rfl⟩ := List.mem_map.mp hm
      have hitc : it ∈ b.candidates := hsub.subset hit
      rcases cand_mem b hitc with ⟨code1, hcnt, hstr⟩ | ⟨code1, code2, hcnt, h8, hstr⟩
      · obtain ⟨T0, h0ne, hb0, hf0⟩ := used1_elim b.table strs hbytes (hU1 code1 hcnt)
        obtain ⟨hr, -, -, -, -, -⟩ := found_spec b.table hv T0 h0ne hb0 hf0
        have hmem2 : b.table.Symbols.getD code1 [] ∈ b.table.Symbols :=
          getD_mem (by rw [hv.len_eq]; omega)
        rw [hstr]
        exact ⟨hv.nonempty _ hmem2, hv.short _ hmem2⟩
      · obtain ⟨T0, h0ne, hb0, hf0, -, -, -⟩ :=
          used2_elim b.table strs hbytes (hU2 code1 code2 hcnt)
        obtain ⟨hr, -, -, -, -, -⟩ := found_spec b.table hv T0 h0ne hb0 hf0
        have hmem2 : b.table.Symbols.getD code1 [] ∈ b.table.Symbols :=
          getD_mem (by rw [hv.len_eq]; omega)
        rw [hstr]
        constructor
        · intro hcon
          exact hv.nonempty _ hmem2 (List.append_eq_nil.mp hcon).1
        · rw [List.length_append]
          omega
  have hsing : ∀ i < 256,
      (popLoop b.candidates.length b.candidates newSymbolTable).Symbols.getD i [] = [i] := by
    intro i hi
    rw [hsym]
    rw [List.getD_append newSymbolTable.Symbols _ [] i
      (by rw [newSymbolTable_length]; exact hi)]
    exact newSymbolTable_getD hi
  have hmax : (popLoop b.candidates.length b.candidates newSymbolTable).Nsymbols ≤ 255 :=
    popLoop_le _ _ _ (Nat.zero_le 255)
  rw [hmk]
  constructor
  · exact makeIndex_valid _ hplen hsing (fun s hs => (hmem s hs).1)
      (fun s hs => (hmem s hs).2) hmax
  · rw [makeIndex_Symbols]
    have hdrop2 : ((popLoop b.candidates.length b.candidates newSymbolTable).Symbols.take 256
        ++ List.insertionSort symLe
          ((popLoop b.candidates.length b.candidates newSymbolTable).Symbols.drop 256)).drop 256
        = List.insertionSort symLe
          ((popLoop b.candidates.length b.candidates newSymbolTable).Symbols.drop 256) := by
      apply List.drop_left'
      rw [List.length_take, hplen]
      omega
    rw [hdrop2]
    exact (List.perm_insertionSort symLe _).symm.nodup hTnodup

end TableNodup

section PassInv

/-- A successful trainer pass preserves table validity and learned-symbol
distinctness. -/
theorem buildPass_inv (samples : List (List Nat)) (hbytes : ∀ s ∈ samples, ByteStr s)
    (st : symbolTable) (sf : Nat) (st2 : symbolTable)
    (hv : ValidTable st) (hnd : (st.Symbols.drop 256).Nodup)
    (h : buildPass samples st sf = some st2) :
    ValidTable st2 ∧ (st2.Symbols.drop 256).Nodup := by
  rw [buildPass] at h
  rcases hm : Builder.compressCount ⟨st, fun _ => 0, fun _ _ => 0⟩ sf samples with _ | p
  · rw [hm] at h
    exact Option.noConfusion h
  · obtain ⟨b, sz⟩ := p
    rw [hm] at h
    have h2 : some b.makeTable = some st2 := h
    injection h2 with h2
    obtain ⟨htab, hU1, hU2⟩ := compressCount_sound st hv sf samples hbytes b sz hm
    rw [← htab] at hv hnd hU1 hU2
    rw [← h2]
    exact makeTable_inv b samples hv hnd hbytes hU1 hU2

/-- A chain of successful trainer passes started from the fresh table yields
a valid table with pairwise distinct learned symbols. -/
theorem foldlM_inv (samples : List (List Nat)) (hbytes : ∀ s ∈ samples, ByteStr s) :
    ∀ (l : List Nat) (st0 st : symbolTable),
    ValidTable st0 → (st0.Symbols.drop 256).Nodup →
    List.foldlM (buildPass samples) st0 l = some st →
    ValidTable st ∧ (st.Symbols.drop 256).Nodup := by
  intro l
  induction l with
  | nil =>
      intro st0 st hv hnd h
      have h2 : some st0 = some st := h
      injection h2 with h2
      rw [← h2]
      exact ⟨hv, hnd⟩
  | cons sf rest ih =>
      intro st0 st hv hnd h
      rw [List.foldlM_cons] at h
      rcases hb : buildPass samples st0 sf with _ | s1
      · rw [hb] at h
        simp at h
      · rw [hb] at h
        obtain ⟨hv1, hnd1⟩ := buildPass_inv samples hbytes st0 sf s1 hv hnd hb
        exact ih s1 st hv1 hnd1 h

theorem map_getD_eq_drop (l : List (List Nat)) (N : Nat) (h : l.length = 256 + N) :
    (List.range N).map (fun j => l.getD (256 + j) []) = l.drop 256 := by
  apply List.ext_getElem
  · rw [List.length_map, List.length_range, List.length_drop, h]
    omega
  · intro i h1 h2
    simp only [List.length_map, List.length_range] at h1
    rw [List.getElem_map, List.getElem_range]
    rw [List.getD_eq_getElem l [] (show 256 + i < l.length by rw [h]; omega)]
    exact (List.getElem_drop l).symm

/-- On a table with distinct learned symbols the serialized symbol sequence
is duplicate-free: each per-length group is a sublist of the learned symbols
and distinct groups hold symbols of different lengths. -/
theorem serializedSymbols_nodup (st : symbolTable) (hv : ValidTable st)
    (hnd : (st.Symbols.drop 256).Nodup) : (serializedSymbols st).Nodup := by
  rw [serializedSymbols]
  rw [map_getD_eq_drop st.Symbols st.Nsymbols hv.len_eq]
  refine nodup_flatMap_of _ [8, 7, 6, 5, 4, 3, 2, 1] (by decide) ?_ ?_
  · intro i _
    exact hnd.filter _
  · intro i _ j _ hij x hx hx2
    have h1 : x.length = i := by
      have h3 := (List.mem_filter.mp hx).2
      simpa using h3
    have h2 : x.length = j := by
      have h3 := (List.mem_filter.mp hx2).2
      simpa using h3
    exact hij (by omega)

/-- The serialization fold splits into a rewritten 8-byte header followed by
the flattened groups. -/
theorem finnFold_split (L : List (List Nat)) :
    ∀ (gs : List Nat), (∀ i ∈ gs, 1 ≤ i) → ∀ (out : List Nat), 8 ≤ out.length →
    ∃ hdr : List Nat, hdr.length = 8 ∧
      gs.foldl (fun output i =>
        ((output ++ (L.filter (fun s => s.length = i)).flatten).set (8 - i)
          ((L.filter (fun s => s.length = i)).length % 256))) out
      = hdr ++ out.drop 8
        ++ (gs.map (fun i => (L.filter (fun s => s.length = i)).flatten)).flatten := by
  intro gs
  induction gs with
  | nil =>
      intro _ out hlen
      refine ⟨out.take 8, ?_, ?_⟩
      · rw [List.length_take]
        omega
      · rw [List.foldl_nil, List.map_nil, List.flatten_nil, List.append_nil,
          List.take_append_drop]
  | cons i gs ih =>
      intro hpos out hlen
      have hi1 : 1 ≤ i := hpos i (List.mem_cons_self _ _)
      rw [List.foldl_cons]
      have hset : (out ++ (L.filter (fun s => s.length = i)).flatten).set (8 - i)
          ((L.filter (fun s => s.length = i)).length % 256)
          = out.set (8 - i) ((L.filter (fun s => s.length = i)).length % 256)
            ++ (L.filter (fun s => s.length = i)).flatten :=
        List.set_append_left _ _ (by omega)
      rw [hset]
      obtain ⟨hdr, hh8, hres⟩ := ih (fun j hj => hpos j (List.mem_cons_of_mem _ hj))
        (out.set (8 - i) ((L.filter (fun s => s.length = i)).length % 256)
          ++ (L.filter (fun s => s.length = i)).flatten)
        (by rw [List.length_append, List.length_set]; omega)
      rw [hres]
      refine ⟨hdr, hh8, ?_⟩
      have hd1 : (out.set (8 - i) ((L.filter (fun s => s.length = i)).length % 256)
            ++ (L.filter (fun s => s.length = i)).flatten).drop 8
          = (out.set (8 - i) ((L.filter (fun s => s.length = i)).length % 256)).drop 8
            ++ (L.filter (fun s => s.length = i)).flatten :=
        List.drop_append_of_le_length (by rw [List.length_set]; omega)
      have hd2 : (out.set (8 - i) ((L.filter (fun s => s.length = i)).length % 256)).drop 8
          = out.drop 8 :=
        List.drop_set_of_lt _ _ (by omega)
      rw [hd1, hd2, List.map_cons, List.flatten_cons]
      simp only [List.append_assoc]

theorem flatten_flatMap_eq (g : Nat → List (List Nat)) :
    ∀ (gs : List Nat), (gs.flatMap g).flatten
      = (gs.map (fun i => (g i).flatten)).flatten := by
  intro gs
  induction gs with
  | nil => rfl
  | cons i gs ih =>
      rw [List.flatMap_cons, List.flatten_append, List.map_cons, List.flatten_cons, ih]

/-- `Finnalize` writes an 8-byte header followed by exactly the serialized
symbol sequence. -/
theorem Finnalize_split (st : symbolTable) :
    ∃ hdr : List Nat, hdr.length = 8 ∧
      Builder.Finnalize st = hdr ++ (serializedSymbols st).flatten := by
  obtain ⟨hdr, h8, hres⟩ := finnFold_split
    ((List.range st.Nsymbols).map (fun j => st.Symbols.getD (256 + j) []))
    [8, 7, 6, 5, 4, 3, 2, 1] (by decide) [0, 0, 0, 0, 0, 0, 0, 0] (by decide)
  refine ⟨hdr, h8, ?_⟩
  rw [Finnalize_fold st, hres]
  rw [show ([0, 0, 0, 0, 0, 0, 0, 0] : List Nat).drop 8 = [] from rfl, List.append_nil]
  rw [serializedSymbols, flatten_flatMap_eq]

/-- Claim C3: no two learned symbols are ever byte-identical. With greedy
tokenization two distinct candidate sources (single codes or adjacent code
pairs) always produce distinct byte strings, so (i) every table produced by
a chain of trainer passes from the fresh table — in particular each pass of
`Build` — has pairwise distinct learned symbols, and (ii) the dictionary blob
`Build` produces consists of an 8-byte header plus the serialized symbol
sequence, which is duplicate-free; a popped candidate whose byte string is
already present in the new table never occurs. -/
theorem claim_C3 (samples : List (List Nat)) (hbytes : ∀ s ∈ samples, ByteStr s) :
    (∀ (sfs : List Nat) (st : symbolTable),
        List.foldlM (buildPass samples) newSymbolTable sfs = some st →
        (st.Symbols.drop 256).Nodup) ∧
    (∀ dict : List Nat, Build samples = some dict →
        ∃ st : symbolTable,
          List.foldlM (buildPass samples) newSymbolTable [8, 38, 68, 98, 128]
            = some st ∧
          (st.Symbols.drop 256).Nodup ∧
          (serializedSymbols st).Nodup ∧
          ∃ hdr : List Nat, hdr.length = 8 ∧
            dict = hdr ++ (serializedSymbols st).flatten) := by
  have hbase2 : (newSymbolTable.Symbols.drop 256).Nodup := by
    rw [List.drop_eq_nil_of_le (le_of_eq newSymbolTable_length)]
    exact List.nodup_nil
  constructor
  · intro sfs st h
    exact (foldlM_inv samples hbytes sfs newSymbolTable st newSymbolTable_valid hbase2 h).2
  · intro dict h
    rw [Build] at h
    rcases hf : List.foldlM (buildPass samples) newSymbolTable [8, 38, 68, 98, 128]
      with _ | st
    · rw [hf] at h
      exact Option.noConfusion h
    · rw [hf] at h
      have h2 : some (Builder.Finnalize st) = some dict := h
      injection h2 with h2
      obtain ⟨hv, hnd⟩ := foldlM_inv samples hbytes [8, 38, 68, 98, 128]
        newSymbolTable st newSymbolTable_valid hbase2 hf
      obtain ⟨hdr, h8, hsplit⟩ := Finnalize_split st
      exact ⟨st, rfl, hnd, serializedSymbols_nodup st hv hnd, hdr, h8,
        by rw [← h2, hsplit]⟩

/-- Witness for claim C3: the empty sample list with the empty pass chain. -/
theorem claim_C3_witness :
    (∀ s ∈ ([] : List (List Nat)), ByteStr s) ∧
    (newSymbolTable.Symbols.drop 256).Nodup := by
  refine ⟨by simp, ?_⟩
  exact (claim_C3 [] (by simp)).1 [] newSymbolTable rfl

end PassInv

end fsst
